import Mathlib

/-!
Verification of the Checked C temporal-memory-safety compiler passes
(lock insertion, type harmonization, free finder, basic-block splitting,
redundant key-check removal) against their natural-language specification.

The development shallowly embeds the relevant parts of each pass:

* `AddLock`     — lib/IR/CheckedCAddLockToMultiple.cpp
* `Harmonize`   — HarmonizeType.cpp (`HarmonizeTypePass::runOnFunction`)
* `FreeFinder`  — CheckedCFreeFinder.cpp
* `SplitBB`     — lib/Transforms/Scalar/CheckedCSplitBB.cpp
* `KeyOpt`      — lib/Transforms/Scalar/CheckedCKeyCheckOpt.cpp

IR values are identified by natural-number ids, functions by strings.
Machine integers play no arithmetic role in these passes, so constants
are carried as `Int`.
-/

namespace CheckedC

/-- IR types, as far as the passes inspect or build them.  The passes only
ever construct two- and three-field literal structs (`StructType::get` with
two or three arguments), so the struct arities are fixed here.
`mmPtr`/`mmArrayPtr` are the two safe-pointer kinds (`isMMPointerTy` /
`isMMArrayPointerTy` in the source); LLVM `PointerType` is `ptr`. -/
inductive Ty where
  | int : Nat → Ty
  | ptr : Ty → Ty
  | struct2 : Ty → Ty → Ty
  | struct3 : Ty → Ty → Ty → Ty
  | mmPtr : Ty → Ty
  | mmArrayPtr : Ty → Ty
deriving DecidableEq, Repr

/-- `Type::isMMSafePointerTy()`. -/
def Ty.isMMSafePointerTy : Ty → Bool
  | .mmPtr _ => true
  | .mmArrayPtr _ => true
  | _ => false

/-- `Type::isMMArrayPointerTy()`. -/
def Ty.isMMArrayPointerTy : Ty → Bool
  | .mmArrayPtr _ => true
  | _ => false

/-- Constants, as far as the lock-insertion pass builds them: integer
constants, the two- and three-field `ConstantStruct`s it synthesizes, and
opaque original initializers. -/
inductive Const where
  | cint : Int → Const
  | cstruct2 : Const → Const → Const
  | cstruct3 : Const → Const → Const → Const
  | copaque : Nat → Const
deriving DecidableEq, Repr

end CheckedC

namespace CheckedC.AddLock

/-!
Embedding of lib/IR/CheckedCAddLockToMultiple.cpp.

Instruction operands can reference SSA registers (by id), globals
(by name), or the constant GEP expression the pass creates for a rewritten
global.  Only the operand shapes this pass reads or writes are modelled.
-/

/-- An instruction operand. `globFieldAddr s i` stands for the constant
expression `getelementptr (ST, @s, 0, i)` built by the global rewrite. -/
inductive Operand where
  | reg : Nat → Operand
  | glob : String → Operand
  | globFieldAddr : String → Nat → Operand
deriving DecidableEq, Repr

/-- Instructions of a function body, restricted to what the pass touches:
stack allocations (with their allocated type, `_multiple` qualifier and
alignment), struct GEPs, stores of an integer constant, and anything else
reduced to an id plus its operand list. -/
inductive Inst where
  | alloca : Nat → Ty → Bool → Option Nat → Inst
  | gep : Nat → Nat → Nat → Inst
  | storeInt : Int → Nat → Inst
  | other : Nat → List Operand → Inst
deriving DecidableEq, Repr

/-- Operands read by an instruction (an `alloca` reads none; a `gep` and a
`storeInt` read registers). -/
def Inst.operands : Inst → List Operand
  | .alloca _ _ _ _ => []
  | .gep _ base _ => [.reg base]
  | .storeInt _ dest => [.reg dest]
  | .other _ ops => ops

/-- Linkage kinds distinguished by the pass. -/
inductive Linkage where
  | common : Linkage
  | external : Linkage
  | internal : Linkage
deriving DecidableEq, Repr

/-- A global variable, with the fields the pass reads
(`isMultipleQualified`, `hasCommonLinkage`, `getElementType`,
`hasInitializer`/`getInitializer`, `isConstant`, `getLinkage`,
address space, `isExternallyInitialized`, thread-locality, name)
and writes (alignment). -/
structure Global where
  name : String
  valueTy : Ty
  isConst : Bool
  linkage : Linkage
  init : Option Const
  threadLocal : Bool
  addrSpace : Nat
  externallyInit : Bool
  multipleQualified : Bool
  align : Option Nat
deriving DecidableEq, Repr

/-- A function: a declaration flag and a body of basic blocks (lists of
instructions).  All `alloca`s sit in the first block, as the source
assumes. -/
structure Func where
  isDecl : Bool
  body : List (List Inst)
deriving DecidableEq, Repr

/-- A module. -/
structure Module where
  globals : List Global
  functions : List Func
deriving DecidableEq, Repr

/-- Substitute operand `old` by `new` in one instruction
(`replaceAllUsesWith` restricted to one user). -/
def substInst (old new : Operand) (i : Inst) : Inst :=
  match i with
  | .alloca a t m al => .alloca a t m al
  | .gep a base idx =>
      if Operand.reg base = old then
        match new with
        | .reg n => .gep a n idx
        | _ => .other a [new]       -- a GEP whose base became a constant
      else .gep a base idx
  | .storeInt v dest =>
      if Operand.reg dest = old then
        match new with
        | .reg n => .storeInt v n
        | _ => .other 0 [new]
      else .storeInt v dest
  | .other a ops => .other a (ops.map (fun o => if o = old then new else o))

/-- Substitute throughout a body. -/
def substBody (old new : Operand) (body : List (List Inst)) :
    List (List Inst) :=
  body.map (fun blk => blk.map (substInst old new))

/-- The `_multiple`-qualified allocas of the entry block of a function
(the collection loop of `AllocateLockForMultipleStackVars` iterates only
over `Fn.front()`). -/
def multipleStackVars (f : Func) : List (Nat × Ty) :=
  match f.body with
  | [] => []
  | entry :: _ =>
      entry.filterMap (fun i =>
        match i with
        | .alloca a t true _ => some (a, t)
        | _ => none)

/-- What the per-alloca rewrite of `AllocateLockForMultipleStackVars`
emits for one `_multiple` alloca of allocated type `T`, given a supply
`n` of fresh value ids: the new alloca of the lock struct, the GEP to the
inner field (`VarPtr`), the GEP to the lock field, and the store of the
constant `1` into the lock field.  Returns the emitted instructions (in
creation order), the id of the inner-field GEP and the next fresh id. -/
def rewriteStackSlot (n : Nat) (t : Ty) : List Inst × Nat × Nat :=
  if t.isMMSafePointerTy then
    -- StructType::get(Int64Ty, Int64Ty, AllocaTy); alignment 16;
    -- VarPtr = GEP 2; store 1 into GEP 1.
    ([.alloca n (.struct3 (.int 64) (.int 64) t) false (some 16),
      .gep (n + 1) n 2,
      .gep (n + 2) n 1,
      .storeInt 1 (n + 2)], n + 1, n + 3)
  else
    -- StructType::get(Int64Ty, AllocaTy); VarPtr = GEP 1; store 1 into GEP 0.
    ([.alloca n (.struct2 (.int 64) t) false none,
      .gep (n + 1) n 1,
      .gep (n + 2) n 0,
      .storeInt 1 (n + 2)], n + 1, n + 3)

/-- Replace the alloca `a` inside a block: the emitted instructions go
right before it (`Builder.SetInsertPoint(Alloca)`) and the alloca itself
is erased (`ReplaceInstWithValue`). -/
def replaceAllocaInBlock (a : Nat) (emitted : List Inst)
    (blk : List Inst) : List Inst :=
  match blk with
  | [] => []
  | i :: rest =>
      match i with
      | .alloca b t m al =>
          if b = a then emitted ++ rest
          else .alloca b t m al :: replaceAllocaInBlock a emitted rest
      | i => i :: replaceAllocaInBlock a emitted rest

/-- Process one collected `_multiple` alloca of one function:
emit the replacement code, erase the alloca, and replace all its uses by
the inner-field GEP. -/
def processStackVar (f : Func) (n : Nat) (av : Nat × Ty) : Func × Nat :=
  let r := rewriteStackSlot n av.2
  let body1 :=
    match f.body with
    | [] => []
    | entry :: rest => replaceAllocaInBlock av.1 r.1 entry :: rest
  ({ f with body := substBody (.reg av.1) (.reg r.2.1) body1 }, r.2.2)

/-- `AllocateLockForMultipleStackVars`, per function: collect the
`_multiple` allocas of the entry block and process each.  Fresh value ids
start from `n`. -/
def lockStackVarsFn (f : Func) (n : Nat) : Func × Nat :=
  if f.isDecl then (f, n)
  else (multipleStackVars f).foldl
    (fun acc av => processStackVar acc.1 acc.2 av) (f, n)

/-- A fresh-id supply for a module: any id strictly larger than every id
appearing in it.  (The source gets freshness for free from pointer
identity; here ids are made explicit.) -/
def Inst.defId : Inst → Nat
  | .alloca a _ _ _ => a
  | .gep a _ _ => a
  | .storeInt _ _ => 0
  | .other a _ => a

/-- `AllocateLockForMultipleStackVars`: rewrite every function and report
`MultipleStackVars.empty()` — note: *empty*, i.e. `true` iff there was
nothing to rewrite. -/
def allocateLockForMultipleStackVars (m : Module) (n : Nat) :
    Module × Bool × Nat :=
  let step := m.functions.foldl
    (fun acc f =>
      let r := lockStackVarsFn f acc.2
      (acc.1 ++ [r.1], r.2))
    (([] : List Func), n)
  let noneFound := m.functions.all
    (fun f => f.isDecl || (multipleStackVars f).isEmpty)
  ({ m with functions := step.1 }, noneFound, step.2)

/-- The struct type, inner-field GEP index and new initializer chosen by
`AllocateLockForMultipleGlobals` for one global (after the common-linkage
promotion).  Mirrors the `if (GVTy->isMMSafePointerTy())` branch. -/
def rewriteGlobal (g : Global) : Global :=
  let gvTy := g.valueTy
  if gvTy.isMMSafePointerTy then
    { name := g.name ++ "_multiple"
      valueTy := .struct3 (.int 64) (.int 64) gvTy
      isConst := g.isConst
      linkage := g.linkage
      init := g.init.map (fun i => Const.cstruct3 (.cint 0) (.cint 2) i)
      threadLocal := false          -- GlobalVariable::NotThreadLocal
      addrSpace := g.addrSpace
      externallyInit := g.externallyInit
      multipleQualified := false
      align := some 16 }
  else
    { name := g.name ++ "_multiple"
      valueTy := .struct2 (.int 64) gvTy
      isConst := g.isConst
      linkage := g.linkage
      init := g.init.map (fun i => Const.cstruct2 (.cint 2) i)
      threadLocal := false
      addrSpace := g.addrSpace
      externallyInit := g.externallyInit
      multipleQualified := false
      align := some 16 }

/-- GEP index of the inner (original-value) field for a rewritten global. -/
def innerFieldIdx (g : Global) : Nat :=
  if g.valueTy.isMMSafePointerTy then 2 else 1

/-- The common-linkage promotion performed while collecting the
`_multiple` globals: `GV.setLinkage(GlobalValue::ExternalLinkage)`. -/
def promoteCommon (g : Global) : Global :=
  if g.multipleQualified && (g.linkage == .common) then
    { g with linkage := .external }
  else g

/-- Process one collected global: append its replacement, substitute the
constant GEP for every use, and erase the original. -/
def processGlobal (m : Module) (g : Global) : Module :=
  let ng := rewriteGlobal g
  let addr := Operand.globFieldAddr ng.name (innerFieldIdx g)
  { globals := (m.globals.filter (fun h => h.name ≠ g.name)) ++ [ng]
    functions := m.functions.map
      (fun f => { f with body := substBody (.glob g.name) addr f.body }) }

/-- `AllocateLockForMultipleGlobals`: promote common linkage while
collecting, rewrite each collected global, and report
`MultipleGV.empty()`. -/
def allocateLockForMultipleGlobals (m : Module) : Module × Bool :=
  let m0 : Module := { m with globals := m.globals.map promoteCommon }
  let collected := m0.globals.filter (fun g => g.multipleQualified)
  (collected.foldl processGlobal m0, collected.isEmpty)

/-- `CheckedCAddLockToMultiplePass::runOnModule`: runs the stack rewrite,
then the global rewrite, and returns
`hasMultipleStackVars || hasMultipleGlobals` — where each flag is in fact
the `empty()` result of the respective collection. -/
def runOnModule (m : Module) (n : Nat) : Module × Bool :=
  let s := allocateLockForMultipleStackVars m n
  let g := allocateLockForMultipleGlobals s.1
  (g.1, s.2.1 || g.2)

/-!  Characterizations used to state the claims: the interleaved
rewrite-and-substitute fold is equal to first expanding every collected
alloca and then performing all the use substitutions. -/

/-- Expand each collected alloca in turn (entry block only), handing out
fresh id blocks of size 3 starting at `n`. -/
def expandFrom : List (Nat × Ty) → Nat → List (List Inst) → List (List Inst)
  | [], _, body => body
  | av :: rest, n, body =>
      let body1 :=
        match body with
        | [] => []
        | entry :: r =>
            replaceAllocaInBlock av.1 (rewriteStackSlot n av.2).1 entry :: r
      expandFrom rest (n + 3) body1

/-- Replace every use of each collected alloca by its inner-field GEP
(whose id is `base + 1` for the fresh block starting at `base`). -/
def substFrom : List (Nat × Ty) → Nat → List (List Inst) → List (List Inst)
  | [], _, body => body
  | av :: rest, n, body =>
      substFrom rest (n + 3) (substBody (.reg av.1) (.reg (n + 1)) body)

/-- All register ids an instruction mentions (defined or read). -/
def Inst.regIds : Inst → List Nat
  | .alloca a _ _ _ => [a]
  | .gep a base _ => [a, base]
  | .storeInt _ dest => [dest]
  | .other a ops => a :: ops.filterMap (fun o =>
      match o with
      | .reg r => some r
      | _ => none)

/-- All register ids mentioned in a function body. -/
def bodyRegIds (body : List (List Inst)) : List Nat :=
  (body.flatten).flatMap Inst.regIds

/-- Replace every use of each collected global by the constant GEP to the
inner field of its replacement. -/
def substGlobFrom (gs : List Global) (fns : List Func) : List Func :=
  gs.foldl
    (fun fs g => fs.map (fun f =>
      { f with body := (substBody (.glob g.name)
          (.globFieldAddr (g.name ++ "_multiple") (innerFieldIdx g)) f.body) }))
    fns

/-!  Concrete modules used as evaluation inputs for the claims. -/

/-- A function body with one `_multiple` stack slot of type `i32` and a
use of it. -/
def exStackFn : Func :=
  { isDecl := false
    body := [[.alloca 1 (.int 32) true none, .storeInt 42 1]] }

/-- A `_multiple` global of plain type `i32` with an initializer. -/
def exGlobal : Global :=
  { name := "g", valueTy := .int 32, isConst := false, linkage := .internal
    init := some (.cint 5), threadLocal := false, addrSpace := 0
    externallyInit := false, multipleQualified := true, align := none }

/-- A module with one `_multiple` stack slot and one `_multiple` global:
`runOnModule` rewrites both, yet reports `false`. -/
def exModuleBoth : Module :=
  { globals := [exGlobal], functions := [exStackFn] }

/-- The empty module: nothing to rewrite, yet `runOnModule` reports
`true`. -/
def exModuleEmpty : Module := { globals := [], functions := [] }

/-- A thread-local `_multiple` global. -/
def exGlobalTL : Global :=
  { name := "t", valueTy := .int 32, isConst := false, linkage := .external
    init := some (.cint 7), threadLocal := true, addrSpace := 0
    externallyInit := false, multipleQualified := true, align := none }

/-- A module whose only `_multiple` storage is thread-local. -/
def exModuleTL : Module := { globals := [exGlobalTL], functions := [] }

/-- No instruction of `body` mentions register `a` among its operands. -/
def noRegUse (a : Nat) (body : List (List Inst)) : Prop :=
  ∀ blk ∈ body, ∀ i ∈ blk, Operand.reg a ∉ i.operands

/-- No instruction of `body` mentions the global `s` among its operands. -/
def noGlobUse (s : String) (body : List (List Inst)) : Prop :=
  ∀ blk ∈ body, ∀ i ∈ blk, Operand.glob s ∉ i.operands

/-- Well-formedness of a module's global names as LLVM's symbol table
guarantees it: names are distinct, and no name collides with a name the
pass is about to synthesize. -/
def WFGlobals (m : Module) : Prop :=
  (m.globals.map Global.name).Nodup ∧
  ∀ g ∈ m.globals, ∀ h ∈ m.globals, h.name ≠ g.name ++ "_multiple"

/-- The `_multiple` globals collected by the pass (after the common-linkage
promotion that happens during collection). -/
def collectedGlobals (m : Module) : List Global :=
  (m.globals.map promoteCommon).filter (fun g => g.multipleQualified)

end CheckedC.AddLock

namespace CheckedC.Harmonize

/-!
Embedding of `HarmonizeTypePass::runOnFunction` (HarmonizeType.cpp).

The pass never consults basic-block boundaries (it scans all instructions
of all blocks in order and inserts relative to specific instructions), so
a function body is modelled as one flat instruction list.  Every
instruction carries an explicit id; ids stand for the pointer identity of
the C++ `Instruction` objects.  LLVM attaches types to values; here the
types an instruction observes are carried on the instruction itself:
a load carries its loaded type and the element type of its pointer
operand, a store carries its value operand's type and the element type of
its pointer operand.  `mutateType` on a store's value operand is therefore
modelled as updating the store's observed value type.
-/

/-- Instructions, restricted to what the pass inspects or creates.
`gep00 id srcTy ptr` is the constant `{0,0}` GEP the pass builds;
`load id loadedTy ptr pointeeTy`; `store id valOp valTy ptr pointeeTy`. -/
inductive HInst where
  | load : Nat → Ty → Nat → Ty → HInst
  | gep00 : Nat → Ty → Nat → HInst
  | store : Nat → Nat → Ty → Nat → Ty → HInst
  | extractValue : Nat → Nat → Nat → HInst
  | insertValue : Nat → Nat → Nat → Nat → HInst
  | other : Nat → List Nat → HInst
deriving DecidableEq, Repr

/-- The id identifying the instruction itself. -/
def HInst.instId : HInst → Nat
  | .load i _ _ _ => i
  | .gep00 i _ _ => i
  | .store i _ _ _ _ => i
  | .extractValue i _ _ => i
  | .insertValue i _ _ _ => i
  | .other i _ => i

/-- The operand (use) ids of an instruction. -/
def HInst.useIds : HInst → List Nat
  | .load _ _ p _ => [p]
  | .gep00 _ _ p => [p]
  | .store _ v _ p _ => [v, p]
  | .extractValue _ a _ => [a]
  | .insertValue _ a e _ => [a, e]
  | .other _ ops => ops

/-- `isa<ExtractValueInst>(Inst) || isa<InsertValueInst>(Inst)`. -/
def HInst.isEVIV : HInst → Bool
  | .extractValue _ _ _ => true
  | .insertValue _ _ _ _ => true
  | _ => false

/-- `replaceUsesOfWith(old, nu)` on one instruction. -/
def replaceUses (old nu : Nat) : HInst → HInst
  | .load i lt p pt => .load i lt (if p = old then nu else p) pt
  | .gep00 i st p => .gep00 i st (if p = old then nu else p)
  | .store i v vt p pt =>
      .store i (if v = old then nu else v) vt (if p = old then nu else p) pt
  | .extractValue i a k =>
      .extractValue i (if a = old then nu else a) k
  | .insertValue i a e k =>
      .insertValue i (if a = old then nu else a) (if e = old then nu else e) k
  | .other i ops => .other i (ops.map (fun o => if o = old then nu else o))

/-- `replaceAllUsesWith` over a whole body. -/
def rauwBody (old nu : Nat) (insts : List HInst) : List HInst :=
  insts.map (replaceUses old nu)

/-- Insert `news` immediately before the (first) instruction whose id is
`pos`. -/
def insertBefore (insts : List HInst) (pos : Nat) (news : List HInst) :
    List HInst :=
  match insts with
  | [] => []
  | x :: rest =>
      if x.instId = pos then news ++ x :: rest
      else x :: insertBefore rest pos news

/-- Replace (in place) the instruction whose id is `pos` by `nu`
(the positional half of `ReplaceInstWithInst`). -/
def replaceElem (insts : List HInst) (pos : Nat) (nu : HInst) : List HInst :=
  insts.map (fun x => if x.instId = pos then nu else x)

/-- A function body. -/
structure HFunc where
  insts : List HInst
deriving DecidableEq, Repr

/-- An ill-formed load as collected by the first loop:
`pointeeTy->isMMSafePointerTy() && !loadedType->isMMSafePointerTy()`. -/
structure IllLoad where
  id : Nat
  loadedTy : Ty
  ptr : Nat
  pointee : Ty
deriving DecidableEq, Repr

/-- An ill-formed store as collected by the first loop:
`pointeeTy->isMMArrayPointerTy() && !valueTy->isMMArrayPointerTy()`. -/
structure IllStore where
  id : Nat
  valOp : Nat
  valTy : Ty
  ptr : Nat
  pointee : Ty
deriving DecidableEq, Repr

/-- One step of the collection loop over the instructions: ill-formed
loads set the `change` flag, ill-formed stores do not. -/
def scanStep (acc : List IllLoad × List IllStore × Bool) (i : HInst) :
    List IllLoad × List IllStore × Bool :=
  match i with
  | .load id lt p pt =>
      if pt.isMMSafePointerTy && !lt.isMMSafePointerTy then
        (acc.1 ++ [⟨id, lt, p, pt⟩], acc.2.1, true)
      else acc
  | .store id v vt p pt =>
      if pt.isMMArrayPointerTy && !vt.isMMArrayPointerTy then
        (acc.1, acc.2.1 ++ [⟨id, v, vt, p, pt⟩], acc.2.2)
      else acc
  | _ => acc

/-- The collection loop (`illFormedLoads`, `illFormedStores`, `change`). -/
def scan (f : HFunc) : List IllLoad × List IllStore × Bool :=
  f.insts.foldl scanStep ([], [], false)

/-- Collected ill-formed loads of `f`. -/
def illLoadsOf (f : HFunc) : List IllLoad := (scan f).1

/-- Collected ill-formed stores of `f`. -/
def illStoresOf (f : HFunc) : List IllStore := (scan f).2.1

/-- Element type of the `{0,0}` GEP into a safe-pointer aggregate: the
raw-pointer field (field 0). -/
def rawFieldTy : Ty → Ty
  | .mmPtr t => .ptr t
  | .mmArrayPtr t => .ptr t
  | .struct2 a _ => a
  | .struct3 a _ _ => a
  | t => t

/-- The repair loop body for one ill-formed load (second loop of
`runOnFunction`).  `g` and `l` are the ids of the GEP and the raw-pointer
load created for it during the collection loop; `fresh` supplies the id
for the whole-aggregate load if one is needed.  The pointer operand used
for the aggregate load is re-read from the live instruction
(`illLoad->getPointerOperand()` at repair time), while the GEP captured
its pointer operand when it was created during the collection loop. -/
def fixIllLoadAgg (insts : List HInst) (fresh : Nat) (il : IllLoad) :
    List HInst × Nat :=
  let curPtr :=
    (match insts.find? (fun x => x.instId = il.id) with
     | some (.load _ _ p _) => p
     | _ => il.ptr)
  let toFix := insts.filter (fun x => x.isEVIV && x.useIds.contains il.id)
  if toFix.isEmpty then (insts, fresh)
  else
    (( (insertBefore insts il.id [.load fresh il.pointee curPtr il.pointee]).map
        (fun x => if toFix.any (fun u => u.instId = x.instId)
          then replaceUses il.id fresh x else x)), fresh + 1)

def fixIllLoad (insts : List HInst) (fresh : Nat) (il : IllLoad)
    (g l : Nat) : List HInst × Nat :=
  let step1 := fixIllLoadAgg insts fresh il
  (rauwBody il.id l
    (replaceElem (insertBefore step1.1 il.id [.gep00 g il.pointee il.ptr])
      il.id (.load l il.loadedTy g (rawFieldTy il.pointee))),
   step1.2)

/-- The repair loop body for one ill-formed store (third loop of
`runOnFunction`): re-tag the value operand's observed type to the
aggregate type (`mutateType`), insert an `extractvalue ... 0` immediately
before the store, and rewrite every load that consumed the value operand
to consume the extracted raw pointer instead. -/
def fixIllStore (insts : List HInst) (fresh : Nat) (s : IllStore) :
    List HInst × Nat :=
  let insts1 := insts.map (fun x =>
    match x with
    | .store i v _ p pt => if i = s.id then .store i v pt p pt
                           else x
    | _ => x)
  let insts2 := insertBefore insts1 s.id [.extractValue fresh s.valOp 0]
  let insts3 := insts2.map (fun x =>
    match x with
    | .load i lt p pt =>
        if p = s.valOp then .load i lt fresh pt else .load i lt p pt
    | _ => x)
  (insts3, fresh + 1)

/-- `HarmonizeTypePass::runOnFunction`.  Fresh value ids start at `n`;
the collection loop creates, for the `i`-th ill-formed load, the GEP with
id `n + 2 i` and the raw-pointer load with id `n + 2 i + 1`; the
whole-aggregate loads and the extractvalues are created later and receive
ids from `n + 2 k` on, in creation order.  Returns the rewritten body and
the `change` flag, which is set only when an ill-formed load is found. -/
def runOnFunction (f : HFunc) (n : Nat) : HFunc × Bool :=
  let sc := scan f
  let loads := sc.1
  let stores := sc.2.1
  let change := sc.2.2
  let base2 := n + 2 * loads.length
  let phase2 := (loads.enum).foldl
    (fun acc il => fixIllLoad acc.1 acc.2 il.2 (n + 2 * il.1)
      (n + 2 * il.1 + 1))
    (f.insts, base2)
  let phase3 := stores.foldl (fun acc s => fixIllStore acc.1 acc.2 s) phase2
  ({ insts := phase3.1 }, change)

/-- The instruction element an `IllLoad` record was collected from. -/
def IllLoad.elem (il : IllLoad) : HInst :=
  .load il.id il.loadedTy il.ptr il.pointee

/-- The users of value `i` in function `f` (instructions with `i` among
their operands). -/
def usersOf (f : HFunc) (i : Nat) : List HInst :=
  f.insts.filter (fun x => x.useIds.contains i)

/-- All ids (instruction ids and operand ids) of `f` are below `n`. -/
def idsBound (f : HFunc) (n : Nat) : Prop :=
  ∀ x ∈ f.insts, x.instId < n ∧ ∀ o ∈ x.useIds, o < n

/-- Well-formedness for the repair claims, with `n` the start of the
fresh-id supply: ids are bounded by `n`; instruction ids are distinct
(they stand for distinct `Instruction` objects); no ill-formed load uses
another ill-formed load as its pointer operand, and no ill-formed store's
value operand coincides with an ill-formed load or such a load's pointer —
both excluded by the IR's typing (a pointer-to-aggregate cannot also be a
raw safe-pointer value produced by an `insertvalue`). -/
def HWF (f : HFunc) (n : Nat) : Prop :=
  idsBound f n ∧
  (f.insts.map HInst.instId).Nodup ∧
  (∀ il ∈ illLoadsOf f, ∀ il2 ∈ illLoadsOf f, il.ptr ≠ il2.id) ∧
  (∀ s ∈ illStoresOf f, ∀ il ∈ illLoadsOf f,
    s.valOp ≠ il.id ∧ s.valOp ≠ il.ptr)

/-- The repaired state of one ill-formed load `il` (with GEP id `g` and
raw-pointer-load id `l`), relative to the users recorded in the input
function: the ill load is erased, the `{0,0}` GEP is immediately followed
by the raw-pointer load, every `extractvalue`/`insertvalue` user consumes
a whole-aggregate load of the original pointer, and every other user
consumes the raw-pointer load. -/
def Repaired (f : HFunc) (il : IllLoad) (g l n : Nat)
    (insts : List HInst) : Prop :=
  (∀ x ∈ insts, x.instId ≠ il.id) ∧
  (∃ s t, insts = s ++ .gep00 g il.pointee il.ptr
      :: .load l il.loadedTy g (rawFieldTy il.pointee) :: t) ∧
  ((usersOf f il.id).filter HInst.isEVIV ≠ [] →
    ∃ a, n ≤ a ∧ (.load a il.pointee il.ptr il.pointee) ∈ insts ∧
      ∀ u ∈ (usersOf f il.id).filter HInst.isEVIV,
        ∃ x ∈ insts, x.instId = u.instId ∧ a ∈ x.useIds ∧
          il.id ∉ x.useIds) ∧
  (∀ u ∈ usersOf f il.id, u.isEVIV = false →
    ∃ x ∈ insts, x.instId = u.instId ∧ l ∈ x.useIds ∧ il.id ∉ x.useIds)

/-- The pending state of a not-yet-repaired ill load: its element is
still present, unchanged and unique, and for every user recorded in the
input there is a live instruction with the same id, the same
`extractvalue`/`insertvalue` classification, still consuming it. -/
def Pending (f : HFunc) (il : IllLoad) (insts : List HInst) : Prop :=
  (∃ b1 b2, insts = b1 ++ il.elem :: b2 ∧
    (∀ e ∈ b1, e.instId ≠ il.id) ∧ (∀ e ∈ b2, e.instId ≠ il.id)) ∧
  (∀ u ∈ usersOf f il.id, ∃ x ∈ insts, x.instId = u.instId ∧
    x.isEVIV = u.isEVIV ∧ il.id ∈ x.useIds)

/-- Id bookkeeping for the repair folds: instruction ids are distinct and
every id is either an original or already-assigned id below `lo`, or a
fresh id in the already-consumed counter range `[hi, c)`. -/
def IdState (lo hi c : Nat) (insts : List HInst) : Prop :=
  (insts.map HInst.instId).Nodup ∧
  ∀ x ∈ insts, x.instId < lo ∨ (hi ≤ x.instId ∧ x.instId < c)

/-- A function whose only defect is an ill-formed store (`*++p` shape):
`%4 = insertvalue ...; store i32* %4, {i32*,i64,i64*}* %2` plus a load
consuming the mis-typed value. -/
def exStoreFn : HFunc :=
  { insts :=
      [.insertValue 4 2 3 0,
       .store 5 4 (.ptr (.int 32)) 2 (.mmArrayPtr (.int 32)),
       .load 6 (.int 32) 4 (.int 32)] }

/-- A function with one ill-formed load (id 1), one `extractvalue` user,
one `insertvalue` user and one other user. -/
def exLoadFn : HFunc :=
  { insts :=
      [.load 1 (.ptr (.int 32)) 0 (.mmArrayPtr (.int 32)),
       .extractValue 2 1 0,
       .other 3 [2],
       .insertValue 4 1 3 0,
       .other 5 [1]] }

end CheckedC.Harmonize

/-!
## Model C: the Check-Removal pass (`CheckedCKeyCheckOptPass`)

Blocks are lists of the instructions relevant to `Opt`: key-check calls
(with the call id and the stripped pointer argument), stores (with the
pointer operand) and opaque others.  Value sets (`ValueSet_t`) are lists
with set-style insertion; `SetUnion`/`SetIntersection` translate
`CheckedCUtil.h` (`SetUnion` mutates its first argument and reports
whether its size grew).  `BBValueSetMap_t` maps are association lists
with `operator[]` defaulting to the empty set.
-/

namespace CheckedC.KeyOpt

inductive KInst where
  | check : Nat → Nat → KInst
  | store : Nat → KInst
  | other : KInst
deriving DecidableEq, Repr

structure KBlock where
  id : Nat
  insts : List KInst
deriving DecidableEq, Repr

/-- A function: its basic blocks in order (the first is the entry block)
and the predecessor lists of each block, in predecessor-iteration
order. -/
structure KFunc where
  blocks : List KBlock
  preds : List (Nat × List Nat)
deriving DecidableEq, Repr

def setInsert (s : List Nat) (x : Nat) : List Nat :=
  if s.contains x then s else s ++ [x]

def setErase (s : List Nat) (x : Nat) : List Nat :=
  s.filter (fun y => y ≠ x)

/-- `SetUnion(S1, S2)` of `CheckedCUtil.h`: insert every element of `S2`
into `S1` and report whether the size of `S1` grew. -/
def SetUnion (s1 s2 : List Nat) : List Nat × Bool :=
  let r := s2.foldl setInsert s1
  (r, decide (s1.length < r.length))

/-- `SetIntersection(S1, S2)` of `CheckedCUtil.h`. -/
def SetIntersection (s1 s2 : List Nat) : List Nat :=
  s1.filter (fun x => s2.contains x)

def lookupSet (m : List (Nat × List Nat)) (k : Nat) : List Nat :=
  match m.find? (fun e => e.1 = k) with
  | some e => e.2
  | none => []

def updateSet (m : List (Nat × List Nat)) (k : Nat) (v : List Nat) :
    List (Nat × List Nat) :=
  if (m.find? (fun e => e.1 = k)).isSome
  then m.map (fun e => if e.1 = k then (k, v) else e)
  else m ++ [(k, v)]

def isCheck : KInst → Bool
  | .check _ _ => true
  | _ => false

/-- One instruction of the BB-local phase: an already-checked pointer
schedules the check call for deletion, a first check records the
pointer, a store kills it. -/
def localStep (st : List Nat × List Nat) (i : KInst) :
    List Nat × List Nat :=
  match i with
  | .check id arg =>
      if st.1.contains arg then (st.1, setInsert st.2 id)
      else (setInsert st.1 arg, st.2)
  | .store p => (setErase st.1 p, st.2)
  | .other => st

/-- The BB-local phase over the blocks that contain key-check calls
(`BBWithChecks`); initializes `BBOut` and seeds `CheckToDel`. -/
def localPhase (blocks : List KBlock) (bbOut : List (Nat × List Nat))
    (toDel : List Nat) : (List (Nat × List Nat)) × List Nat :=
  blocks.foldl (fun acc b =>
    if b.insts.any isCheck then
      (let r := b.insts.foldl localStep (lookupSet acc.1 b.id, acc.2);
       (updateSet acc.1 b.id r.1, r.2))
    else acc) (bbOut, toDel)

/-- The dataflow state: `BBIn` and `BBOut`. -/
structure DFState where
  bbIn : List (Nat × List Nat)
  bbOut : List (Nat × List Nat)
deriving DecidableEq, Repr

def predsOf (kf : KFunc) (b : Nat) : List Nat :=
  match kf.preds.find? (fun e => e.1 = b) with
  | some e => e.2
  | none => []

def entryId (kf : KFunc) : Nat :=
  match kf.blocks.head? with
  | some b => b.id
  | none => 0

/-- `CheckedPtrBBIn` after erasing every store-killed pointer of the
block. -/
def eraseStores (s : List Nat) (b : KBlock) : List Nat :=
  b.insts.foldl (fun acc i =>
    match i with
    | KInst.store p => setErase acc p
    | _ => acc) s

/-- One block of the propagation loop body.  A may-free block is
skipped.  `BBIn` flows to `BBOut` (minus stores); then `BBIn` is
recomputed from the predecessors: if the first predecessor may free,
`BBIn[BB]` is cleared and the block is done; a later may-free
predecessor clears `BBIn[BB]` but only skips its own intersection
(the `continue` continues the predecessor loop), after which the
intersection of the remaining predecessors is unioned back in. -/
def iterBlock (kf : KFunc) (mayFree : List Nat) (acc : DFState × Bool)
    (b : KBlock) : DFState × Bool :=
  if mayFree.contains b.id then acc
  else
    let s := acc.1
    let u1 := SetUnion (lookupSet s.bbOut b.id)
      (eraseStores (lookupSet s.bbIn b.id) b)
    let s1 : DFState := { s with bbOut := (updateSet s.bbOut b.id u1.1) }
    let ch1 := acc.2 || u1.2
    if entryId kf = b.id then (s1, ch1)
    else
      match predsOf kf b.id with
      | [] => (s1, ch1)
      | fp :: rest =>
        if mayFree.contains fp then
          ({ s1 with bbIn := (updateSet s1.bbIn b.id []) }, ch1)
        else
          let folded := rest.foldl
            (fun (pacc : List Nat × Bool) p =>
              if mayFree.contains p then (pacc.1, true)
              else (SetIntersection pacc.1 (lookupSet s1.bbOut p), pacc.2))
            (lookupSet s1.bbOut fp, false)
          let bbInCur := if folded.2 then [] else lookupSet s1.bbIn b.id
          let u2 := SetUnion bbInCur folded.1
          ({ s1 with bbIn := (updateSet s1.bbIn b.id u2.1) }, ch1 || u2.2)

/-- One pass of the propagation loop over all blocks of a function,
with the `changed` flag. -/
def iterOnce (kf : KFunc) (mayFree : List Nat) (s : DFState) :
    DFState × Bool :=
  kf.blocks.foldl (iterBlock kf mayFree) (s, false)

/-- The `do ... while (changed)` propagation loop, with fuel; `none`
means the loop has not exited within `fuel` iterations. -/
def dfLoop (kf : KFunc) (mayFree : List Nat) :
    Nat → DFState → Option DFState
  | 0, _ => none
  | fuel+1, s =>
    let r := iterOnce kf mayFree s
    if r.2 then dfLoop kf mayFree fuel r.1 else some r.1

/-- One instruction of the redundant-check collection phase: checks
already scheduled are skipped, a check whose pointer is in
`CheckedPtrs` (a reference to `BBIn[BB]`) is scheduled, a store kills
the pointer. -/
def collectStep (st : List Nat × List Nat) (i : KInst) :
    List Nat × List Nat :=
  match i with
  | .check id arg =>
      if st.2.contains id then st
      else if st.1.contains arg then (st.1, setInsert st.2 id)
      else st
  | .store p => (setErase st.1 p, st.2)
  | .other => st

def collectPhase (blocks : List KBlock) (bbIn : List (Nat × List Nat))
    (toDel : List Nat) : (List (Nat × List Nat)) × List Nat :=
  blocks.foldl (fun acc b =>
    if b.insts.any isCheck then
      (let r := b.insts.foldl collectStep (lookupSet acc.1 b.id, acc.2);
       (updateSet acc.1 b.id r.1, r.2))
    else acc) (bbIn, toDel)

/-- Erase all scheduled checks in one batch. -/
def eraseChecks (toDel : List Nat) (blocks : List KBlock) : List KBlock :=
  blocks.map (fun b =>
    { b with insts := (b.insts.filter (fun i =>
        match i with
        | KInst.check id _ => !(toDel.contains id)
        | _ => true)) })

def checkIds (blocks : List KBlock) : List Nat :=
  (blocks.map (fun b => b.insts.filterMap (fun i =>
    match i with
    | KInst.check id _ => some id
    | _ => none))).join

/-- The number of key-check calls present in a module. -/
def countChecks (m : List KFunc) : Nat :=
  (checkIds ((m.map KFunc.blocks).join)).length

/-- `CheckedCKeyCheckOptPass::Opt`: the BB-local phase over the whole
module, then per function the propagation loop followed by the
collection phase (`BBIn`/`BBOut`/`CheckToDel` persist across
functions), then the batch erasure and the statistic increment.
Returns the rewritten module and the new cumulative counter, or `none`
if a propagation loop fails to exit within `fuel` iterations. -/
def Opt (m : List KFunc) (mayFree : List Nat) (fuel : Nat)
    (counter : Nat) : Option (List KFunc × Nat) :=
  let l := localPhase ((m.map KFunc.blocks).join) [] []
  let r := m.foldl
    (fun (acc : Option ((List (Nat × List Nat)) × (List (Nat × List Nat))
        × List Nat)) kf =>
      match acc with
      | none => none
      | some (bbIn, bbOut, toDel) =>
        match dfLoop kf mayFree fuel { bbIn := bbIn, bbOut := bbOut } with
        | none => none
        | some s2 =>
          (let c := collectPhase kf.blocks s2.bbIn toDel;
           some (c.1, s2.bbOut, c.2)))
    (some ([], l.1, l.2))
  match r with
  | none => none
  | some (_, _, toDel) =>
    some (m.map (fun kf => { kf with blocks := (eraseChecks toDel kf.blocks) }),
      counter + toDel.length)

/-- `CheckedCKeyCheckOptPass::runOnModule`: run `Opt` and return
whether the cumulative `NumDynamicKeyCheckRemoved` statistic (whose
prior value is `counter`) is positive. -/
def runOnModule (m : List KFunc) (mayFree : List Nat) (fuel : Nat)
    (counter : Nat) : Option (List KFunc × Nat × Bool) :=
  match Opt m mayFree fuel counter with
  | none => none
  | some (m2, c2) => some (m2, c2, decide (0 < c2))

/-- Scenario F of the spec: `B0` checks pointer 7, `B1` may free, `B2`
(predecessors `B0` then `B1`) checks pointer 7 again. -/
def exKF1 : KFunc :=
  { blocks := [⟨0, [.check 100 7]⟩, ⟨1, [.other]⟩, ⟨2, [.check 101 7]⟩],
    preds := [(1, [0]), (2, [0, 1])] }

def exMayFree1 : List Nat := [1]

/-- The dataflow state entering the propagation loop for `exKF1`. -/
def exDF0 : DFState := { bbIn := [], bbOut := [(0, [7]), (2, [7])] }

/-- The state after one propagation pass over `exKF1`; the loop then
revisits it forever, reporting `changed` each time. -/
def exDF1 : DFState := { bbIn := [(2, [7])], bbOut := [(0, [7]), (2, [7])] }

/-- A function with a single non-redundant check (for C7). -/
def exF7 : KFunc := { blocks := [⟨0, [.check 5 7]⟩], preds := [] }

/-- A function with one redundant check: pointer 7 is checked twice in
the entry block. -/
def exF7b : KFunc := { blocks := [⟨0, [.check 5 7, .check 6 7]⟩], preds := [] }

/-- `exF7b` after the redundant check (id 6) is erased. -/
def exF7b2 : KFunc := { blocks := [⟨0, [.check 5 7]⟩], preds := [] }

end CheckedC.KeyOpt

/-!
## Model D: the Block-Splitter pass (`CheckedCSplitBBPass`)

Instructions carry ids; a block is an id plus its instruction list,
ending in its (unconditional-branch) terminator.  `splitBlock` is
`BasicBlock::splitBasicBlock(I)`: the instructions from `I` on move to
a fresh successor block and the old block gets a fresh unconditional
branch as its new terminator.  `processCall` is one iteration of the
`SplitBB` loop; fresh block and instruction ids are drawn from a
counter.
-/

namespace CheckedC.SplitBB

inductive SInst where
  | call : Nat → SInst
  | other : Nat → SInst
  | term : Nat → SInst
deriving DecidableEq, Repr

def SInst.iid : SInst → Nat
  | .call i => i
  | .other i => i
  | .term i => i

def isTerm : SInst → Bool
  | .term _ => true
  | _ => false

structure SBlock where
  id : Nat
  insts : List SInst
deriving DecidableEq, Repr

/-- `splitBasicBlock`: in the block `bid`, the instructions from the one
with id `t` on move to the new block `freshBlock`; the old block is
terminated by a new unconditional branch (id `freshTerm`). -/
def splitBlock (blocks : List SBlock) (bid : Nat) (t : Nat)
    (freshBlock freshTerm : Nat) : List SBlock :=
  (blocks.map (fun b =>
    if b.id = bid then
      [⟨b.id, (b.insts.takeWhile (fun i => i.iid ≠ t))
          ++ [SInst.term freshTerm]⟩,
       ⟨freshBlock, b.insts.dropWhile (fun i => i.iid ≠ t)⟩]
    else [b])).join

/-- `Call->getParent()`. -/
def parentOf (blocks : List SBlock) (c : Nat) : Option SBlock :=
  blocks.find? (fun b => b.insts.any (fun i => i.iid = c))

/-- `Call->getNextNode()` inside its parent block. -/
def nextInst (b : SBlock) (c : Nat) : Option SInst :=
  ((b.insts.dropWhile (fun i => i.iid ≠ c)).drop 1).head?

/-- `BB->getFirstNonPHI() == Call` (the blocks handled here carry no
PHI nodes). -/
def isFirstInst (b : SBlock) (c : Nat) : Bool :=
  match b.insts.head? with
  | some i => decide (i.iid = c)
  | none => false

/-- One iteration of the `SplitBB` loop over `MayFreeCalls`: split the
parent block before the call unless it is already first, split after
the call, and record the middle block (the predecessor of the second
new block) in `MayFreeBBs`.  State: blocks, `MayFreeBBs`, fresh-id
counter. -/
def processCall (st : List SBlock × List Nat × Nat) (c : Nat) :
    List SBlock × List Nat × Nat :=
  match parentOf st.1 c with
  | none => st
  | some b =>
    match nextInst b c with
    | none => st
    | some nx =>
      let s1 :=
        if isFirstInst b c
        then (st.1, b.id, st.2.2)
        else (splitBlock st.1 b.id c st.2.2 (st.2.2 + 1), st.2.2, st.2.2 + 2)
      let blocks2 := splitBlock s1.1 s1.2.1 nx.iid s1.2.2 (s1.2.2 + 1)
      (blocks2, CheckedC.KeyOpt.setInsert st.2.1 s1.2.1, s1.2.2 + 2)

/-- `CheckedCSplitBBPass::SplitBB` over all may-free calls. -/
def SplitBB (blocks : List SBlock) (mayFreeCalls : List Nat)
    (counter : Nat) : List SBlock × List Nat × Nat :=
  mayFreeCalls.foldl processCall (blocks, [], counter)

/-- `CheckedCSplitBBPass::runOnModule`: run the splitter and report
`MayFreeCalls.empty() ? false : true`. -/
def runOnModule (blocks : List SBlock) (mayFreeCalls : List Nat)
    (counter : Nat) : (List SBlock × List Nat × Nat) × Bool :=
  (SplitBB blocks mayFreeCalls counter, !mayFreeCalls.isEmpty)

def instIdsOf (blocks : List SBlock) : List Nat :=
  (blocks.map (fun b => b.insts.map SInst.iid)).join

/-- A block is well formed when it ends in its terminator and contains
no other terminator. -/
def blockWFb (b : SBlock) : Bool :=
  match b.insts.getLast? with
  | some i => isTerm i && !(b.insts.dropLast.any isTerm)
  | none => false

/-- Well-formedness of a function body: instruction ids distinct, block
ids distinct, blocks terminator-ended, and the fresh counter above all
ids. -/
def SWF (blocks : List SBlock) (counter : Nat) : Prop :=
  (instIdsOf blocks).Nodup ∧
  ((blocks.map SBlock.id).Nodup ∧
   (∀ b ∈ blocks, blockWFb b = true) ∧
   (∀ x ∈ instIdsOf blocks, x < counter) ∧
   (∀ b ∈ blocks, b.id < counter))

/-- A block with two may-free calls (ids 2 and 4) amid other
instructions. -/
def exS3 : List SBlock :=
  [⟨0, [.other 1, .call 2, .other 3, .call 4, .term 5]⟩]

end CheckedC.SplitBB

/-!
## Model E: the Free-Finder pass (`CheckedCFreeFinderPass`)

Functions are identified by name; a call site records its id, its
resolved callee (`none` for an indirect call, mirroring a NULL
`CallGraphNode` function) and the functions it references as
arguments.  The function-reach database (`FnReaching`/`FnReached`,
which the source maintains in lockstep as the two views of one
reachability relation) is a single list of (reaching, reached) pairs
with set-style insertion.  The breadth-first worklist of
`FnReachAnalysis` carries fuel for its outer `while`; `none` means the
fuel ran out.
-/

namespace CheckedC.FreeFinder

structure FCall where
  id : Nat
  callee : Option String
  fnArgs : List String
deriving DecidableEq, Repr

structure FFunc where
  name : String
  isDecl : Bool
  calls : List FCall
deriving DecidableEq, Repr

def listPrefixOf : List Char → List Char → Bool
  | [], _ => true
  | _ :: _, [] => false
  | a :: as, b :: bs => a == b && listPrefixOf as bs

def hasSubstr (sub : List Char) : List Char → Bool
  | [] => listPrefixOf sub []
  | b :: bs => listPrefixOf sub (b :: bs) || hasSubstr sub bs

/-- `Name.contains("PtrKeyCheck")`. -/
def containsPKC (s : String) : Bool := hasSubstr "PtrKeyCheck".data s.data

def lookupFn (m : List FFunc) (n : String) : Option FFunc :=
  m.find? (fun f => f.name = n)

/-- `callee->isDeclaration()`; a call target always has at least a
declaration in the module. -/
def isDeclOf (m : List FFunc) (n : String) : Bool :=
  match lookupFn m n with
  | some f => f.isDecl
  | none => true

/-- The callee filter of the reach analysis: skip callees that are
`NULL`, declaration-only or key-check helpers. -/
def targetOK (m : List FFunc) (n : String) : Bool :=
  !(isDeclOf m n) && !(containsPKC n)

def pairInsert (P : List (String × String)) (p : String × String) :
    List (String × String) :=
  if P.contains p then P else P ++ [p]

/-- `FnReached[f]`: the functions recorded as reaching `f`. -/
def reachedSet (P : List (String × String)) (f : String) : List String :=
  (P.filter (fun e => e.2 = f)).map (fun e => e.1)

/-- `FnReaching[f]`: the functions recorded as reachable from `f`. -/
def reachingSet (P : List (String × String)) (f : String) : List String :=
  (P.filter (fun e => e.1 = f)).map (fun e => e.2)

/-- The four insertion loops run for one call edge `F → c`: every
function in `{F} ∪ FnReached[F]` is recorded as reaching every
function in `{c} ∪ FnReaching[c]`. -/
def insertEdge (P : List (String × String)) (F c : String) :
    List (String × String) :=
  (F :: reachedSet P F).foldl
    (fun acc x => (c :: reachingSet P c).foldl
      (fun acc2 y => pairInsert acc2 (x, y)) acc) P

/-- Process the call-graph edges of the visited function `f`:
deduplicate callees (`visitedCallee`), skip unknown, declaration-only
and key-check targets, update the reach database and push the callee
on the worklist. -/
def visitFn (m : List FFunc) (f : FFunc) (P : List (String × String))
    (work : List String) : List (String × String) × List String :=
  (f.calls.foldl
    (fun (acc : List (Option String) × List (String × String)
        × List String) call =>
      if acc.1.contains call.callee then acc
      else
        (call.callee :: acc.1,
         match call.callee with
         | none => (acc.2.1, acc.2.2)
         | some cname =>
           if targetOK m cname
           then (insertEdge acc.2.1 f.name cname, cname :: acc.2.2)
           else (acc.2.1, acc.2.2)))
    ([], P, work)).2

/-- The breadth-first worklist loop of `FnReachAnalysis`: pop until an
unvisited function is found (returning if the list drains), visit it,
and continue; `fuel` bounds the number of outer iterations. -/
def reachLoop (m : List FFunc) :
    Nat → List String → List String → List (String × String) →
    Option (List (String × String))
  | 0, _, _, _ => none
  | fuel+1, visited, work, P =>
    match work with
    | [] => some P
    | _ :: _ =>
      match work.dropWhile (fun n => visited.contains n) with
      | [] => some P
      | F :: rest =>
        match lookupFn m F with
        | none => reachLoop m fuel (F :: visited) rest P
        | some f =>
          reachLoop m fuel (F :: visited) (visitFn m f P rest).2
            (visitFn m f P rest).1

/-- `CheckedCFreeFinderPass::FnReachAnalysis`: the initial worklist is
every defined non-key-check function, pushed in module order (so the
last one is on top of the stack). -/
def FnReachAnalysis (m : List FFunc) (fuel : Nat) :
    Option (List (String × String)) :=
  reachLoop m fuel []
    (((m.filter (fun f => !f.isDecl && !(containsPKC f.name))).map
      (fun f => f.name)).reverse) []

/-- `MayFreeFnWL` (the source lists `abort` twice; a set ignores the
duplicate, and so does list membership). -/
def wlBase : List String :=
  ["malloc", "mm_alloc", "mm_array_alloc", "printf", "abort", "exit",
   "srand", "atoi", "atol", "abort"]

/-- A call is directly-may-free when its target is unknown (indirect)
or declaration-only with a name outside the whitelist. -/
def directMayFree (m : List FFunc) (wl : List String) (call : FCall) :
    Bool :=
  match call.callee with
  | none => true
  | some cname => isDeclOf m cname && !(wl.contains cname)

/-- `F->users()` restricted to call instructions: every call site that
references `fname`, either as its callee or as a function-valued
argument. -/
def usersCalls (m : List FFunc) (fname : String) : List Nat :=
  ((m.map (fun f => ((f.calls.filter (fun call =>
      call.callee == some fname || call.fnArgs.contains fname)).map
      (fun call => call.id)))).join)

def strInsert (s : List String) (x : String) : List String :=
  if s.contains x then s else s ++ [x]

/-- `CheckedCFreeFinderPass::FindMayFreeCalls`: step 1 collects the
directly-may-free call sites and their containing functions; step 2
adds, for every function already in `MayFreeFns`, everything in
`FnReached[f]`; step 3 inserts every call-instruction user of every
function in `MayFreeFns`. -/
def FindMayFreeCalls (m : List FFunc) (moduleName : String)
    (P : List (String × String)) : List String × List Nat :=
  let wl := wlBase ++ [moduleName ++ "_MMPtrKeyCheck",
    moduleName ++ "_MMArrayPtrKeyCheck"]
  let step1 := m.foldl
    (fun (acc : List String × List Nat) caller =>
      if caller.isDecl || containsPKC caller.name then acc
      else
        caller.calls.foldl
          (fun (acc2 : List String × List Nat) call =>
            if directMayFree m wl call then
              (strInsert acc2.1 caller.name,
               CheckedC.KeyOpt.setInsert acc2.2 call.id)
            else acc2)
          acc)
    ([], [])
  let fns2 := step1.1.foldl
    (fun acc f => (reachedSet P f).foldl strInsert acc) step1.1
  let calls2 := fns2.foldl
    (fun acc f => (usersCalls m f).foldl CheckedC.KeyOpt.setInsert acc)
    step1.2
  (fns2, calls2)

/-- `CheckedCFreeFinderPass::runOnModule` (it always reports the module
unchanged; the analysis results are `MayFreeFns` and `MayFreeCalls`). -/
def runOnModule (m : List FFunc) (moduleName : String) (fuel : Nat) :
    Option ((List String × List Nat) × Bool) :=
  match FnReachAnalysis m fuel with
  | none => none
  | some P => some (FindMayFreeCalls m moduleName P, false)

/-- The call-graph edge relation the reach analysis walks: `a` is a
defined non-key-check function one of whose call sites resolves to the
defined non-key-check function `b`. -/
def edgeB (m : List FFunc) (a b : String) : Bool :=
  match lookupFn m a with
  | some f => !f.isDecl && !(containsPKC a)
      && f.calls.any (fun call => call.callee == some b) && targetOK m b
  | none => false

/-- `f` (defined, reachable by the pass) contains a directly-may-free
call: the condition under which step 1 puts `f` in `MayFreeFns`. -/
def directFnB (m : List FFunc) (moduleName : String) (x : String) :
    Bool :=
  m.any (fun caller => caller.name = x
    && !(caller.isDecl || containsPKC caller.name)
    && caller.calls.any (fun call => directMayFree m
      (wlBase ++ [moduleName ++ "_MMPtrKeyCheck",
        moduleName ++ "_MMArrayPtrKeyCheck"]) call))

/-- `y` is the id of a directly-may-free call site in a defined
non-key-check function: the condition under which step 1 puts `y` in
`MayFreeCalls`. -/
def directCallB (m : List FFunc) (moduleName : String) (y : Nat) :
    Bool :=
  m.any (fun caller => !(caller.isDecl || containsPKC caller.name)
    && caller.calls.any (fun call => call.id = y && directMayFree m
      (wlBase ++ [moduleName ++ "_MMPtrKeyCheck",
        moduleName ++ "_MMArrayPtrKeyCheck"]) call))

/-- The body of the callee `for` loop of `FnReachAnalysis`, on the
accumulator `(visitedCallee, FnReached database, workingList)`. -/
def visitStep (m : List FFunc) (fname : String)
    (acc : List (Option String) × List (String × String) × List String)
    (call : FCall) :
    List (Option String) × List (String × String) × List String :=
  if acc.1.contains call.callee then acc
  else
    (call.callee :: acc.1,
     match call.callee with
     | none => (acc.2.1, acc.2.2)
     | some cname =>
       if targetOK m cname
       then (insertEdge acc.2.1 fname cname, cname :: acc.2.2)
       else (acc.2.1, acc.2.2))

/-- The call edges contributed by the call list `l` of the function
named `fname`: exactly the pairs the callee loop feeds to the reach
database. -/
def edgesOf (m : List FFunc) (fname : String) (l : List FCall)
    (u v : String) : Prop :=
  u = fname ∧ ∃ call ∈ l, call.callee = some v ∧ targetOK m v = true

/-- The call-graph edge relation restricted to already-visited
sources: the part of the graph the worklist loop has processed. -/
def edgeV (m : List FFunc) (visited : List String) (u v : String) :
    Prop :=
  edgeB m u v = true ∧ u ∈ visited

/-- The non-freeing whitelist after `FindMayFreeCalls` adds the two
module-specific key-check helpers. -/
def mkWL (moduleName : String) : List String :=
  wlBase ++ [moduleName ++ "_MMPtrKeyCheck",
    moduleName ++ "_MMArrayPtrKeyCheck"]

/-- Step 1 of `FindMayFreeCalls` as a standalone function: collect the
directly-may-free call sites and their containing functions. -/
def step1Fold (m : List FFunc) (wl : List String) :
    List String × List Nat :=
  m.foldl
    (fun (acc : List String × List Nat) caller =>
      if caller.isDecl || containsPKC caller.name then acc
      else
        caller.calls.foldl
          (fun (acc2 : List String × List Nat) call =>
            if directMayFree m wl call then
              (strInsert acc2.1 caller.name,
               CheckedC.KeyOpt.setInsert acc2.2 call.id)
            else acc2)
          acc)
    ([], [])

/-- Counterexample module: `f` has an indirect call (id 1), `h` is
defined with no calls, `g` calls `h` (id 2) passing `f` as a function
argument. -/
def exFf : FFunc := { name := "f", isDecl := false, calls := [⟨1, none, []⟩] }

def exFh : FFunc := { name := "h", isDecl := false, calls := [] }

def exFg : FFunc :=
  { name := "g", isDecl := false, calls := [⟨2, some "h", ["f"]⟩] }

def exM2 : List FFunc := [exFf, exFh, exFg]

/-- Witness module: `a` has an indirect call, `b` calls `a`, `d` calls
`b`; the transitive-caller closure pulls both `b` and `d` into
`MayFreeFns`. -/
def exM2b : List FFunc :=
  [{ name := "a", isDecl := false, calls := [⟨1, none, []⟩] },
   { name := "b", isDecl := false, calls := [⟨2, some "a", []⟩] },
   { name := "d", isDecl := false, calls := [⟨3, some "b", []⟩] }]

end CheckedC.FreeFinder

/-!
## Lemmas and claim theorems

First the Lock-Insertion pass (claims C4, C6, C8, C9).
-/

namespace CheckedC.AddLock

theorem substInst_alloca (old nu : Operand) (a : Nat) (t : Ty) (m : Bool)
    (al : Option Nat) :
    substInst old nu (.alloca a t m al) = .alloca a t m al := rfl

theorem rewriteStackSlot_fixed (a : Nat) (nu : Operand) (n : Nat) (t : Ty)
    (h : a < n) :
    ((rewriteStackSlot n t).1).map (substInst (.reg a) nu)
      = (rewriteStackSlot n t).1 := by
  have h1 : a ≠ n := Nat.ne_of_lt h
  have h2 : a ≠ n + 2 := Nat.ne_of_lt (Nat.lt_succ_of_lt (Nat.lt_succ_of_lt h))
  unfold rewriteStackSlot
  by_cases hs : t.isMMSafePointerTy <;>
    simp [hs, substInst, h1.symm, h2.symm]

theorem isAllocaInst_substInst (old nu : Operand) (i : Inst)
    (h : ∀ b t m al, i ≠ .alloca b t m al) :
    ∀ b t m al, substInst old nu i ≠ .alloca b t m al := by
  cases i with
  | alloca b t m al => exact absurd rfl (h b t m al)
  | gep x y z =>
    intro b t m al
    unfold substInst
    by_cases hy : Operand.reg y = old
    · cases nu <;> simp [hy]
    · simp [hy]
  | storeInt v d =>
    intro b t m al
    unfold substInst
    by_cases hy : Operand.reg d = old
    · cases nu <;> simp [hy]
    · simp [hy]
  | other x ops => intro b t m al; simp [substInst]

theorem replaceAlloca_cons_of_ne_alloca (a : Nat) (em : List Inst)
    (j : Inst) (l : List Inst) (h : ∀ b t m al, j ≠ .alloca b t m al) :
    replaceAllocaInBlock a em (j :: l) = j :: replaceAllocaInBlock a em l := by
  cases j with
  | alloca b t m al => exact absurd rfl (h b t m al)
  | gep x y z => rfl
  | storeInt v d => rfl
  | other x ops => rfl

theorem replaceAlloca_subst_comm (blk : List Inst) (a2 : Nat) (em : List Inst)
    (old nu : Operand) (hem : em.map (substInst old nu) = em) :
    replaceAllocaInBlock a2 em (blk.map (substInst old nu))
      = (replaceAllocaInBlock a2 em blk).map (substInst old nu) := by
  induction blk with
  | nil => rfl
  | cons i rest ih =>
    by_cases hi : ∀ b t m al, i ≠ Inst.alloca b t m al
    · rw [List.map_cons,
        replaceAlloca_cons_of_ne_alloca a2 em _ _
          (isAllocaInst_substInst old nu i hi),
        replaceAlloca_cons_of_ne_alloca a2 em _ _ hi, List.map_cons, ih]
    · push_neg at hi
      obtain ⟨b, t, m, al, rfl⟩ := hi
      rw [List.map_cons, substInst_alloca]
      by_cases hb : b = a2
      · subst hb
        simp [replaceAllocaInBlock, List.map_append, hem]
      · simp only [replaceAllocaInBlock, hb, if_false, List.map_cons,
          substInst_alloca, ih]

theorem expandFrom_subst_comm (l : List (Nat × Ty)) (k : Nat)
    (body : List (List Inst)) (a v : Nat) (ha : a < k) :
    expandFrom l k (substBody (.reg a) (.reg v) body)
      = substBody (.reg a) (.reg v) (expandFrom l k body) := by
  induction l generalizing k body with
  | nil => rfl
  | cons av rest ih =>
    have hem := rewriteStackSlot_fixed a (.reg v) k av.2 ha
    cases body with
    | nil =>
      show expandFrom rest (k + 3) _ = _
      rw [show substBody (Operand.reg a) (Operand.reg v) [] = [] from rfl]
      exact ih (k + 3) [] (Nat.lt_add_right 3 ha)
    | cons entry r =>
      show expandFrom rest (k + 3)
          (replaceAllocaInBlock av.1 (rewriteStackSlot k av.2).1
            (entry.map (substInst (.reg a) (.reg v)))
            :: (r.map (fun blk => blk.map (substInst (.reg a) (.reg v))))) = _
      rw [replaceAlloca_subst_comm entry av.1 _ _ _ hem]
      have h2 := ih (k + 3)
        (replaceAllocaInBlock av.1 (rewriteStackSlot k av.2).1 entry :: r)
        (Nat.lt_add_right 3 ha)
      simpa [substBody, expandFrom] using h2

theorem stack_fold_char (l : List (Nat × Ty)) (f : Func) (n : Nat)
    (hlt : ∀ p ∈ l, p.1 < n) :
    l.foldl (fun acc av => processStackVar acc.1 acc.2 av) (f, n)
      = ({ f with body := substFrom l n (expandFrom l n f.body) },
         n + 3 * l.length) := by
  induction l generalizing f n with
  | nil => simp [substFrom, expandFrom]
  | cons av rest ih =>
    have hav : av.1 < n := hlt av (List.mem_cons_self av rest)
    have hrest : ∀ p ∈ rest, p.1 < n + 3 := fun p hp =>
      Nat.lt_add_right 3 (hlt p (List.mem_cons_of_mem av hp))
    rw [List.foldl_cons]
    have hstep : processStackVar f n av =
        ({ f with body := (substBody (.reg av.1) (.reg (n + 1))
            (match f.body with
             | [] => []
             | entry :: r =>
                 replaceAllocaInBlock av.1 (rewriteStackSlot n av.2).1 entry
                   :: r)) }, n + 3) := by
      unfold processStackVar rewriteStackSlot
      by_cases hs : av.2.isMMSafePointerTy <;> simp [hs]
    rw [hstep, ih _ _ hrest]
    have hbody : substFrom rest (n + 3)
        (expandFrom rest (n + 3)
          (substBody (Operand.reg av.1) (Operand.reg (n + 1))
            (match f.body with
             | [] => []
             | entry :: r =>
                 replaceAllocaInBlock av.1 (rewriteStackSlot n av.2).1 entry
                   :: r)))
        = substFrom (av :: rest) n (expandFrom (av :: rest) n f.body) := by
      rw [expandFrom_subst_comm rest (n + 3) _ av.1 (n + 1)
        (Nat.lt_add_right 3 hav)]
      rfl
    rw [hbody]
    have harith : n + 3 + 3 * rest.length = n + 3 * (av :: rest).length := by
      simp [List.length_cons]
      ring
    rw [harith]

theorem substInst_no_old (old nu : Operand) (hne : nu ≠ old) (i : Inst) :
    old ∉ (substInst old nu i).operands := by
  cases i with
  | alloca b t m al => simp [substInst, Inst.operands]
  | gep x y z =>
    unfold substInst
    by_cases hy : Operand.reg y = old
    · cases nu <;> simp_all [Inst.operands] <;> exact fun hcon => hne hcon.symm
    · simp [hy, Inst.operands]
      exact fun h => hy h.symm
  | storeInt v d =>
    unfold substInst
    by_cases hy : Operand.reg d = old
    · cases nu <;> simp_all [Inst.operands] <;> exact fun hcon => hne hcon.symm
    · simp [hy, Inst.operands]
      exact fun h => hy h.symm
  | other x ops =>
    simp only [substInst, Inst.operands, List.mem_map]
    rintro ⟨o, _, hco⟩
    by_cases ho : o = old
    · rw [if_pos ho] at hco; exact hne hco
    · rw [if_neg ho] at hco; exact ho hco

theorem substInst_preserves_no (old nu target : Operand) (hne : nu ≠ target)
    (i : Inst) (h : target ∉ i.operands) :
    target ∉ (substInst old nu i).operands := by
  cases i with
  | alloca b t m al => simp [substInst, Inst.operands]
  | gep x y z =>
    unfold substInst
    by_cases hy : Operand.reg y = old
    · cases nu <;> simp_all [Inst.operands] <;> exact fun hcon => hne hcon.symm
    · simpa [hy, Inst.operands] using h
  | storeInt v d =>
    unfold substInst
    by_cases hy : Operand.reg d = old
    · cases nu <;> simp_all [Inst.operands] <;> exact fun hcon => hne hcon.symm
    · simpa [hy, Inst.operands] using h
  | other x ops =>
    simp only [substInst, Inst.operands, List.mem_map]
    rintro ⟨o, hmem, hco⟩
    by_cases ho : o = old
    · rw [if_pos ho] at hco; exact hne hco
    · rw [if_neg ho] at hco
      subst hco
      exact h (by simpa [Inst.operands] using hmem)

theorem substBody_noRegUse_self (a : Nat) (nu : Operand)
    (hne : nu ≠ .reg a) (body : List (List Inst)) :
    noRegUse a (substBody (.reg a) nu body) := by
  intro blk hblk i hi
  simp only [substBody, List.mem_map] at hblk
  obtain ⟨blk0, _, rfl⟩ := hblk
  simp only [List.mem_map] at hi
  obtain ⟨i0, _, rfl⟩ := hi
  exact substInst_no_old _ _ hne i0

theorem substBody_preserves_noRegUse (a : Nat) (old nu : Operand)
    (hne : nu ≠ .reg a) (body : List (List Inst)) (h : noRegUse a body) :
    noRegUse a (substBody old nu body) := by
  intro blk hblk i hi
  simp only [substBody, List.mem_map] at hblk
  obtain ⟨blk0, hb0, rfl⟩ := hblk
  simp only [List.mem_map] at hi
  obtain ⟨i0, hi0, rfl⟩ := hi
  exact substInst_preserves_no _ _ _ hne i0 (h blk0 hb0 i0 hi0)

theorem substFrom_preserves_noRegUse (a : Nat) (l : List (Nat × Ty))
    (k : Nat) (ha : a < k) (body : List (List Inst)) (h : noRegUse a body) :
    noRegUse a (substFrom l k body) := by
  induction l generalizing k body with
  | nil => exact h
  | cons av rest ih =>
    refine ih (k + 3) (Nat.lt_add_right 3 ha) _ ?_
    refine substBody_preserves_noRegUse a _ _ ?_ body h
    intro hcon
    rw [Operand.reg.injEq] at hcon
    omega

theorem stack_uses_gone (l : List (Nat × Ty)) (n : Nat)
    (hlt : ∀ p ∈ l, p.1 < n) (body : List (List Inst)) :
    ∀ p ∈ l, noRegUse p.1 (substFrom l n body) := by
  induction l generalizing n body with
  | nil => intro p hp; cases hp
  | cons av rest ih =>
    intro p hp
    rcases List.mem_cons.mp hp with rfl | hp
    · show noRegUse p.1 (substFrom rest (n + 3) _)
      refine substFrom_preserves_noRegUse p.1 rest (n + 3)
        (Nat.lt_add_right 3 (hlt p (List.mem_cons_self _ _))) _ ?_
      refine substBody_noRegUse_self p.1 _ ?_ body
      have := hlt p (List.mem_cons_self _ _)
      intro hcon
      rw [Operand.reg.injEq] at hcon
      omega
    · exact ih (n + 3)
        (fun q hq => Nat.lt_add_right 3 (hlt q (List.mem_cons_of_mem av hq)))
        _ p hp

theorem rewriteGlobal_name (g : Global) :
    (rewriteGlobal g).name = g.name ++ "_multiple" := by
  unfold rewriteGlobal
  by_cases hs : g.valueTy.isMMSafePointerTy <;> simp [hs]

theorem glob_fold_char (gs : List Global) (mm : Module)
    (hnm : ∀ g ∈ gs, ∀ h ∈ gs, h.name ≠ g.name ++ "_multiple") :
    gs.foldl processGlobal mm =
      { globals := mm.globals.filter
          (fun h => decide (h.name ∉ gs.map Global.name)) ++ gs.map rewriteGlobal,
        functions := substGlobFrom gs mm.functions } := by
  induction gs generalizing mm with
  | nil =>
    simp only [List.foldl_nil, List.map_nil, List.mem_nil_iff, not_false_iff]
    cases mm with
    | mk gl fns => simp [substGlobFrom, List.filter_true]
  | cons g rest ih =>
    rw [List.foldl_cons,
      ih _ (fun a ha b hb =>
        hnm a (List.mem_cons_of_mem g ha) b (List.mem_cons_of_mem g hb))]
    have hng : (fun h => decide (h.name ∉ rest.map Global.name))
        (rewriteGlobal g) = true := by
      simp only [decide_eq_true_eq, List.mem_map, not_exists, rewriteGlobal_name]
      intro h hh
      exact hnm g (List.mem_cons_self g rest) h (List.mem_cons_of_mem g hh.1)
        hh.2
    show ({ globals := _, functions := _ } : Module) = _
    congr 1
    · show ((mm.globals.filter (fun h => decide (h.name ≠ g.name)) ++
          [rewriteGlobal g]).filter
            (fun h => decide (h.name ∉ rest.map Global.name)))
          ++ rest.map rewriteGlobal
        = mm.globals.filter
            (fun h => decide (h.name ∉ (g :: rest).map Global.name))
          ++ (g :: rest).map rewriteGlobal
      rw [List.filter_append, List.filter_filter]
      have hone : ([rewriteGlobal g].filter
          (fun h => decide (h.name ∉ rest.map Global.name)))
          = [rewriteGlobal g] := by
        simp only [List.filter, hng]
      rw [hone]
      have hpred : mm.globals.filter
          (fun h => decide (h.name ∉ rest.map Global.name) &&
            decide (h.name ≠ g.name))
          = mm.globals.filter
            (fun h => decide (h.name ∉ (g :: rest).map Global.name)) := by
        apply List.filter_congr
        intro h _
        simp only [List.map_cons, List.mem_cons, not_or, decide_not]
        by_cases h1 : h.name = g.name <;>
          by_cases h2 : h.name ∈ rest.map Global.name <;>
            simp [h1, h2]
      rw [hpred]
      simp
    · show substGlobFrom rest (mm.functions.map _) = _
      have heq : (fun f : Func => { f with body := (substBody (.glob g.name)
            (.globFieldAddr (rewriteGlobal g).name (innerFieldIdx g))
            f.body) })
          = (fun f : Func => { f with body := (substBody (.glob g.name)
            (.globFieldAddr (g.name ++ "_multiple") (innerFieldIdx g))
            f.body) }) := by
        funext f
        rw [rewriteGlobal_name]
      rw [heq]
      rfl

theorem promoteCommon_name (g : Global) :
    (promoteCommon g).name = g.name := by
  unfold promoteCommon
  split <;> rfl

theorem promoted_names (m : Module) :
    (m.globals.map promoteCommon).map Global.name = m.globals.map Global.name := by
  rw [List.map_map]
  apply List.map_congr_left
  intro g _
  exact promoteCommon_name g

theorem glob_pass_char (m : Module) (hwf : WFGlobals m) :
    allocateLockForMultipleGlobals m =
      ({ globals := (m.globals.map promoteCommon).filter
            (fun g => !g.multipleQualified)
            ++ (collectedGlobals m).map rewriteGlobal,
          functions := substGlobFrom (collectedGlobals m) m.functions },
       (collectedGlobals m).isEmpty) := by
  have hmem0 : ∀ x ∈ m.globals.map promoteCommon, x.name ∈ m.globals.map Global.name := by
    intro x hx
    have : x.name ∈ (m.globals.map promoteCommon).map Global.name :=
      List.mem_map_of_mem Global.name hx
    rwa [promoted_names] at this
  have hnm : ∀ g ∈ collectedGlobals m, ∀ h ∈ collectedGlobals m,
      h.name ≠ g.name ++ "_multiple" := by
    intro g hg h hh
    have hg0 : g ∈ m.globals.map promoteCommon := List.mem_of_mem_filter hg
    have hh0 : h ∈ m.globals.map promoteCommon := List.mem_of_mem_filter hh
    obtain ⟨g1, hg1, rfl⟩ := List.mem_map.mp hg0
    obtain ⟨h1, hh1, rfl⟩ := List.mem_map.mp hh0
    rw [promoteCommon_name, promoteCommon_name]
    exact hwf.2 g1 hg1 h1 hh1
  have hc : collectedGlobals m
      = ((m.globals.map promoteCommon).filter (fun g => g.multipleQualified)) :=
    rfl
  unfold allocateLockForMultipleGlobals
  show (List.foldl processGlobal
      { globals := m.globals.map promoteCommon, functions := m.functions }
      ((m.globals.map promoteCommon).filter (fun g => g.multipleQualified)),
      ((m.globals.map promoteCommon).filter
        (fun g => g.multipleQualified)).isEmpty)
    = _
  rw [← hc, glob_fold_char _ _ hnm]
  have hfilter : (m.globals.map promoteCommon).filter
      (fun h => decide (h.name ∉ (collectedGlobals m).map Global.name))
      = (m.globals.map promoteCommon).filter (fun g => !g.multipleQualified) := by
    apply List.filter_congr
    intro h hh
    have hnodup : ((m.globals.map promoteCommon).map Global.name).Nodup := by
      rw [promoted_names]; exact hwf.1
    by_cases hm : h.multipleQualified
    · have : h.name ∈ (collectedGlobals m).map Global.name := by
        refine List.mem_map_of_mem Global.name ?_
        unfold collectedGlobals
        exact List.mem_filter.mpr ⟨hh, by simp [hm]⟩
      simp [this, hm]
    · have : h.name ∉ (collectedGlobals m).map Global.name := by
        intro hcon
        obtain ⟨h2, hh2, hname⟩ := List.mem_map.mp hcon
        have hh2mem : h2 ∈ m.globals.map promoteCommon :=
          List.mem_of_mem_filter hh2
        have : h2 = h :=
          List.inj_on_of_nodup_map hnodup hh2mem hh hname
        subst this
        exact hm (by simpa using (List.mem_filter.mp hh2).2)
      simp [this, hm]
  rw [Prod.mk.injEq]
  refine ⟨?_, rfl⟩
  rw [Module.mk.injEq]
  exact ⟨by rw [hfilter], rfl⟩

theorem substGlobFrom_preserves_noGlobUse (s : String) (gs : List Global)
    (fns : List Func) (h : ∀ f ∈ fns, noGlobUse s f.body) :
    ∀ f ∈ substGlobFrom gs fns, noGlobUse s f.body := by
  induction gs generalizing fns with
  | nil => exact h
  | cons g rest ih =>
    refine ih _ ?_
    intro f hf
    simp only [List.mem_map] at hf
    obtain ⟨f0, hf0, rfl⟩ := hf
    intro blk hblk i hi
    simp only [substBody, List.mem_map] at hblk
    obtain ⟨blk0, hb0, rfl⟩ := hblk
    simp only [List.mem_map] at hi
    obtain ⟨i0, hi0, rfl⟩ := hi
    exact substInst_preserves_no _ _ _ (by simp) i0 (h f0 hf0 blk0 hb0 i0 hi0)

theorem glob_uses_gone (gs : List Global) (fns : List Func) :
    ∀ g ∈ gs, ∀ f ∈ substGlobFrom gs fns, noGlobUse g.name f.body := by
  induction gs generalizing fns with
  | nil => intro g hg; cases hg
  | cons g0 rest ih =>
    intro g hg
    rcases List.mem_cons.mp hg with rfl | hg
    · refine substGlobFrom_preserves_noGlobUse g.name rest _ ?_
      intro f hf
      simp only [List.mem_map] at hf
      obtain ⟨f0, hf0, rfl⟩ := hf
      intro blk hblk i hi
      simp only [substBody, List.mem_map] at hblk
      obtain ⟨blk0, hb0, rfl⟩ := hblk
      simp only [List.mem_map] at hi
      obtain ⟨i0, hi0, rfl⟩ := hi
      exact substInst_no_old _ _ (by simp) i0
    · exact ih _ g hg

theorem promoteCommon_fields (g : Global) :
    (promoteCommon g).multipleQualified = g.multipleQualified ∧
    (promoteCommon g).name = g.name ∧
    (promoteCommon g).valueTy = g.valueTy ∧
    (promoteCommon g).isConst = g.isConst ∧
    (promoteCommon g).init = g.init ∧
    (promoteCommon g).addrSpace = g.addrSpace ∧
    (promoteCommon g).externallyInit = g.externallyInit := by
  unfold promoteCommon
  split <;> simp

theorem promoteCommon_linkage (g : Global) (hm : g.multipleQualified = true) :
    (g.linkage = .common → (promoteCommon g).linkage = .external) ∧
    (g.linkage ≠ .common → (promoteCommon g).linkage = g.linkage) := by
  constructor
  · intro hc
    unfold promoteCommon
    simp [hm, hc]
  · intro hc
    unfold promoteCommon
    have : (g.linkage == Linkage.common) = false := by
      cases hl : g.linkage <;> simp_all
    simp [this]

/-- **C6** (code evaluation): `runOnModule` returns `empty() || empty()`.
On a module with one `_multiple` stack slot *and* one `_multiple` global
it rewrites the module yet returns `false`; on the empty module it changes
nothing yet returns `true`.  The claim "returns `true` iff the module was
changed" is violated in both directions. -/
theorem claim_C6_code_eval :
    ((runOnModule exModuleBoth 100).1 ≠ exModuleBoth ∧
      (runOnModule exModuleBoth 100).2 = false) ∧
    ((runOnModule exModuleEmpty 0).1 = exModuleEmpty ∧
      (runOnModule exModuleEmpty 0).2 = true) := by
  refine ⟨⟨by decide, by decide⟩, by decide, by decide⟩

/-- **C9** (counterexample): on a module whose only `_multiple` storage is
a thread-local global, the pass does *not* report an error and does *not*
leave the IR unchanged: it silently rewrites the global and creates the
replacement as non-thread-local. -/
theorem claim_C9_counterexample :
    (allocateLockForMultipleGlobals exModuleTL).1 ≠ exModuleTL ∧
    ∃ ng ∈ (allocateLockForMultipleGlobals exModuleTL).1.globals,
      ng.name = "t_multiple" ∧ ng.threadLocal = false := by
  refine ⟨by decide, ?_⟩
  refine ⟨rewriteGlobal exGlobalTL, by decide, by decide, by decide⟩

/-- **C9** (amended): the Lock-Insertion pass performs no thread-locality
precondition check at all.  A thread-local `_multiple` global is rewritten
exactly like a non-thread-local one (the rewrite never reads the flag), and
the replacement global is always created `NotThreadLocal`; no error is
reported and the rewrite is not suppressed. -/
theorem claim_C9_no_thread_local_check :
    ∀ (g : Global) (b : Bool),
      (rewriteGlobal g).threadLocal = false ∧
      rewriteGlobal { g with threadLocal := b } = rewriteGlobal g ∧
      (∀ m : Module, WFGlobals m → g ∈ collectedGlobals m →
        ∃ ng ∈ (allocateLockForMultipleGlobals m).1.globals,
          ng.name = g.name ++ "_multiple" ∧ ng.threadLocal = false) := by
  intro g b
  refine ⟨?_, ?_, ?_⟩
  · by_cases hs : g.valueTy.isMMSafePointerTy <;> simp [rewriteGlobal, hs]
  · unfold rewriteGlobal
    by_cases hs : g.valueTy.isMMSafePointerTy <;> simp [hs]
  · intro m hwf hg
    rw [glob_pass_char m hwf]
    refine ⟨rewriteGlobal g, ?_, rewriteGlobal_name g, ?_⟩
    · simp only [List.mem_append]
      exact Or.inr (List.mem_map_of_mem rewriteGlobal hg)
    · by_cases hs : g.valueTy.isMMSafePointerTy <;> simp [rewriteGlobal, hs]

/-- **C9** witness. -/
theorem claim_C9_no_thread_local_check_witness :
    ∃ ng ∈ (allocateLockForMultipleGlobals exModuleTL).1.globals,
      ng.name = "t" ++ "_multiple" ∧ ng.threadLocal = false :=
  (claim_C9_no_thread_local_check exGlobalTL true).2.2 exModuleTL
    (by constructor <;> decide) (by decide)

/-- **C4**: for every `_multiple` storage object of inner type `T`:
a safe-pointer `T` gets `Struct{i64,i64,T}` with alignment 16, the lock in
field 1 and the object in field 2; any other `T` gets `Struct{i64,T}` with
the lock in field 0 and the object in field 1; the stored lock constant is
`1` for stack objects and `2` (inside the synthesized initializer) for
globals; and all uses of the original object are replaced by the address
of the inner field (the `substFrom`/`substGlobFrom` equations below), so
that no use of the original survives. -/
theorem claim_C4 :
    (∀ (n : Nat) (t : Ty), t.isMMSafePointerTy = true →
      (rewriteStackSlot n t).1
        = [.alloca n (.struct3 (.int 64) (.int 64) t) false (some 16),
           .gep (n + 1) n 2, .gep (n + 2) n 1, .storeInt 1 (n + 2)] ∧
      (rewriteStackSlot n t).2.1 = n + 1) ∧
    (∀ (n : Nat) (t : Ty), t.isMMSafePointerTy = false →
      (rewriteStackSlot n t).1
        = [.alloca n (.struct2 (.int 64) t) false none,
           .gep (n + 1) n 1, .gep (n + 2) n 0, .storeInt 1 (n + 2)] ∧
      (rewriteStackSlot n t).2.1 = n + 1) ∧
    (∀ g : Global,
      (g.valueTy.isMMSafePointerTy = true →
        (rewriteGlobal g).valueTy = .struct3 (.int 64) (.int 64) g.valueTy ∧
        (rewriteGlobal g).align = some 16 ∧ innerFieldIdx g = 2 ∧
        ∀ i, g.init = some i →
          (rewriteGlobal g).init = some (.cstruct3 (.cint 0) (.cint 2) i)) ∧
      (g.valueTy.isMMSafePointerTy = false →
        (rewriteGlobal g).valueTy = .struct2 (.int 64) g.valueTy ∧
        innerFieldIdx g = 1 ∧
        ∀ i, g.init = some i →
          (rewriteGlobal g).init = some (.cstruct2 (.cint 2) i))) ∧
    (∀ (f : Func) (n : Nat), f.isDecl = false →
      (∀ p ∈ multipleStackVars f, p.1 < n) →
      (lockStackVarsFn f n).1.body
        = substFrom (multipleStackVars f) n
            (expandFrom (multipleStackVars f) n f.body) ∧
      ∀ p ∈ multipleStackVars f, noRegUse p.1 (lockStackVarsFn f n).1.body) ∧
    (∀ m : Module, WFGlobals m →
      (allocateLockForMultipleGlobals m).1.functions
        = substGlobFrom (collectedGlobals m) m.functions ∧
      ∀ g ∈ collectedGlobals m,
        ∀ f ∈ (allocateLockForMultipleGlobals m).1.functions,
          noGlobUse g.name f.body) := by
  refine ⟨?_, ?_, ?_, ?_, ?_⟩
  · intro n t ht
    simp [rewriteStackSlot, ht]
  · intro n t ht
    simp [rewriteStackSlot, ht]
  · intro g
    constructor
    · intro hs
      refine ⟨?_, ?_, ?_, ?_⟩ <;>
        simp [rewriteGlobal, innerFieldIdx, hs]
    · intro hs
      refine ⟨?_, ?_, ?_⟩ <;>
        simp [rewriteGlobal, innerFieldIdx, hs]
  · intro f n hdecl hlt
    have hchar : lockStackVarsFn f n
        = ({ f with body := (substFrom (multipleStackVars f) n
            (expandFrom (multipleStackVars f) n f.body)) },
          n + 3 * (multipleStackVars f).length) := by
      unfold lockStackVarsFn
      rw [if_neg (by simp [hdecl])]
      exact stack_fold_char (multipleStackVars f) f n hlt
    rw [hchar]
    exact ⟨rfl, fun p hp => stack_uses_gone (multipleStackVars f) n hlt _ p hp⟩
  · intro m hwf
    rw [glob_pass_char m hwf]
    exact ⟨rfl, fun g hg f hf => glob_uses_gone (collectedGlobals m)
      m.functions g hg f hf⟩

/-- **C4** witness. -/
theorem claim_C4_witness :
    (rewriteStackSlot 10 (Ty.mmPtr (Ty.int 8))).1
      = [.alloca 10 (.struct3 (.int 64) (.int 64) (.mmPtr (.int 8))) false
           (some 16),
         .gep 11 10 2, .gep 12 10 1, .storeInt 1 12] ∧
    (lockStackVarsFn exStackFn 10).1.body
      = substFrom (multipleStackVars exStackFn) 10
          (expandFrom (multipleStackVars exStackFn) 10 exStackFn.body) ∧
    (allocateLockForMultipleGlobals exModuleBoth).1.functions
      = substGlobFrom (collectedGlobals exModuleBoth) exModuleBoth.functions :=
  ⟨(claim_C4.1 10 (Ty.mmPtr (Ty.int 8)) rfl).1,
   (claim_C4.2.2.2.1 exStackFn 10 rfl (by decide)).1,
   (claim_C4.2.2.2.2 exModuleBoth (by constructor <;> decide)).1⟩

/-- **C8**: for every `_multiple` global `g0`: common linkage is promoted
to external before the rewrite; the replacement is named
`g0.name ++ "_multiple"`, has alignment 16, keeps constness, address
space, the externally-initialized flag and the (promoted) linkage, is not
thread-local, has initializer `{0, 2, init}` (safe-pointer case) or
`{2, init}` (plain case) exactly when `g0` had one; the replacement is in
the output module, no global named `g0.name` remains, and every use of
`g0` in every function is replaced by the constant GEP to the inner field
(the `substGlobFrom` equation). -/
theorem claim_C8 :
    ∀ (m : Module), WFGlobals m → ∀ g0 ∈ m.globals,
      g0.multipleQualified = true →
      (g0.linkage = .common → (promoteCommon g0).linkage = .external) ∧
      (g0.linkage ≠ .common →
        (promoteCommon g0).linkage = g0.linkage) ∧
      (rewriteGlobal (promoteCommon g0)).name = g0.name ++ "_multiple" ∧
      (rewriteGlobal (promoteCommon g0)).align = some 16 ∧
      (rewriteGlobal (promoteCommon g0)).isConst = g0.isConst ∧
      (rewriteGlobal (promoteCommon g0)).addrSpace = g0.addrSpace ∧
      (rewriteGlobal (promoteCommon g0)).externallyInit
        = g0.externallyInit ∧
      (rewriteGlobal (promoteCommon g0)).threadLocal = false ∧
      (rewriteGlobal (promoteCommon g0)).linkage
        = (promoteCommon g0).linkage ∧
      ((rewriteGlobal (promoteCommon g0)).init.isSome ↔ g0.init.isSome) ∧
      (∀ i, g0.init = some i →
        (rewriteGlobal (promoteCommon g0)).init
          = some (if g0.valueTy.isMMSafePointerTy
              then Const.cstruct3 (.cint 0) (.cint 2) i
              else Const.cstruct2 (.cint 2) i)) ∧
      rewriteGlobal (promoteCommon g0)
        ∈ (allocateLockForMultipleGlobals m).1.globals ∧
      (∀ h ∈ (allocateLockForMultipleGlobals m).1.globals,
        h.name ≠ g0.name) ∧
      (allocateLockForMultipleGlobals m).1.functions
        = substGlobFrom (collectedGlobals m) m.functions ∧
      (∀ f ∈ (allocateLockForMultipleGlobals m).1.functions,
        noGlobUse g0.name f.body) := by
  intro m hwf g0 hg0 hm
  obtain ⟨hmq, hname, hvty, hconst, hinit, has, hext⟩ :=
    promoteCommon_fields g0
  have hcol : promoteCommon g0 ∈ collectedGlobals m := by
    unfold collectedGlobals
    refine List.mem_filter.mpr ⟨List.mem_map_of_mem promoteCommon hg0, ?_⟩
    simp [hmq, hm]
  refine ⟨(promoteCommon_linkage g0 hm).1, (promoteCommon_linkage g0 hm).2,
    ?_, ?_, ?_, ?_, ?_, ?_, ?_, ?_, ?_, ?_, ?_, ?_, ?_⟩
  · rw [rewriteGlobal_name, hname]
  · by_cases hs : (promoteCommon g0).valueTy.isMMSafePointerTy <;>
      simp [rewriteGlobal, hs]
  · by_cases hs : (promoteCommon g0).valueTy.isMMSafePointerTy <;>
      simp [rewriteGlobal, hs, hconst]
  · by_cases hs : (promoteCommon g0).valueTy.isMMSafePointerTy <;>
      simp [rewriteGlobal, hs, has]
  · by_cases hs : (promoteCommon g0).valueTy.isMMSafePointerTy <;>
      simp [rewriteGlobal, hs, hext]
  · by_cases hs : (promoteCommon g0).valueTy.isMMSafePointerTy <;>
      simp [rewriteGlobal, hs]
  · by_cases hs : (promoteCommon g0).valueTy.isMMSafePointerTy <;>
      simp [rewriteGlobal, hs]
  · by_cases hs : (promoteCommon g0).valueTy.isMMSafePointerTy <;>
      simp [rewriteGlobal, hs, hinit]
  · intro i hi
    rw [← hvty]
    by_cases hs : (promoteCommon g0).valueTy.isMMSafePointerTy <;>
      simp [rewriteGlobal, hs, hinit, hi]
  · rw [glob_pass_char m hwf]
    simp only [List.mem_append]
    exact Or.inr (List.mem_map_of_mem rewriteGlobal hcol)
  · rw [glob_pass_char m hwf]
    intro h hh
    simp only [List.mem_append] at hh
    rcases hh with hh | hh
    · obtain ⟨hmem1, hnm1⟩ := List.mem_filter.mp hh
      obtain ⟨h0, hh0, rfl⟩ := List.mem_map.mp hmem1
      rw [promoteCommon_name]
      intro hcon
      have hnodup := hwf.1
      have : h0 = g0 := by
        refine List.inj_on_of_nodup_map ?_ hh0 hg0 hcon
        exact hwf.1
      subst this
      obtain ⟨hmq0, -⟩ := promoteCommon_fields h0
      rw [hmq0, hm] at hnm1
      simp at hnm1
    · obtain ⟨h1, hmem1, rfl⟩ := List.mem_map.mp hh
      rw [rewriteGlobal_name]
      have hmem0 : h1 ∈ m.globals.map promoteCommon :=
        List.mem_of_mem_filter hmem1
      obtain ⟨h0, hh0, rfl⟩ := List.mem_map.mp hmem0
      rw [promoteCommon_name]
      exact fun hcon => hwf.2 h0 hh0 g0 hg0 hcon.symm
  · rw [glob_pass_char m hwf]
  · rw [glob_pass_char m hwf]
    intro f hf
    have := glob_uses_gone (collectedGlobals m) m.functions
      (promoteCommon g0) hcol f hf
    rwa [hname] at this

/-- **C8** witness. -/
theorem claim_C8_witness :
    (rewriteGlobal (promoteCommon exGlobal)).name = "g" ++ "_multiple" ∧
    rewriteGlobal (promoteCommon exGlobal)
      ∈ (allocateLockForMultipleGlobals exModuleBoth).1.globals := by
  have h := claim_C8 exModuleBoth (by constructor <;> decide) exGlobal
    (by decide) (by decide)
  exact ⟨h.2.2.1, h.2.2.2.2.2.2.2.2.2.2.2.1⟩

end CheckedC.AddLock

/-! Lemmas for the Type-Harmonization pass (claims C5, C10). -/

namespace CheckedC.Harmonize

theorem replaceUses_instId (old nu : Nat) (x : HInst) :
    (replaceUses old nu x).instId = x.instId := by
  cases x <;> simp [replaceUses, HInst.instId]

theorem replaceUses_of_not_use (old nu : Nat) (x : HInst)
    (h : old ∉ x.useIds) : replaceUses old nu x = x := by
  cases x with
  | load i lt p pt =>
    simp only [HInst.useIds, List.mem_singleton] at h
    have hp : ¬(p = old) := fun hc => h hc.symm
    simp [replaceUses, hp]
  | gep00 i st p =>
    simp only [HInst.useIds, List.mem_singleton] at h
    have hp : ¬(p = old) := fun hc => h hc.symm
    simp [replaceUses, hp]
  | store i v vt p pt =>
    simp only [HInst.useIds, List.mem_cons, List.mem_singleton, not_or] at h
    have hv : ¬(v = old) := fun hc => h.1 hc.symm
    have hp : ¬(p = old) := fun hc => h.2.1 hc.symm
    simp [replaceUses, hv, hp]
  | extractValue i a k =>
    simp only [HInst.useIds, List.mem_singleton] at h
    have ha : ¬(a = old) := fun hc => h hc.symm
    simp [replaceUses, ha]
  | insertValue i a e k =>
    simp only [HInst.useIds, List.mem_cons, List.mem_singleton, not_or] at h
    have ha : ¬(a = old) := fun hc => h.1 hc.symm
    have he2 : ¬(e = old) := fun hc => h.2.1 hc.symm
    simp [replaceUses, ha, he2]
  | other i ops =>
    simp only [HInst.useIds] at h
    simp only [replaceUses, HInst.other.injEq, true_and]
    refine (List.map_congr_left ?_).trans (List.map_id ops)
    intro o ho
    exact if_neg (fun hc : o = old => h (hc ▸ ho))

theorem eq_ite_subst (i old nu p : Nat) (hne : i ≠ old) (hip : i = p) :
    (if p = old then nu else p) = i := by
  subst hip
  rw [if_neg hne]

theorem ne_ite_subst (i old nu p : Nat) (hne1 : i ≠ nu)
    (h : i ≠ p ∨ i = old) : i ≠ (if p = old then nu else p) := by
  by_cases hp : p = old
  · rw [if_pos hp]; exact hne1
  · rw [if_neg hp]
    rcases h with h | rfl
    · exact h
    · exact fun hc => hp hc.symm

theorem replaceUses_useIds_mem (old nu : Nat) (x : HInst) (i : Nat)
    (hi : i ∈ x.useIds) (hne : i ≠ old) :
    i ∈ (replaceUses old nu x).useIds := by
  cases x with
  | load j lt p pt =>
    simp only [HInst.useIds, List.mem_singleton] at hi
    simp only [replaceUses, HInst.useIds, List.mem_singleton]
    exact (eq_ite_subst i old nu p hne hi).symm
  | gep00 j st p =>
    simp only [HInst.useIds, List.mem_singleton] at hi
    simp only [replaceUses, HInst.useIds, List.mem_singleton]
    exact (eq_ite_subst i old nu p hne hi).symm
  | store j v vt p pt =>
    simp only [HInst.useIds, List.mem_cons, List.mem_singleton,
      List.not_mem_nil, or_false] at hi
    simp only [replaceUses, HInst.useIds, List.mem_cons, List.mem_singleton,
      List.not_mem_nil, or_false]
    rcases hi with hi | hi
    · exact Or.inl (eq_ite_subst i old nu v hne hi).symm
    · exact Or.inr (eq_ite_subst i old nu p hne hi).symm
  | extractValue j a k =>
    simp only [HInst.useIds, List.mem_singleton] at hi
    simp only [replaceUses, HInst.useIds, List.mem_singleton]
    exact (eq_ite_subst i old nu a hne hi).symm
  | insertValue j a e k =>
    simp only [HInst.useIds, List.mem_cons, List.mem_singleton,
      List.not_mem_nil, or_false] at hi
    simp only [replaceUses, HInst.useIds, List.mem_cons, List.mem_singleton,
      List.not_mem_nil, or_false]
    rcases hi with hi | hi
    · exact Or.inl (eq_ite_subst i old nu a hne hi).symm
    · exact Or.inr (eq_ite_subst i old nu e hne hi).symm
  | other j ops =>
    simp only [replaceUses, HInst.useIds, List.mem_map]
    exact ⟨i, hi, eq_ite_subst i old nu i hne rfl⟩

theorem replaceUses_not_mem (old nu : Nat) (x : HInst) (i : Nat)
    (hne1 : i ≠ nu) (h : i ∉ x.useIds ∨ i = old) :
    i ∉ (replaceUses old nu x).useIds := by
  have hcase : ∀ p : Nat, (i ≠ p ∨ i = old) →
      i ≠ (if p = old then nu else p) :=
    fun p hp => ne_ite_subst i old nu p hne1 hp
  cases x with
  | load j lt p pt =>
    simp only [HInst.useIds, List.mem_singleton] at h
    simp only [replaceUses, HInst.useIds, List.mem_singleton]
    exact hcase p h
  | gep00 j st p =>
    simp only [HInst.useIds, List.mem_singleton] at h
    simp only [replaceUses, HInst.useIds, List.mem_singleton]
    exact hcase p h
  | store j v vt p pt =>
    simp only [HInst.useIds, List.mem_cons, List.mem_singleton,
      List.not_mem_nil, or_false, not_or] at h
    simp only [replaceUses, HInst.useIds, List.mem_cons, List.mem_singleton,
      List.not_mem_nil, or_false, not_or]
    rcases h with ⟨h1, h2⟩ | hold
    · exact ⟨hcase v (Or.inl h1), hcase p (Or.inl h2)⟩
    · exact ⟨hcase v (Or.inr hold), hcase p (Or.inr hold)⟩
  | extractValue j a k =>
    simp only [HInst.useIds, List.mem_singleton] at h
    simp only [replaceUses, HInst.useIds, List.mem_singleton]
    exact hcase a h
  | insertValue j a e k =>
    simp only [HInst.useIds, List.mem_cons, List.mem_singleton,
      List.not_mem_nil, or_false, not_or] at h
    simp only [replaceUses, HInst.useIds, List.mem_cons, List.mem_singleton,
      List.not_mem_nil, or_false, not_or]
    rcases h with ⟨h1, h2⟩ | hold
    · exact ⟨hcase a (Or.inl h1), hcase e (Or.inl h2)⟩
    · exact ⟨hcase a (Or.inr hold), hcase e (Or.inr hold)⟩
  | other j ops =>
    simp only [replaceUses, HInst.useIds, List.mem_map, not_exists]
    intro o
    rintro ⟨ho, hoeq⟩
    rcases h with h | hold
    · simp only [HInst.useIds] at h
      exact (hcase o (Or.inl (fun hio : i = o => h (hio ▸ ho)))) hoeq.symm
    · exact (hcase o (Or.inr hold)) hoeq.symm

theorem replaceUses_isEVIV (old nu : Nat) (x : HInst) :
    (replaceUses old nu x).isEVIV = x.isEVIV := by
  cases x <;> simp [replaceUses, HInst.isEVIV]

theorem insertBefore_mem (insts : List HInst) (tid : Nat)
    (news : List HInst) (e : HInst) (he : e ∈ insts) :
    e ∈ insertBefore insts tid news := by
  induction insts with
  | nil => cases he
  | cons x rest ih =>
    unfold insertBefore
    by_cases hx : x.instId = tid
    · simp only [hx, if_true, List.mem_append, List.mem_cons]
      rcases List.mem_cons.mp he with rfl | he
      · exact Or.inr (Or.inl rfl)
      · exact Or.inr (Or.inr he)
    · simp only [hx, if_false, List.mem_cons]
      rcases List.mem_cons.mp he with rfl | he
      · exact Or.inl rfl
      · exact Or.inr (ih he)

theorem insertBefore_ids (insts : List HInst) (tid : Nat)
    (news : List HInst) (e : HInst) (he : e ∈ insertBefore insts tid news) :
    e ∈ insts ∨ e ∈ news := by
  induction insts with
  | nil => cases he
  | cons x rest ih =>
    unfold insertBefore at he
    by_cases hx : x.instId = tid
    · simp only [hx, if_true, List.mem_append, List.mem_cons] at he
      rcases he with he | rfl | he
      · exact Or.inr he
      · exact Or.inl (List.mem_cons_self _ _)
      · exact Or.inl (List.mem_cons_of_mem _ he)
    · simp only [hx, if_false, List.mem_cons] at he
      rcases he with rfl | he
      · exact Or.inl (List.mem_cons_self _ _)
      · rcases ih he with h | h
        · exact Or.inl (List.mem_cons_of_mem _ h)
        · exact Or.inr h

theorem replaceElem_mem (insts : List HInst) (tid : Nat) (nu : HInst)
    (e : HInst) (he : e ∈ insts) (hne : e.instId ≠ tid) :
    e ∈ replaceElem insts tid nu := by
  unfold replaceElem
  have : (fun x => if x.instId = tid then nu else x) e = e := by
    simp [hne]
  exact this ▸ List.mem_map_of_mem _ he

theorem replaceElem_ids (insts : List HInst) (tid : Nat) (nu : HInst)
    (e : HInst) (he : e ∈ replaceElem insts tid nu) :
    e ∈ insts ∨ e = nu := by
  unfold replaceElem at he
  obtain ⟨x, hx, hxe⟩ := List.mem_map.mp he
  by_cases h : x.instId = tid
  · rw [if_pos h] at hxe; exact Or.inr hxe.symm
  · rw [if_neg h] at hxe; exact Or.inl (hxe ▸ hx)

theorem insertBefore_pair (insts : List HInst) (tid : Nat)
    (news : List HInst) (s t : List HInst) (x y : HInst)
    (hsp : insts = s ++ x :: y :: t) (hy : y.instId ≠ tid) :
    ∃ s2 t2, insertBefore insts tid news = s2 ++ x :: y :: t2 := by
  subst hsp
  induction s with
  | nil =>
    unfold insertBefore
    by_cases hx : x.instId = tid
    · refine ⟨news, t, ?_⟩
      simp [hx]
    · simp only [List.nil_append, hx, if_false]
      unfold insertBefore
      simp only [hy, if_false]
      exact ⟨[], insertBefore t tid news, rfl⟩
  | cons z rest ih =>
    unfold insertBefore
    by_cases hz : z.instId = tid
    · refine ⟨news ++ z :: rest, t, ?_⟩
      simp [hz]
    · obtain ⟨s2, t2, hs⟩ := ih
      refine ⟨z :: s2, t2, ?_⟩
      simp [hz, hs]

theorem map_pair (h : HInst → HInst) (insts s t : List HInst)
    (x y : HInst) (hsp : insts = s ++ x :: y :: t)
    (hx : h x = x) (hy : h y = y) :
    ∃ s2 t2, insts.map h = s2 ++ x :: y :: t2 := by
  subst hsp
  refine ⟨s.map h, t.map h, ?_⟩
  simp [hx, hy]

theorem scan_load_mem_aux (insts : List HInst)
    (acc : List IllLoad × List IllStore × Bool) (il : IllLoad)
    (h : il ∈ (insts.foldl scanStep acc).1) :
    il ∈ acc.1 ∨ il.elem ∈ insts := by
  induction insts generalizing acc with
  | nil => exact Or.inl h
  | cons i rest ih =>
    rcases ih (scanStep acc i) h with hacc | hmem
    · cases i with
      | load id lt p pt =>
        simp only [scanStep] at hacc
        by_cases hc : pt.isMMSafePointerTy && !lt.isMMSafePointerTy
        · rw [if_pos hc] at hacc
          simp only [List.mem_append, List.mem_singleton] at hacc
          rcases hacc with hacc | rfl
          · exact Or.inl hacc
          · exact Or.inr (List.mem_cons_self _ _)
        · rw [if_neg hc] at hacc
          exact Or.inl hacc
      | store id v vt p pt =>
        simp only [scanStep] at hacc
        by_cases hc : pt.isMMArrayPointerTy && !vt.isMMArrayPointerTy
        · rw [if_pos hc] at hacc
          exact Or.inl hacc
        · rw [if_neg hc] at hacc
          exact Or.inl hacc
      | gep00 id st p => exact Or.inl hacc
      | extractValue id a k => exact Or.inl hacc
      | insertValue id a e k => exact Or.inl hacc
      | other id ops => exact Or.inl hacc
    · exact Or.inr (List.mem_cons_of_mem _ hmem)

theorem scan_load_mem (f : HFunc) (il : IllLoad) (h : il ∈ illLoadsOf f) :
    il.elem ∈ f.insts := by
  rcases scan_load_mem_aux f.insts ([], [], false) il h with hacc | hmem
  · cases hacc
  · exact hmem

theorem scan_store_mem_aux (insts : List HInst)
    (acc : List IllLoad × List IllStore × Bool) (s : IllStore)
    (h : s ∈ (insts.foldl scanStep acc).2.1) :
    s ∈ acc.2.1 ∨ (HInst.store s.id s.valOp s.valTy s.ptr s.pointee) ∈ insts := by
  induction insts generalizing acc with
  | nil => exact Or.inl h
  | cons i rest ih =>
    rcases ih (scanStep acc i) h with hacc | hmem
    · cases i with
      | store id v vt p pt =>
        simp only [scanStep] at hacc
        by_cases hc : pt.isMMArrayPointerTy && !vt.isMMArrayPointerTy
        · rw [if_pos hc] at hacc
          simp only [List.mem_append, List.mem_singleton] at hacc
          rcases hacc with hacc | rfl
          · exact Or.inl hacc
          · exact Or.inr (List.mem_cons_self _ _)
        · rw [if_neg hc] at hacc
          exact Or.inl hacc
      | load id lt p pt =>
        simp only [scanStep] at hacc
        by_cases hc : pt.isMMSafePointerTy && !lt.isMMSafePointerTy
        · rw [if_pos hc] at hacc
          exact Or.inl hacc
        · rw [if_neg hc] at hacc
          exact Or.inl hacc
      | gep00 id st p => exact Or.inl hacc
      | extractValue id a k => exact Or.inl hacc
      | insertValue id a e k => exact Or.inl hacc
      | other id ops => exact Or.inl hacc
    · exact Or.inr (List.mem_cons_of_mem _ hmem)

theorem scan_store_mem (f : HFunc) (s : IllStore) (h : s ∈ illStoresOf f) :
    (HInst.store s.id s.valOp s.valTy s.ptr s.pointee) ∈ f.insts := by
  rcases scan_store_mem_aux f.insts ([], [], false) s h with hacc | hmem
  · cases hacc
  · exact hmem

theorem elem_id_inj (insts : List HInst)
    (hnd : (insts.map HInst.instId).Nodup) (x y : HInst)
    (hx : x ∈ insts) (hy : y ∈ insts) (hid : x.instId = y.instId) :
    x = y :=
  List.inj_on_of_nodup_map hnd hx hy hid

theorem illLoads_id_inj (f : HFunc) (n : Nat) (hwf : HWF f n)
    (il1 il2 : IllLoad) (h1 : il1 ∈ illLoadsOf f) (h2 : il2 ∈ illLoadsOf f)
    (hid : il1.id = il2.id) : il1 = il2 := by
  have he := elem_id_inj f.insts hwf.2.1 il1.elem il2.elem
    (scan_load_mem f il1 h1) (scan_load_mem f il2 h2) hid
  cases il1
  cases il2
  simp only [IllLoad.elem, HInst.load.injEq] at he
  simp_all

theorem illLoad_id_lt (f : HFunc) (n : Nat) (hwf : HWF f n)
    (il : IllLoad) (h : il ∈ illLoadsOf f) : il.id < n :=
  (hwf.1 il.elem (scan_load_mem f il h)).1

theorem illLoad_ptr_lt (f : HFunc) (n : Nat) (hwf : HWF f n)
    (il : IllLoad) (h : il ∈ illLoadsOf f) : il.ptr < n := by
  refine (hwf.1 il.elem (scan_load_mem f il h)).2 il.ptr ?_
  simp [IllLoad.elem, HInst.useIds]

theorem illStore_ids_lt (f : HFunc) (n : Nat) (hwf : HWF f n)
    (s : IllStore) (h : s ∈ illStoresOf f) : s.id < n ∧ s.valOp < n := by
  have hm := scan_store_mem f s h
  refine ⟨(hwf.1 _ hm).1, (hwf.1 _ hm).2 s.valOp ?_⟩
  simp [HInst.useIds]

theorem user_id_lt (f : HFunc) (n : Nat) (hwf : HWF f n) (i : Nat)
    (u : HInst) (hu : u ∈ usersOf f i) : u.instId < n :=
  (hwf.1 u (List.mem_of_mem_filter hu)).1

theorem user_not_illLoad (f : HFunc) (n : Nat) (hwf : HWF f n)
    (il il2 : IllLoad) (h : il ∈ illLoadsOf f) (h2 : il2 ∈ illLoadsOf f)
    (u : HInst) (hu : u ∈ usersOf f il.id) : u.instId ≠ il2.id := by
  intro hcon
  have hmem : u ∈ f.insts := List.mem_of_mem_filter hu
  have huse : il.id ∈ u.useIds := by
    have := (List.mem_filter.mp hu).2
    simpa using this
  have heq := elem_id_inj f.insts hwf.2.1 u il2.elem hmem
    (scan_load_mem f il2 h2) hcon
  rw [heq] at huse
  simp only [IllLoad.elem, HInst.useIds, List.mem_singleton] at huse
  exact hwf.2.2.1 il2 h2 il h huse.symm

theorem insertBefore_unique_split (insts b1 b2 : List HInst) (el : HInst)
    (tid : Nat) (news : List HInst) (hsp : insts = b1 ++ el :: b2)
    (hb1 : ∀ e ∈ b1, e.instId ≠ el.instId)
    (hb2 : ∀ e ∈ b2, e.instId ≠ el.instId)
    (hne : el.instId ≠ tid)
    (hnews : ∀ e ∈ news, e.instId ≠ el.instId) :
    ∃ c1 c2, insertBefore insts tid news = c1 ++ el :: c2 ∧
      (∀ e ∈ c1, e.instId ≠ el.instId) ∧
      (∀ e ∈ c2, e.instId ≠ el.instId) := by
  subst hsp
  induction b1 with
  | nil =>
    simp only [List.nil_append]
    unfold insertBefore
    rw [if_neg hne]
    refine ⟨[], insertBefore b2 tid news, rfl, by simp, ?_⟩
    intro e he
    rcases insertBefore_ids b2 tid news e he with h | h
    · exact hb2 e h
    · exact hnews e h
  | cons z rest ih =>
    simp only [List.cons_append]
    unfold insertBefore
    by_cases hz : z.instId = tid
    · rw [if_pos hz]
      refine ⟨news ++ z :: rest, b2, by simp, ?_, hb2⟩
      intro e he
      rcases List.mem_append.mp he with h | h
      · exact hnews e h
      · rcases List.mem_cons.mp h with rfl | h
        · exact hb1 e (List.mem_cons_self _ _)
        · exact hb1 e (List.mem_cons_of_mem _ h)
    · rw [if_neg hz]
      obtain ⟨c1, c2, heq, hc1, hc2⟩ :=
        ih (fun e he => hb1 e (List.mem_cons_of_mem _ he))
      refine ⟨z :: c1, c2, by simp [heq], ?_, hc2⟩
      intro e he
      rcases List.mem_cons.mp he with rfl | h
      · exact hb1 e (List.mem_cons_self _ _)
      · exact hc1 e h

theorem map_unique_split (insts b1 b2 : List HInst) (el : HInst)
    (fn : HInst → HInst) (hsp : insts = b1 ++ el :: b2)
    (hb1 : ∀ e ∈ b1, e.instId ≠ el.instId)
    (hb2 : ∀ e ∈ b2, e.instId ≠ el.instId)
    (hel : fn el = el)
    (hfn : ∀ x, (fn x).instId = x.instId ∨ (fn x).instId ≠ el.instId) :
    ∃ c1 c2, insts.map fn = c1 ++ el :: c2 ∧
      (∀ e ∈ c1, e.instId ≠ el.instId) ∧
      (∀ e ∈ c2, e.instId ≠ el.instId) := by
  subst hsp
  refine ⟨b1.map fn, b2.map fn, by simp [hel], ?_, ?_⟩
  · intro e he
    obtain ⟨x, hx, rfl⟩ := List.mem_map.mp he
    rcases hfn x with h | h
    · rw [h]; exact hb1 x hx
    · exact h
  · intro e he
    obtain ⟨x, hx, rfl⟩ := List.mem_map.mp he
    rcases hfn x with h | h
    · rw [h]; exact hb2 x hx
    · exact h

theorem Pending_map (f : HFunc) (il : IllLoad) (insts : List HInst)
    (fn : HInst → HInst)
    (helem : fn il.elem = il.elem)
    (hfn : ∀ x, (fn x).instId = x.instId ∨ (fn x).instId ≠ il.id)
    (husers : ∀ u ∈ usersOf f il.id, ∀ x, x.instId = u.instId →
      (fn x).instId = u.instId ∧ (fn x).isEVIV = x.isEVIV ∧
      (il.id ∈ x.useIds → il.id ∈ (fn x).useIds))
    (hp : Pending f il insts) : Pending f il (insts.map fn) := by
  obtain ⟨⟨b1, b2, hsp, hb1, hb2⟩, husr⟩ := hp
  constructor
  · exact map_unique_split insts b1 b2 il.elem fn hsp hb1 hb2 helem hfn
  · intro u hu
    obtain ⟨x, hx, hxid, hxe, hxuse⟩ := husr u hu
    obtain ⟨h1, h2, h3⟩ := husers u hu x hxid
    exact ⟨fn x, List.mem_map_of_mem fn hx, h1, h2.trans hxe, h3 hxuse⟩

theorem Pending_insertBefore (f : HFunc) (il : IllLoad)
    (insts : List HInst) (tid : Nat) (news : List HInst)
    (hne : il.id ≠ tid) (hnews : ∀ e ∈ news, e.instId ≠ il.id)
    (hp : Pending f il insts) : Pending f il (insertBefore insts tid news) := by
  obtain ⟨⟨b1, b2, hsp, hb1, hb2⟩, husr⟩ := hp
  constructor
  · exact insertBefore_unique_split insts b1 b2 il.elem tid news hsp hb1 hb2
      hne hnews
  · intro u hu
    obtain ⟨x, hx, hxid, hxe, hxuse⟩ := husr u hu
    exact ⟨x, insertBefore_mem insts tid news x hx, hxid, hxe, hxuse⟩

theorem Repaired_insertBefore (f : HFunc) (il : IllLoad) (g l n : Nat)
    (insts : List HInst) (tid : Nat) (news : List HInst)
    (hln : n ≤ l) (htid : tid < n)
    (hnews : ∀ e ∈ news, n ≤ e.instId) (hiln : il.id < n)
    (hr : Repaired f il g l n insts) :
    Repaired f il g l n (insertBefore insts tid news) := by
  obtain ⟨hno, ⟨s, t, hsp⟩, hevu, hou⟩ := hr
  refine ⟨?_, ?_, ?_, ?_⟩
  · intro x hx
    rcases insertBefore_ids insts tid news x hx with h | h
    · exact hno x h
    · have := hnews x h
      omega
  · obtain ⟨s2, t2, h2⟩ := insertBefore_pair insts tid news s t _ _ hsp
      (by simp only [HInst.instId]; omega)
    exact ⟨s2, t2, h2⟩
  · intro hne
    obtain ⟨a, han, hamem, hau⟩ := hevu hne
    refine ⟨a, han, insertBefore_mem insts tid news _ hamem, ?_⟩
    intro u hu
    obtain ⟨x, hx, h1, h2, h3⟩ := hau u hu
    exact ⟨x, insertBefore_mem insts tid news x hx, h1, h2, h3⟩
  · intro u hu hue
    obtain ⟨x, hx, h1, h2, h3⟩ := hou u hu hue
    exact ⟨x, insertBefore_mem insts tid news x hx, h1, h2, h3⟩

theorem Repaired_map (f : HFunc) (il : IllLoad) (g l n : Nat)
    (insts : List HInst) (fn : HInst → HInst)
    (hid : ∀ x, (fn x).instId = x.instId ∨ n ≤ (fn x).instId)
    (hgep : fn (.gep00 g il.pointee il.ptr) = .gep00 g il.pointee il.ptr)
    (hload : fn (.load l il.loadedTy g (rawFieldTy il.pointee))
      = .load l il.loadedTy g (rawFieldTy il.pointee))
    (hagg : ∀ a, n ≤ a → fn (.load a il.pointee il.ptr il.pointee)
      = .load a il.pointee il.ptr il.pointee)
    (husers : ∀ u ∈ usersOf f il.id, ∀ x, x.instId = u.instId →
      (fn x).instId = u.instId ∧
      (∀ j, n ≤ j → j ∈ x.useIds → j ∈ (fn x).useIds) ∧
      (il.id ∉ x.useIds → il.id ∉ (fn x).useIds))
    (hiln : il.id < n) (hln : n ≤ l)
    (hr : Repaired f il g l n insts) :
    Repaired f il g l n (insts.map fn) := by
  obtain ⟨hno, ⟨s, t, hsp⟩, hevu, hou⟩ := hr
  refine ⟨?_, ?_, ?_, ?_⟩
  · intro x hx
    obtain ⟨y, hy, rfl⟩ := List.mem_map.mp hx
    rcases hid y with h | h
    · rw [h]; exact hno y hy
    · omega
  · exact map_pair fn insts s t _ _ hsp hgep hload
  · intro hne
    obtain ⟨a, han, hamem, hau⟩ := hevu hne
    refine ⟨a, han, ?_, ?_⟩
    · have := List.mem_map_of_mem fn hamem
      rwa [hagg a han] at this
    · intro u hu
      obtain ⟨x, hx, h1, h2, h3⟩ := hau u hu
      obtain ⟨k1, k2, k3⟩ := husers u (List.mem_of_mem_filter hu) x h1
      exact ⟨fn x, List.mem_map_of_mem fn hx, k1, k2 a han h2, k3 h3⟩
  · intro u hu hue
    obtain ⟨x, hx, h1, h2, h3⟩ := hou u hu hue
    obtain ⟨k1, k2, k3⟩ := husers u hu x h1
    exact ⟨fn x, List.mem_map_of_mem fn hx, k1,
      k2 l (by omega) h2, k3 h3⟩

theorem fixIllLoadAgg_fresh (insts : List HInst) (fresh : Nat)
    (il : IllLoad) :
    (fixIllLoadAgg insts fresh il).2 = fresh ∨
    (fixIllLoadAgg insts fresh il).2 = fresh + 1 := by
  unfold fixIllLoadAgg
  by_cases hc : (insts.filter
      (fun x => x.isEVIV && x.useIds.contains il.id)).isEmpty
  · rw [if_pos hc]; exact Or.inl rfl
  · rw [if_neg hc]; exact Or.inr rfl

theorem fixIllLoad_fresh (insts : List HInst) (fresh : Nat) (il : IllLoad)
    (g l : Nat) :
    (fixIllLoad insts fresh il g l).2 = fresh ∨
    (fixIllLoad insts fresh il g l).2 = fresh + 1 :=
  fixIllLoadAgg_fresh insts fresh il

theorem condReplace_instId (P : HInst → Bool) (old nu : Nat) (x : HInst) :
    (if P x then replaceUses old nu x else x).instId = x.instId := by
  by_cases h : P x
  · rw [if_pos h]; exact replaceUses_instId old nu x
  · rw [if_neg h]

theorem condReplace_fix (P : HInst → Bool) (old nu : Nat) (x : HInst)
    (hx : old ∉ x.useIds) :
    (if P x then replaceUses old nu x else x) = x := by
  by_cases h : P x
  · rw [if_pos h]; exact replaceUses_of_not_use old nu x hx
  · rw [if_neg h]

theorem condReplace_mem (P : HInst → Bool) (old nu : Nat) (x : HInst)
    (j : Nat) (hj : j ≠ old) (hjm : j ∈ x.useIds) :
    j ∈ (if P x then replaceUses old nu x else x).useIds := by
  by_cases h : P x
  · rw [if_pos h]; exact replaceUses_useIds_mem old nu x j hjm hj
  · rw [if_neg h]; exact hjm

theorem condReplace_not_mem (P : HInst → Bool) (old nu : Nat) (x : HInst)
    (j : Nat) (hj : j ≠ nu) (hjm : j ∉ x.useIds) :
    j ∉ (if P x then replaceUses old nu x else x).useIds := by
  by_cases h : P x
  · rw [if_pos h]; exact replaceUses_not_mem old nu x j hj (Or.inl hjm)
  · rw [if_neg h]; exact hjm

theorem fixIllLoadAgg_preserves_Repaired
    (f : HFunc) (n : Nat) (il il2 : IllLoad) (g l : Nat)
    (insts : List HInst) (fresh : Nat)
    (hiln : il.id < n) (hgn : n ≤ g) (hln : n ≤ l)
    (hid2 : il2.id < n) (hfr : n ≤ fresh)
    (hidne : il.id ≠ il2.id) (hptrne : il.ptr ≠ il2.id)
    (hr : Repaired f il g l n insts) :
    Repaired f il g l n (fixIllLoadAgg insts fresh il2).1 := by
  unfold fixIllLoadAgg
  by_cases hc : (insts.filter
      (fun x => x.isEVIV && x.useIds.contains il2.id)).isEmpty
  · rw [if_pos hc]; exact hr
  · rw [if_neg hc]
    have hnews : ∀ e ∈ [HInst.load fresh il2.pointee
        (match insts.find? (fun x => x.instId = il2.id) with
         | some (.load _ _ p _) => p
         | _ => il2.ptr) il2.pointee], n ≤ e.instId := by
      intro e he
      rw [List.mem_singleton] at he
      subst he
      exact hfr
    have hins := Repaired_insertBefore f il g l n insts il2.id _ hln hid2
      hnews hiln hr
    have hptr2 : il2.id ∉ (HInst.gep00 g il.pointee il.ptr).useIds := by
      simp only [HInst.useIds, List.mem_singleton]
      exact fun hcon => hptrne hcon.symm
    have hptr3 : il2.id
        ∉ (HInst.load l il.loadedTy g (rawFieldTy il.pointee)).useIds := by
      simp only [HInst.useIds, List.mem_singleton]
      omega
    have hPdef : ∀ y : HInst, ((insts.filter
        (fun z => z.isEVIV && z.useIds.contains il2.id)).any
          (fun u => u.instId = y.instId)) = ((fun w : HInst =>
        (insts.filter (fun z => z.isEVIV && z.useIds.contains il2.id)).any
          (fun u => u.instId = w.instId)) y) := fun y => rfl
    refine Repaired_map f il g l n _ _ ?_ ?_ ?_ ?_ ?_ hiln hln hins
    · intro x
      exact Or.inl (condReplace_instId (fun w : HInst =>
        (insts.filter (fun z => z.isEVIV && z.useIds.contains il2.id)).any
          (fun u => u.instId = w.instId)) il2.id fresh x)
    · exact condReplace_fix (fun w : HInst =>
        (insts.filter (fun z => z.isEVIV && z.useIds.contains il2.id)).any
          (fun u => u.instId = w.instId)) il2.id fresh _ hptr2
    · exact condReplace_fix (fun w : HInst =>
        (insts.filter (fun z => z.isEVIV && z.useIds.contains il2.id)).any
          (fun u => u.instId = w.instId)) il2.id fresh _ hptr3
    · intro a han
      refine condReplace_fix (fun w : HInst =>
        (insts.filter (fun z => z.isEVIV && z.useIds.contains il2.id)).any
          (fun u => u.instId = w.instId)) il2.id fresh _ ?_
      simp only [HInst.useIds, List.mem_singleton]
      exact fun hcon => hptrne hcon.symm
    · intro u hu x hxid
      refine ⟨(condReplace_instId (fun w : HInst =>
        (insts.filter (fun z => z.isEVIV && z.useIds.contains il2.id)).any
          (fun u => u.instId = w.instId)) il2.id fresh x).trans hxid, ?_, ?_⟩
      · intro j hj hjm
        exact condReplace_mem (fun w : HInst =>
          (insts.filter (fun z => z.isEVIV && z.useIds.contains il2.id)).any
            (fun u => u.instId = w.instId)) il2.id fresh x j (by omega) hjm
      · intro hnm
        exact condReplace_not_mem (fun w : HInst =>
          (insts.filter (fun z => z.isEVIV && z.useIds.contains il2.id)).any
            (fun u => u.instId = w.instId)) il2.id fresh x il.id (by omega) hnm

theorem replaceElem_as_map (insts : List HInst) (tid : Nat) (nu : HInst) :
    replaceElem insts tid nu
      = insts.map (fun x => if x.instId = tid then nu else x) := rfl

theorem fixIllLoad_preserves_Repaired
    (f : HFunc) (n : Nat) (hwf : HWF f n)
    (il il2 : IllLoad) (hil : il ∈ illLoadsOf f) (hil2 : il2 ∈ illLoadsOf f)
    (hne : il ≠ il2) (g l g2 l2 : Nat)
    (hgn : n ≤ g) (hln : n ≤ l) (hgn2 : n ≤ g2) (hln2 : n ≤ l2)
    (insts : List HInst) (fresh : Nat) (hfr : n ≤ fresh)
    (hr : Repaired f il g l n insts) :
    Repaired f il g l n (fixIllLoad insts fresh il2 g2 l2).1 := by
  have hiln : il.id < n := illLoad_id_lt f n hwf il hil
  have hid2 : il2.id < n := illLoad_id_lt f n hwf il2 hil2
  have hidne : il.id ≠ il2.id :=
    fun hc => hne (illLoads_id_inj f n hwf il il2 hil hil2 hc)
  have hptrne : il.ptr ≠ il2.id := hwf.2.2.1 il hil il2 hil2
  have h1 := fixIllLoadAgg_preserves_Repaired f n il il2 g l insts fresh
    hiln hgn hln hid2 hfr hidne hptrne hr
  have hnews2 : ∀ e ∈ [HInst.gep00 g2 il2.pointee il2.ptr],
      n ≤ e.instId := by
    intro e he
    rw [List.mem_singleton] at he
    subst he
    exact hgn2
  have h2 := Repaired_insertBefore f il g l n (fixIllLoadAgg insts fresh il2).1
    il2.id [.gep00 g2 il2.pointee il2.ptr] hln hid2 hnews2 hiln h1
  unfold fixIllLoad
  show Repaired f il g l n (rauwBody il2.id l2
    (replaceElem (insertBefore (fixIllLoadAgg insts fresh il2).1 il2.id
      [HInst.gep00 g2 il2.pointee il2.ptr]) il2.id
      (HInst.load l2 il2.loadedTy g2 (rawFieldTy il2.pointee))))
  have h3 : Repaired f il g l n
      (replaceElem (insertBefore (fixIllLoadAgg insts fresh il2).1 il2.id
        [HInst.gep00 g2 il2.pointee il2.ptr]) il2.id
        (HInst.load l2 il2.loadedTy g2 (rawFieldTy il2.pointee))) := by
    rw [replaceElem_as_map]
    refine Repaired_map f il g l n _ _ ?_ ?_ ?_ ?_ ?_ hiln hln h2
    · intro x
      by_cases hx : x.instId = il2.id
      · rw [if_pos hx]
        exact Or.inr (by simpa [HInst.instId] using hln2)
      · rw [if_neg hx]
        exact Or.inl rfl
    · rw [if_neg (by simp only [HInst.instId]; omega)]
    · rw [if_neg (by simp only [HInst.instId]; omega)]
    · intro a han
      rw [if_neg (by simp only [HInst.instId]; omega)]
    · intro u hu x hxid
      have hx : x.instId ≠ il2.id := by
        rw [hxid]
        exact user_not_illLoad f n hwf il il2 hil hil2 u hu
      rw [if_neg hx]
      exact ⟨hxid, fun j hj hjm => hjm, fun hnm => hnm⟩
  unfold rauwBody
  refine Repaired_map f il g l n _ (replaceUses il2.id l2)
    ?_ ?_ ?_ ?_ ?_ hiln hln h3
  · intro x
    exact Or.inl (replaceUses_instId il2.id l2 x)
  · refine replaceUses_of_not_use il2.id l2 _ ?_
    simp only [HInst.useIds, List.mem_singleton]
    exact fun hcon => hptrne hcon.symm
  · refine replaceUses_of_not_use il2.id l2 _ ?_
    simp only [HInst.useIds, List.mem_singleton]
    omega
  · intro a han
    refine replaceUses_of_not_use il2.id l2 _ ?_
    simp only [HInst.useIds, List.mem_singleton]
    exact fun hcon => hptrne hcon.symm
  · intro u hu x hxid
    refine ⟨(replaceUses_instId il2.id l2 x).trans hxid, ?_, ?_⟩
    · intro j hj hjm
      exact replaceUses_useIds_mem il2.id l2 x j hjm (by omega)
    · intro hnm
      exact replaceUses_not_mem il2.id l2 x il.id (by omega) (Or.inl hnm)

theorem fixIllStore_preserves_Repaired
    (f : HFunc) (n : Nat) (il : IllLoad) (g l : Nat) (s : IllStore)
    (insts : List HInst) (fresh : Nat)
    (hiln : il.id < n) (hgn : n ≤ g) (hln : n ≤ l) (hfr : n ≤ fresh)
    (hsid : s.id < n) (hvlt : s.valOp < n)
    (hvne : s.valOp ≠ il.id) (hvptr : s.valOp ≠ il.ptr)
    (hr : Repaired f il g l n insts) :
    Repaired f il g l n (fixIllStore insts fresh s).1 := by
  have h1 : Repaired f il g l n (insts.map (fun x =>
      match x with
      | .store i v _ p pt => if i = s.id then .store i v pt p pt else x
      | _ => x)) := by
    refine Repaired_map f il g l n _ _ ?_ ?_ ?_ ?_ ?_ hiln hln hr
    · intro x
      refine Or.inl ?_
      cases x with
      | store i v vt p pt =>
        by_cases hi : i = s.id
        · simp [hi, HInst.instId]
        · simp [hi, HInst.instId]
      | load i lt p pt => rfl
      | gep00 i st p => rfl
      | extractValue i a k => rfl
      | insertValue i a e k => rfl
      | other i ops => rfl
    · rfl
    · rfl
    · intro a han; rfl
    · intro u hu x hxid
      have huse : (match x with
          | HInst.store i v _ p pt =>
              if i = s.id then HInst.store i v pt p pt else x
          | _ => x).useIds = x.useIds ∧ (match x with
          | HInst.store i v _ p pt =>
              if i = s.id then HInst.store i v pt p pt else x
          | _ => x).instId = x.instId := by
        cases x with
        | store i v vt p pt =>
          by_cases hi : i = s.id
          · simp [hi, HInst.useIds, HInst.instId]
          · simp [hi]
        | load i lt p pt => exact ⟨rfl, rfl⟩
        | gep00 i st p => exact ⟨rfl, rfl⟩
        | extractValue i a k => exact ⟨rfl, rfl⟩
        | insertValue i a e k => exact ⟨rfl, rfl⟩
        | other i ops => exact ⟨rfl, rfl⟩
      rw [huse.1, huse.2]
      exact ⟨hxid, fun j hj hjm => hjm, fun hnm => hnm⟩
  have hnews : ∀ e ∈ [HInst.extractValue fresh s.valOp 0],
      n ≤ e.instId := by
    intro e he
    rw [List.mem_singleton] at he
    subst he
    exact hfr
  have h2 := Repaired_insertBefore f il g l n _ s.id
    [.extractValue fresh s.valOp 0] hln hsid hnews hiln h1
  unfold fixIllStore
  refine Repaired_map f il g l n _ _ ?_ ?_ ?_ ?_ ?_ hiln hln h2
  · intro x
    refine Or.inl ?_
    cases x with
    | load i lt p pt =>
      by_cases hp : p = s.valOp
      · simp [hp, HInst.instId]
      · simp [hp, HInst.instId]
    | store i v vt p pt => rfl
    | gep00 i st p => rfl
    | extractValue i a k => rfl
    | insertValue i a e k => rfl
    | other i ops => rfl
  · rfl
  · show (if g = s.valOp then HInst.load l il.loadedTy fresh
        (rawFieldTy il.pointee)
      else HInst.load l il.loadedTy g (rawFieldTy il.pointee)) = _
    rw [if_neg (by omega)]
  · intro a han
    show (if il.ptr = s.valOp then HInst.load a il.pointee fresh il.pointee
      else HInst.load a il.pointee il.ptr il.pointee) = _
    rw [if_neg (fun hc => hvptr hc.symm)]
  · intro u hu x hxid
    cases x with
    | load i lt p pt =>
      by_cases hp : p = s.valOp
      · refine ⟨by simpa [hp, HInst.instId] using hxid, ?_, ?_⟩
        · intro j hj hjm
          exfalso
          simp only [HInst.useIds, List.mem_singleton] at hjm
          omega
        · intro hnm
          show il.id ∉ (if p = s.valOp then HInst.load i lt fresh pt
            else HInst.load i lt p pt).useIds
          rw [if_pos hp]
          simp only [HInst.useIds, List.mem_singleton]
          omega
      · simp only [hp, if_neg hp]
        exact ⟨hxid, fun j hj hjm => hjm, fun hnm => hnm⟩
    | store i v vt p pt => exact ⟨hxid, fun j hj hjm => hjm, fun hnm => hnm⟩
    | gep00 i st p => exact ⟨hxid, fun j hj hjm => hjm, fun hnm => hnm⟩
    | extractValue i a k =>
      exact ⟨hxid, fun j hj hjm => hjm, fun hnm => hnm⟩
    | insertValue i a e k =>
      exact ⟨hxid, fun j hj hjm => hjm, fun hnm => hnm⟩
    | other i ops => exact ⟨hxid, fun j hj hjm => hjm, fun hnm => hnm⟩

theorem condReplace_isEVIV (P : HInst → Bool) (old nu : Nat) (x : HInst) :
    (if P x then replaceUses old nu x else x).isEVIV = x.isEVIV := by
  by_cases h : P x
  · rw [if_pos h]; exact replaceUses_isEVIV old nu x
  · rw [if_neg h]

theorem replaceUses_mem_new (old nu : Nat) (x : HInst)
    (h : old ∈ x.useIds) : nu ∈ (replaceUses old nu x).useIds := by
  cases x with
  | load j lt p pt =>
    simp only [HInst.useIds, List.mem_singleton] at h
    simp only [replaceUses, HInst.useIds, List.mem_singleton]
    rw [if_pos h.symm]
  | gep00 j st p =>
    simp only [HInst.useIds, List.mem_singleton] at h
    simp only [replaceUses, HInst.useIds, List.mem_singleton]
    rw [if_pos h.symm]
  | store j v vt p pt =>
    simp only [HInst.useIds, List.mem_cons, List.mem_singleton,
      List.not_mem_nil, or_false] at h
    simp only [replaceUses, HInst.useIds, List.mem_cons, List.mem_singleton,
      List.not_mem_nil, or_false]
    rcases h with h | h
    · exact Or.inl (by rw [if_pos h.symm])
    · exact Or.inr (by rw [if_pos h.symm])
  | extractValue j a k =>
    simp only [HInst.useIds, List.mem_singleton] at h
    simp only [replaceUses, HInst.useIds, List.mem_singleton]
    rw [if_pos h.symm]
  | insertValue j a e k =>
    simp only [HInst.useIds, List.mem_cons, List.mem_singleton,
      List.not_mem_nil, or_false] at h
    simp only [replaceUses, HInst.useIds, List.mem_cons, List.mem_singleton,
      List.not_mem_nil, or_false]
    rcases h with h | h
    · exact Or.inl (by rw [if_pos h.symm])
    · exact Or.inr (by rw [if_pos h.symm])
  | other j ops =>
    simp only [HInst.useIds] at h
    simp only [replaceUses, HInst.useIds, List.mem_map]
    exact ⟨old, h, by rw [if_pos rfl]⟩

theorem split_ids_ne (insts b1 b2 : List HInst) (el : HInst)
    (hnd : (insts.map HInst.instId).Nodup) (hsp : insts = b1 ++ el :: b2) :
    (∀ e ∈ b1, e.instId ≠ el.instId) ∧ (∀ e ∈ b2, e.instId ≠ el.instId) := by
  subst hsp
  simp only [List.map_append, List.map_cons] at hnd
  have h1 := (List.nodup_append.mp hnd).2.2
  have h2 := (List.nodup_append.mp hnd).2.1
  constructor
  · intro e he hc
    refine h1 (List.mem_map_of_mem _ he) ?_
    rw [hc]
    exact List.mem_cons_self _ _
  · intro e he hc
    exact (List.nodup_cons.mp h2).1 (hc ▸ List.mem_map_of_mem _ he)

theorem insertBefore_at_split (b1 b2 : List HInst) (el : HInst)
    (news : List HInst) (hb1 : ∀ e ∈ b1, e.instId ≠ el.instId) :
    insertBefore (b1 ++ el :: b2) el.instId news
      = b1 ++ news ++ el :: b2 := by
  induction b1 with
  | nil =>
    simp only [List.nil_append]
    unfold insertBefore
    rw [if_pos rfl]
  | cons z rest ih =>
    simp only [List.cons_append]
    unfold insertBefore
    rw [if_neg (hb1 z (List.mem_cons_self _ _))]
    rw [ih (fun e he => hb1 e (List.mem_cons_of_mem _ he))]

theorem find_at_split (b1 b2 : List HInst) (el : HInst)
    (hb1 : ∀ e ∈ b1, e.instId ≠ el.instId) :
    (b1 ++ el :: b2).find? (fun x => x.instId = el.instId) = some el := by
  induction b1 with
  | nil =>
    simp [List.find?_cons]
  | cons z rest ih =>
    simp only [List.cons_append, List.find?_cons]
    rw [decide_eq_false (hb1 z (List.mem_cons_self _ _))]
    exact ih (fun e he => hb1 e (List.mem_cons_of_mem _ he))

theorem fixIllLoad_preserves_Pending
    (f : HFunc) (n : Nat) (hwf : HWF f n)
    (il il2 : IllLoad) (hil : il ∈ illLoadsOf f) (hil2 : il2 ∈ illLoadsOf f)
    (hne : il ≠ il2) (g2 l2 : Nat) (hgn2 : n ≤ g2) (hln2 : n ≤ l2)
    (insts : List HInst) (fresh : Nat) (hfr : n ≤ fresh)
    (hp : Pending f il insts) :
    Pending f il (fixIllLoad insts fresh il2 g2 l2).1 := by
  have hiln : il.id < n := illLoad_id_lt f n hwf il hil
  have hidne : il.id ≠ il2.id :=
    fun hc => hne (illLoads_id_inj f n hwf il il2 hil hil2 hc)
  have hptr2 : il.ptr ≠ il2.id := hwf.2.2.1 il hil il2 hil2
  have hptrelem : il2.id ∉ il.elem.useIds := by
    simp only [IllLoad.elem, HInst.useIds, List.mem_singleton]
    exact fun hc => hptr2 hc.symm
  have h1 : Pending f il (fixIllLoadAgg insts fresh il2).1 := by
    unfold fixIllLoadAgg
    by_cases hc : (insts.filter
        (fun x => x.isEVIV && x.useIds.contains il2.id)).isEmpty
    · rw [if_pos hc]; exact hp
    · rw [if_neg hc]
      have hins := Pending_insertBefore f il insts il2.id
        [HInst.load fresh il2.pointee
          (match insts.find? (fun x => x.instId = il2.id) with
           | some (.load _ _ p _) => p
           | _ => il2.ptr) il2.pointee] hidne
        (by
          intro e he
          rw [List.mem_singleton] at he
          subst he
          simp only [HInst.instId]
          omega) hp
      refine Pending_map f il _ _ ?_ ?_ ?_ hins
      · exact condReplace_fix (fun w : HInst =>
          (insts.filter (fun z => z.isEVIV && z.useIds.contains il2.id)).any
            (fun u => u.instId = w.instId)) il2.id fresh _ hptrelem
      · intro x
        exact Or.inl (condReplace_instId (fun w : HInst =>
          (insts.filter (fun z => z.isEVIV && z.useIds.contains il2.id)).any
            (fun u => u.instId = w.instId)) il2.id fresh x)
      · intro u hu x hxid
        refine ⟨(condReplace_instId (fun w : HInst =>
          (insts.filter (fun z => z.isEVIV && z.useIds.contains il2.id)).any
            (fun u => u.instId = w.instId)) il2.id fresh x).trans hxid,
          condReplace_isEVIV (fun w : HInst =>
          (insts.filter (fun z => z.isEVIV && z.useIds.contains il2.id)).any
            (fun u => u.instId = w.instId)) il2.id fresh x, ?_⟩
        intro hm
        exact condReplace_mem (fun w : HInst =>
          (insts.filter (fun z => z.isEVIV && z.useIds.contains il2.id)).any
            (fun u => u.instId = w.instId)) il2.id fresh x il.id hidne hm
  have h2 : Pending f il (insertBefore (fixIllLoadAgg insts fresh il2).1
      il2.id [HInst.gep00 g2 il2.pointee il2.ptr]) := by
    refine Pending_insertBefore f il _ il2.id _ hidne ?_ h1
    intro e he
    rw [List.mem_singleton] at he
    subst he
    simp only [HInst.instId]
    omega
  have h3 : Pending f il
      (replaceElem (insertBefore (fixIllLoadAgg insts fresh il2).1 il2.id
        [HInst.gep00 g2 il2.pointee il2.ptr]) il2.id
        (HInst.load l2 il2.loadedTy g2 (rawFieldTy il2.pointee))) := by
    rw [replaceElem_as_map]
    refine Pending_map f il _ _ ?_ ?_ ?_ h2
    · rw [if_neg (by simp only [IllLoad.elem, HInst.instId]; exact hidne)]
    · intro x
      by_cases hx : x.instId = il2.id
      · rw [if_pos hx]
        refine Or.inr ?_
        simp only [HInst.instId]
        omega
      · rw [if_neg hx]
        exact Or.inl rfl
    · intro u hu x hxid
      have hxne : x.instId ≠ il2.id := by
        rw [hxid]
        exact user_not_illLoad f n hwf il il2 hil hil2 u hu
      refine ⟨by rw [if_neg hxne]; exact hxid, by rw [if_neg hxne], ?_⟩
      intro hm
      rw [if_neg hxne]
      exact hm
  unfold fixIllLoad
  show Pending f il (rauwBody il2.id l2
    (replaceElem (insertBefore (fixIllLoadAgg insts fresh il2).1 il2.id
      [HInst.gep00 g2 il2.pointee il2.ptr]) il2.id
      (HInst.load l2 il2.loadedTy g2 (rawFieldTy il2.pointee))))
  unfold rauwBody
  refine Pending_map f il _ (replaceUses il2.id l2) ?_ ?_ ?_ h3
  · exact replaceUses_of_not_use il2.id l2 il.elem hptrelem
  · intro x
    exact Or.inl (replaceUses_instId il2.id l2 x)
  · intro u hu x hxid
    exact ⟨(replaceUses_instId il2.id l2 x).trans hxid,
      replaceUses_isEVIV il2.id l2 x,
      fun hm => replaceUses_useIds_mem il2.id l2 x il.id hm hidne⟩

theorem nodup_map_subst (ids : List Nat) (t l : Nat)
    (hnd : ids.Nodup) (hl : l ∉ ids) :
    (ids.map (fun j => if j = t then l else j)).Nodup := by
  refine List.Nodup.map_on ?_ hnd
  intro x hx y hy hxy
  by_cases hxt : x = t
  · by_cases hyt : y = t
    · rw [hxt, hyt]
    · rw [if_pos hxt, if_neg hyt] at hxy
      exact absurd (hxy ▸ hy) hl
  · by_cases hyt : y = t
    · rw [if_neg hxt, if_pos hyt] at hxy
      exact absurd (hxy.symm ▸ hx) hl
    · rwa [if_neg hxt, if_neg hyt] at hxy

theorem map_map_instId (insts : List HInst) (fn : HInst → HInst)
    (hfn : ∀ x, (fn x).instId = x.instId) :
    (insts.map fn).map HInst.instId = insts.map HInst.instId := by
  rw [List.map_map]
  exact List.map_congr_left (fun x _ => hfn x)

theorem insertBefore_split_or_id (insts : List HInst) (tid : Nat)
    (news : List HInst) :
    (∃ p q, insertBefore insts tid news = p ++ news ++ q ∧ insts = p ++ q)
    ∨ insertBefore insts tid news = insts := by
  induction insts with
  | nil => exact Or.inr rfl
  | cons x rest ih =>
    unfold insertBefore
    by_cases hx : x.instId = tid
    · rw [if_pos hx]
      exact Or.inl ⟨[], x :: rest, by simp, rfl⟩
    · rw [if_neg hx]
      rcases ih with ⟨p, q, h1, h2⟩ | h
      · exact Or.inl ⟨x :: p, q, by simp [h1], by simp [h2]⟩
      · exact Or.inr (by rw [h])

theorem insertBefore_nodup (insts : List HInst) (tid : Nat) (e : HInst)
    (hnd : (insts.map HInst.instId).Nodup)
    (hnew : ∀ x ∈ insts, x.instId ≠ e.instId) :
    ((insertBefore insts tid [e]).map HInst.instId).Nodup := by
  rcases insertBefore_split_or_id insts tid [e] with ⟨p, q, h1, h2⟩ | h
  · rw [h1, show (p ++ [e] ++ q) = p ++ e :: q by simp]
    simp only [List.map_append, List.map_cons]
    rw [List.nodup_middle]
    refine List.nodup_cons.mpr ⟨?_, ?_⟩
    · intro hmem
      rw [← List.map_append] at hmem
      obtain ⟨y, hy, hyid⟩ := List.mem_map.mp hmem
      exact hnew y (h2 ▸ hy) hyid
    · rw [← List.map_append, ← h2]
      exact hnd
  · rw [h]
    exact hnd

theorem fixIllLoadAgg_IdState (lo hi c : Nat) (il : IllLoad)
    (insts : List HInst) (hlc : lo ≤ c) (hc : hi ≤ c)
    (hs : IdState lo hi c insts) :
    IdState lo hi (fixIllLoadAgg insts c il).2 (fixIllLoadAgg insts c il).1 := by
  unfold fixIllLoadAgg
  by_cases hcb : (insts.filter
      (fun x => x.isEVIV && x.useIds.contains il.id)).isEmpty
  · rw [if_pos hcb]
    exact hs
  · rw [if_neg hcb]
    obtain ⟨hnd, hbd⟩ := hs
    constructor
    · rw [map_map_instId _ _ (fun x => condReplace_instId (fun w : HInst =>
        (insts.filter (fun z => z.isEVIV && z.useIds.contains il.id)).any
          (fun u => u.instId = w.instId)) il.id c x)]
      refine insertBefore_nodup insts il.id _ hnd ?_
      intro x hx
      show x.instId ≠ c
      rcases hbd x hx with h | h
      · omega
      · omega
    · intro x hx
      obtain ⟨y, hy, rfl⟩ := List.mem_map.mp hx
      rw [condReplace_instId (fun w : HInst =>
        (insts.filter (fun z => z.isEVIV && z.useIds.contains il.id)).any
          (fun u => u.instId = w.instId)) il.id c y]
      rcases insertBefore_ids insts il.id _ y hy with h | h
      · rcases hbd y h with hb | hb
        · exact Or.inl hb
        · exact Or.inr ⟨hb.1, by omega⟩
      · rw [List.mem_singleton] at h
        subst h
        simp only [HInst.instId]
        exact Or.inr ⟨hc, by omega⟩

theorem fixIllLoad_IdState (n K i c : Nat) (il : IllLoad)
    (insts : List HInst) (hiK : i < K) (hc : n + 2*K ≤ c)
    (hs : IdState (n + 2*i) (n + 2*K) c insts) :
    IdState (n + 2*(i+1)) (n + 2*K)
      ((fixIllLoad insts c il (n + 2*i) (n + 2*i + 1)).2)
      ((fixIllLoad insts c il (n + 2*i) (n + 2*i + 1)).1) := by
  have hs1 := fixIllLoadAgg_IdState (n + 2*i) (n + 2*K) c il insts
    (by omega) hc hs
  have hc1 : c ≤ (fixIllLoadAgg insts c il).2 := by
    rcases fixIllLoadAgg_fresh insts c il with h | h
    · omega
    · omega
  obtain ⟨hnd1, hbd1⟩ := hs1
  unfold fixIllLoad
  show IdState (n + 2*(i+1)) (n + 2*K) (fixIllLoadAgg insts c il).2
    (rauwBody il.id (n + 2*i + 1)
      (replaceElem (insertBefore (fixIllLoadAgg insts c il).1 il.id
        [HInst.gep00 (n + 2*i) il.pointee il.ptr]) il.id
        (HInst.load (n + 2*i + 1) il.loadedTy (n + 2*i)
          (rawFieldTy il.pointee))))
  have hnd2 : ((insertBefore (fixIllLoadAgg insts c il).1 il.id
      [HInst.gep00 (n + 2*i) il.pointee il.ptr]).map HInst.instId).Nodup := by
    refine insertBefore_nodup _ il.id _ hnd1 ?_
    intro x hx
    show x.instId ≠ (n + 2*i)
    rcases hbd1 x hx with h | h
    · omega
    · omega
  have hbd2 : ∀ x ∈ (insertBefore (fixIllLoadAgg insts c il).1 il.id
      [HInst.gep00 (n + 2*i) il.pointee il.ptr]),
      x.instId < n + 2*(i+1) ∨
        (n + 2*K ≤ x.instId ∧ x.instId < (fixIllLoadAgg insts c il).2) := by
    intro x hx
    rcases insertBefore_ids _ il.id _ x hx with h | h
    · rcases hbd1 x h with hb | hb
      · exact Or.inl (by omega)
      · exact Or.inr hb
    · rw [List.mem_singleton] at h
      subst h
      simp only [HInst.instId]
      exact Or.inl (by omega)
  have hl2 : (n + 2*i + 1) ∉ ((insertBefore (fixIllLoadAgg insts c il).1 il.id
      [HInst.gep00 (n + 2*i) il.pointee il.ptr]).map HInst.instId) := by
    intro hmem
    obtain ⟨y, hy, hyid⟩ := List.mem_map.mp hmem
    rcases hbd2 y hy with h | h
    · have := hbd2 y hy
      rcases insertBefore_ids _ il.id _ y hy with h2 | h2
      · rcases hbd1 y h2 with hb | hb
        · omega
        · omega
      · rw [List.mem_singleton] at h2
        subst h2
        simp only [HInst.instId] at hyid
        omega
    · omega
  constructor
  · unfold rauwBody
    rw [map_map_instId _ _ (replaceUses_instId il.id (n + 2*i + 1))]
    rw [replaceElem_as_map]
    have hmm : ((insertBefore (fixIllLoadAgg insts c il).1 il.id
        [HInst.gep00 (n + 2*i) il.pointee il.ptr]).map
          (fun x => if x.instId = il.id
            then HInst.load (n + 2*i + 1) il.loadedTy (n + 2*i)
              (rawFieldTy il.pointee) else x)).map HInst.instId
        = ((insertBefore (fixIllLoadAgg insts c il).1 il.id
        [HInst.gep00 (n + 2*i) il.pointee il.ptr]).map HInst.instId).map
          (fun j => if j = il.id then (n + 2*i + 1) else j) := by
      rw [List.map_map, List.map_map]
      refine List.map_congr_left ?_
      intro x _
      simp only [Function.comp]
      by_cases hx : x.instId = il.id
      · rw [if_pos hx, if_pos hx]
        simp only [HInst.instId]
      · rw [if_neg hx, if_neg hx]
    rw [hmm]
    exact nodup_map_subst _ il.id (n + 2*i + 1) hnd2 hl2
  · intro x hx
    unfold rauwBody at hx
    obtain ⟨y, hy, rfl⟩ := List.mem_map.mp hx
    rw [replaceUses_instId]
    rw [replaceElem_as_map] at hy
    obtain ⟨z, hz, rfl⟩ := List.mem_map.mp hy
    by_cases hzid : z.instId = il.id
    · rw [if_pos hzid]
      simp only [HInst.instId]
      exact Or.inl (by omega)
    · rw [if_neg hzid]
      exact hbd2 z hz

theorem map_pair_subst (fn : HInst → HInst) (s t : List HInst)
    (x y x2 y2 : HInst) (hx : fn x = x2) (hy : fn y = y2) :
    (s ++ x :: y :: t).map fn = s.map fn ++ x2 :: y2 :: t.map fn := by
  simp [hx, hy]

theorem repair_tail_Repaired (f : HFunc) (il : IllLoad) (g l n : Nat)
    (insts2 B1 B2 : List HInst)
    (hsp : insts2 = B1 ++ il.elem :: B2)
    (hb1 : ∀ e ∈ B1, e.instId ≠ il.id)
    (hiln : il.id < n) (hgn : n ≤ g) (hln : n ≤ l)
    (hptr : il.ptr ≠ il.id)
    (husr_ne : ∀ u ∈ usersOf f il.id, u.instId ≠ il.id)
    (hagg : (usersOf f il.id).filter HInst.isEVIV ≠ [] →
      ∃ a, n ≤ a ∧ (HInst.load a il.pointee il.ptr il.pointee) ∈ insts2 ∧
        ∀ u ∈ (usersOf f il.id).filter HInst.isEVIV,
          ∃ y ∈ insts2, y.instId = u.instId ∧ a ∈ y.useIds ∧
            il.id ∉ y.useIds)
    (hothers : ∀ u ∈ usersOf f il.id, u.isEVIV = false →
      ∃ y ∈ insts2, y.instId = u.instId ∧ il.id ∈ y.useIds) :
    Repaired f il g l n (rauwBody il.id l
      (replaceElem (insertBefore insts2 il.id
        [HInst.gep00 g il.pointee il.ptr])
        il.id (HInst.load l il.loadedTy g (rawFieldTy il.pointee)))) := by
  have hgne : (HInst.gep00 g il.pointee il.ptr).instId ≠ il.id := by
    show g ≠ il.id
    omega
  have hins : insertBefore insts2 il.id [HInst.gep00 g il.pointee il.ptr]
      = B1 ++ HInst.gep00 g il.pointee il.ptr :: il.elem :: B2 := by
    rw [hsp]
    have := insertBefore_at_split B1 B2 il.elem
      [HInst.gep00 g il.pointee il.ptr] (fun e he => hb1 e he)
    rw [show (il.elem).instId = il.id from rfl] at this
    rw [this]
    simp
  refine ⟨?_, ?_, ?_, ?_⟩
  · intro z hz
    unfold rauwBody at hz
    obtain ⟨w, hw, rfl⟩ := List.mem_map.mp hz
    rw [replaceUses_instId]
    rw [replaceElem_as_map] at hw
    obtain ⟨v, hv, rfl⟩ := List.mem_map.mp hw
    by_cases hvid : v.instId = il.id
    · rw [if_pos hvid]
      show l ≠ il.id
      omega
    · rw [if_neg hvid]
      exact hvid
  · rw [hins, replaceElem_as_map]
    rw [map_pair_subst
      (fun x => if x.instId = il.id
        then HInst.load l il.loadedTy g (rawFieldTy il.pointee) else x)
      B1 B2 (HInst.gep00 g il.pointee il.ptr) il.elem
      (HInst.gep00 g il.pointee il.ptr)
      (HInst.load l il.loadedTy g (rawFieldTy il.pointee))
      (by exact if_neg hgne)
      (by exact if_pos (show (il.elem).instId = il.id from rfl))]
    unfold rauwBody
    rw [map_pair_subst (replaceUses il.id l) _ _
      (HInst.gep00 g il.pointee il.ptr)
      (HInst.load l il.loadedTy g (rawFieldTy il.pointee))
      (HInst.gep00 g il.pointee il.ptr)
      (HInst.load l il.loadedTy g (rawFieldTy il.pointee))
      (replaceUses_of_not_use il.id l _ (by
        simp only [HInst.useIds, List.mem_singleton]
        exact fun hc => hptr hc.symm))
      (replaceUses_of_not_use il.id l _ (by
        simp only [HInst.useIds, List.mem_singleton]
        omega))]
    exact ⟨_, _, rfl⟩
  · intro hne
    obtain ⟨a, han, hamem, hau⟩ := hagg hne
    have haggne : (HInst.load a il.pointee il.ptr il.pointee).instId
        ≠ il.id := by
      show a ≠ il.id
      omega
    refine ⟨a, han, ?_, ?_⟩
    · have h1 : (HInst.load a il.pointee il.ptr il.pointee)
          ∈ insertBefore insts2 il.id [HInst.gep00 g il.pointee il.ptr] :=
        insertBefore_mem _ _ _ _ hamem
      have h2 : (HInst.load a il.pointee il.ptr il.pointee)
          ∈ replaceElem (insertBefore insts2 il.id
            [HInst.gep00 g il.pointee il.ptr]) il.id
            (HInst.load l il.loadedTy g (rawFieldTy il.pointee)) :=
        replaceElem_mem _ _ _ _ h1 haggne
      have h3 := List.mem_map_of_mem (replaceUses il.id l) h2
      rwa [replaceUses_of_not_use il.id l _ (by
        simp only [HInst.useIds, List.mem_singleton]
        exact fun hc => hptr hc.symm)] at h3
    · intro u hu
      obtain ⟨y, hy, hyid, hya, hyn⟩ := hau u hu
      have hyne : y.instId ≠ il.id := by
        rw [hyid]
        exact husr_ne u (List.mem_of_mem_filter hu)
      have h1 : y ∈ insertBefore insts2 il.id
          [HInst.gep00 g il.pointee il.ptr] := insertBefore_mem _ _ _ _ hy
      have h2 : y ∈ replaceElem (insertBefore insts2 il.id
          [HInst.gep00 g il.pointee il.ptr]) il.id
          (HInst.load l il.loadedTy g (rawFieldTy il.pointee)) :=
        replaceElem_mem _ _ _ _ h1 hyne
      refine ⟨replaceUses il.id l y, List.mem_map_of_mem _ h2, ?_, ?_, ?_⟩
      · rw [replaceUses_instId]
        exact hyid
      · exact replaceUses_useIds_mem il.id l y a hya (by omega)
      · exact replaceUses_not_mem il.id l y il.id (by omega) (Or.inl hyn)
  · intro u hu hue
    obtain ⟨y, hy, hyid, hym⟩ := hothers u hu hue
    have hyne : y.instId ≠ il.id := by
      rw [hyid]
      exact husr_ne u hu
    have h1 : y ∈ insertBefore insts2 il.id
        [HInst.gep00 g il.pointee il.ptr] := insertBefore_mem _ _ _ _ hy
    have h2 : y ∈ replaceElem (insertBefore insts2 il.id
        [HInst.gep00 g il.pointee il.ptr]) il.id
        (HInst.load l il.loadedTy g (rawFieldTy il.pointee)) :=
      replaceElem_mem _ _ _ _ h1 hyne
    refine ⟨replaceUses il.id l y, List.mem_map_of_mem _ h2, ?_, ?_, ?_⟩
    · rw [replaceUses_instId]
      exact hyid
    · exact replaceUses_mem_new il.id l y hym
    · exact replaceUses_not_mem il.id l y il.id (by omega) (Or.inr rfl)

theorem fixIllLoad_establishes_Repaired
    (f : HFunc) (n : Nat) (hwf : HWF f n)
    (il : IllLoad) (hil : il ∈ illLoadsOf f)
    (g l : Nat) (hgn : n ≤ g) (hln : n ≤ l)
    (insts : List HInst) (fresh : Nat) (hfr : n ≤ fresh)
    (hnd : (insts.map HInst.instId).Nodup)
    (hp : Pending f il insts) :
    Repaired f il g l n (fixIllLoad insts fresh il g l).1 := by
  have hiln : il.id < n := illLoad_id_lt f n hwf il hil
  have hptr : il.ptr ≠ il.id := hwf.2.2.1 il hil il hil
  have husr_ne : ∀ u ∈ usersOf f il.id, u.instId ≠ il.id :=
    fun u hu => user_not_illLoad f n hwf il il hil hil u hu
  obtain ⟨⟨b1, b2, hsp, hb1, hb2⟩, husr⟩ := hp
  unfold fixIllLoad
  show Repaired f il g l n (rauwBody il.id l
    (replaceElem (insertBefore (fixIllLoadAgg insts fresh il).1 il.id
      [HInst.gep00 g il.pointee il.ptr]) il.id
      (HInst.load l il.loadedTy g (rawFieldTy il.pointee))))
  by_cases hc : (insts.filter
      (fun x => x.isEVIV && x.useIds.contains il.id)).isEmpty
  · have hstep : (fixIllLoadAgg insts fresh il).1 = insts := by
      unfold fixIllLoadAgg
      rw [if_pos hc]
    rw [hstep]
    refine repair_tail_Repaired f il g l n insts b1 b2 hsp hb1 hiln hgn hln
      hptr husr_ne ?_ ?_
    · intro hne
      exfalso
      obtain ⟨u, hu⟩ := List.exists_mem_of_ne_nil _ hne
      have hu1 : u ∈ usersOf f il.id := List.mem_of_mem_filter hu
      have hu2 : u.isEVIV = true := (List.mem_filter.mp hu).2
      obtain ⟨x, hxm, hxid, hxe, hxu⟩ := husr u hu1
      have hxf : x ∈ insts.filter
          (fun z => z.isEVIV && z.useIds.contains il.id) := by
        refine List.mem_filter.mpr ⟨hxm, ?_⟩
        simp only [Bool.and_eq_true]
        exact ⟨hxe.trans hu2, by simpa using hxu⟩
      rw [List.isEmpty_iff] at hc
      rw [hc] at hxf
      exact List.not_mem_nil x hxf
    · intro u hu hue
      obtain ⟨x, hxm, hxid, hxe, hxu⟩ := husr u hu
      exact ⟨x, hxm, hxid, hxu⟩
  · have hfind : insts.find? (fun x => x.instId = il.id) = some il.elem := by
      rw [hsp]
      exact find_at_split b1 b2 il.elem (fun e he => hb1 e he)
    have hstep : (fixIllLoadAgg insts fresh il).1
        = (insertBefore insts il.id
            [HInst.load fresh il.pointee il.ptr il.pointee]).map
          (fun x => if (insts.filter
              (fun z => z.isEVIV && z.useIds.contains il.id)).any
              (fun u => u.instId = x.instId)
            then replaceUses il.id fresh x else x) := by
      unfold fixIllLoadAgg
      rw [if_neg hc]
      simp only [hfind, IllLoad.elem]
    rw [hstep]
    have hfnA_elem : (fun x => if (insts.filter
          (fun z => z.isEVIV && z.useIds.contains il.id)).any
          (fun u => u.instId = x.instId)
        then replaceUses il.id fresh x else x) il.elem = il.elem := by
      refine condReplace_fix (fun w : HInst =>
        (insts.filter (fun z => z.isEVIV && z.useIds.contains il.id)).any
          (fun u => u.instId = w.instId)) il.id fresh il.elem ?_
      simp only [IllLoad.elem, HInst.useIds, List.mem_singleton]
      exact fun hcon => hptr hcon.symm
    have hfnA_agg : (fun x => if (insts.filter
          (fun z => z.isEVIV && z.useIds.contains il.id)).any
          (fun u => u.instId = x.instId)
        then replaceUses il.id fresh x else x)
          (HInst.load fresh il.pointee il.ptr il.pointee)
        = HInst.load fresh il.pointee il.ptr il.pointee := by
      refine condReplace_fix (fun w : HInst =>
        (insts.filter (fun z => z.isEVIV && z.useIds.contains il.id)).any
          (fun u => u.instId = w.instId)) il.id fresh _ ?_
      simp only [HInst.useIds, List.mem_singleton]
      exact fun hcon => hptr hcon.symm
    have hins2 : insertBefore insts il.id
        [HInst.load fresh il.pointee il.ptr il.pointee]
        = b1 ++ HInst.load fresh il.pointee il.ptr il.pointee
            :: il.elem :: b2 := by
      rw [hsp]
      have := insertBefore_at_split b1 b2 il.elem
        [HInst.load fresh il.pointee il.ptr il.pointee] (fun e he => hb1 e he)
      rw [show (il.elem).instId = il.id from rfl] at this
      rw [this]
      simp
    have hmap : (insertBefore insts il.id
        [HInst.load fresh il.pointee il.ptr il.pointee]).map
          (fun x => if (insts.filter
              (fun z => z.isEVIV && z.useIds.contains il.id)).any
              (fun u => u.instId = x.instId)
            then replaceUses il.id fresh x else x)
        = (b1.map (fun x => if (insts.filter
              (fun z => z.isEVIV && z.useIds.contains il.id)).any
              (fun u => u.instId = x.instId)
            then replaceUses il.id fresh x else x)
          ++ [HInst.load fresh il.pointee il.ptr il.pointee])
          ++ il.elem :: b2.map (fun x => if (insts.filter
              (fun z => z.isEVIV && z.useIds.contains il.id)).any
              (fun u => u.instId = x.instId)
            then replaceUses il.id fresh x else x) := by
      rw [hins2]
      rw [map_pair_subst (fun x => if (insts.filter
            (fun z => z.isEVIV && z.useIds.contains il.id)).any
            (fun u => u.instId = x.instId)
          then replaceUses il.id fresh x else x) b1 b2
        (HInst.load fresh il.pointee il.ptr il.pointee) il.elem
        (HInst.load fresh il.pointee il.ptr il.pointee) il.elem
        hfnA_agg hfnA_elem]
      simp
    refine repair_tail_Repaired f il g l n _ _ _ hmap ?_ hiln hgn hln
      hptr husr_ne ?_ ?_
    · intro e he
      rcases List.mem_append.mp he with h | h
      · obtain ⟨y, hy, rfl⟩ := List.mem_map.mp h
        rw [condReplace_instId (fun w : HInst =>
          (insts.filter (fun z => z.isEVIV && z.useIds.contains il.id)).any
            (fun u => u.instId = w.instId)) il.id fresh y]
        exact hb1 y hy
      · rw [List.mem_singleton] at h
        subst h
        show fresh ≠ il.id
        omega
    · intro hne
      refine ⟨fresh, hfr, ?_, ?_⟩
      · have h1 : HInst.load fresh il.pointee il.ptr il.pointee
            ∈ insertBefore insts il.id
              [HInst.load fresh il.pointee il.ptr il.pointee] := by
          rw [hins2]
          exact List.mem_append.mpr (Or.inr (List.mem_cons_self _ _))
        have h2 := List.mem_map_of_mem (fun x => if (insts.filter
            (fun z => z.isEVIV && z.useIds.contains il.id)).any
            (fun u => u.instId = x.instId)
          then replaceUses il.id fresh x else x) h1
        rwa [hfnA_agg] at h2
      · intro u hu
        have hu1 : u ∈ usersOf f il.id := List.mem_of_mem_filter hu
        have hu2 : u.isEVIV = true := (List.mem_filter.mp hu).2
        obtain ⟨x, hxm, hxid, hxe, hxu⟩ := husr u hu1
        have hxf : x ∈ insts.filter
            (fun z => z.isEVIV && z.useIds.contains il.id) := by
          refine List.mem_filter.mpr ⟨hxm, ?_⟩
          simp only [Bool.and_eq_true]
          exact ⟨hxe.trans hu2, by simpa using hxu⟩
        have hP : ((insts.filter
            (fun z => z.isEVIV && z.useIds.contains il.id)).any
            (fun u => u.instId = x.instId)) = true := by
          refine List.any_eq_true.mpr ⟨x, hxf, ?_⟩
          simp
        have hfix : (fun x => if (insts.filter
              (fun z => z.isEVIV && z.useIds.contains il.id)).any
              (fun u => u.instId = x.instId)
            then replaceUses il.id fresh x else x) x
            = replaceUses il.id fresh x := by
          show (if (insts.filter
              (fun z => z.isEVIV && z.useIds.contains il.id)).any
              (fun u => u.instId = x.instId) = true
            then replaceUses il.id fresh x else x)
            = replaceUses il.id fresh x
          rw [if_pos hP]
        have h1 : x ∈ insertBefore insts il.id
            [HInst.load fresh il.pointee il.ptr il.pointee] :=
          insertBefore_mem _ _ _ _ hxm
        have h2 := List.mem_map_of_mem (fun x => if (insts.filter
            (fun z => z.isEVIV && z.useIds.contains il.id)).any
            (fun u => u.instId = x.instId)
          then replaceUses il.id fresh x else x) h1
        rw [hfix] at h2
        refine ⟨replaceUses il.id fresh x, h2, ?_, ?_, ?_⟩
        · rw [replaceUses_instId]
          exact hxid
        · exact replaceUses_mem_new il.id fresh x hxu
        · exact replaceUses_not_mem il.id fresh x il.id (by omega)
            (Or.inr rfl)
    · intro u hu hue
      obtain ⟨x, hxm, hxid, hxe, hxu⟩ := husr u hu
      have hxev : x.isEVIV = false := hxe.trans hue
      have hP : ¬ ((insts.filter
          (fun z => z.isEVIV && z.useIds.contains il.id)).any
          (fun u => u.instId = x.instId)) = true := by
        intro hcon
        obtain ⟨z, hzf, hzid⟩ := List.any_eq_true.mp hcon
        have hzm : z ∈ insts := List.mem_of_mem_filter hzf
        have hzev : z.isEVIV = true := by
          have := (List.mem_filter.mp hzf).2
          simp only [Bool.and_eq_true] at this
          exact this.1
        have hzeq : z = x := elem_id_inj insts hnd z x hzm hxm
          (by simpa using hzid)
        rw [hzeq] at hzev
        rw [hzev] at hxev
        cases hxev
      have hfix : (fun x => if (insts.filter
            (fun z => z.isEVIV && z.useIds.contains il.id)).any
            (fun u => u.instId = x.instId)
          then replaceUses il.id fresh x else x) x = x := by
        show (if (insts.filter
            (fun z => z.isEVIV && z.useIds.contains il.id)).any
            (fun u => u.instId = x.instId) = true
          then replaceUses il.id fresh x else x) = x
        rw [if_neg hP]
      have h1 : x ∈ insertBefore insts il.id
          [HInst.load fresh il.pointee il.ptr il.pointee] :=
        insertBefore_mem _ _ _ _ hxm
      have h2 := List.mem_map_of_mem (fun x => if (insts.filter
          (fun z => z.isEVIV && z.useIds.contains il.id)).any
          (fun u => u.instId = x.instId)
        then replaceUses il.id fresh x else x) h1
      rw [hfix] at h2
      exact ⟨x, h2, hxid, hxu⟩

theorem illLoads_ids_sublist_aux (insts : List HInst)
    (acc : List IllLoad × List IllStore × Bool) :
    List.Sublist (((insts.foldl scanStep acc).1).map IllLoad.id)
      (acc.1.map IllLoad.id ++ insts.map HInst.instId) := by
  induction insts generalizing acc with
  | nil =>
    simp only [List.foldl_nil, List.map_nil, List.append_nil]
    exact List.Sublist.refl _
  | cons i rest ih =>
    have step := ih (scanStep acc i)
    refine List.Sublist.trans step ?_
    cases i with
    | load id lt p pt =>
      simp only [scanStep]
      by_cases hc : pt.isMMSafePointerTy && !lt.isMMSafePointerTy
      · rw [if_pos hc]
        simp only [List.map_append, List.map_cons, List.map_singleton]
        rw [List.append_assoc]
        exact List.Sublist.refl _
      · rw [if_neg hc]
        simp only [List.map_cons]
        exact List.Sublist.append_left
          (List.sublist_cons_self _ _) _
    | store id v vt p pt =>
      simp only [scanStep]
      by_cases hc : pt.isMMArrayPointerTy && !vt.isMMArrayPointerTy
      · rw [if_pos hc]
        simp only [List.map_cons]
        exact List.Sublist.append_left (List.sublist_cons_self _ _) _
      · rw [if_neg hc]
        simp only [List.map_cons]
        exact List.Sublist.append_left (List.sublist_cons_self _ _) _
    | gep00 id st p =>
      simp only [scanStep, List.map_cons]
      exact List.Sublist.append_left (List.sublist_cons_self _ _) _
    | extractValue id a k =>
      simp only [scanStep, List.map_cons]
      exact List.Sublist.append_left (List.sublist_cons_self _ _) _
    | insertValue id a e k =>
      simp only [scanStep, List.map_cons]
      exact List.Sublist.append_left (List.sublist_cons_self _ _) _
    | other id ops =>
      simp only [scanStep, List.map_cons]
      exact List.Sublist.append_left (List.sublist_cons_self _ _) _

theorem illLoads_ids_nodup (f : HFunc) (n : Nat) (hwf : HWF f n) :
    ((illLoadsOf f).map IllLoad.id).Nodup := by
  have h := illLoads_ids_sublist_aux f.insts ([], [], false)
  simp only [List.map_nil, List.nil_append] at h
  exact h.nodup hwf.2.1

theorem illLoads_nodup (f : HFunc) (n : Nat) (hwf : HWF f n) :
    (illLoadsOf f).Nodup :=
  List.Nodup.of_map IllLoad.id (illLoads_ids_nodup f n hwf)

theorem illLoads_index_ne (f : HFunc) (n : Nat) (hwf : HWF f n)
    (j k : Nat) (hjk : j ≠ k) (il1 il2 : IllLoad)
    (h1 : (illLoadsOf f).get? j = some il1)
    (h2 : (illLoadsOf f).get? k = some il2) : il1 ≠ il2 := by
  intro he
  subst he
  exact hjk (List.get?_inj (List.get?_eq_some.mp h1).1
    (illLoads_nodup f n hwf) (h1.trans h2.symm))

theorem Pending_init (f : HFunc) (n : Nat) (hwf : HWF f n)
    (il : IllLoad) (hil : il ∈ illLoadsOf f) : Pending f il f.insts := by
  have hm := scan_load_mem f il hil
  obtain ⟨b1, b2, hsp⟩ := List.append_of_mem hm
  have hne := split_ids_ne f.insts b1 b2 il.elem hwf.2.1 hsp
  refine ⟨⟨b1, b2, hsp, fun e he => hne.1 e he, fun e he => hne.2 e he⟩, ?_⟩
  intro u hu
  refine ⟨u, List.mem_of_mem_filter hu, rfl, rfl, ?_⟩
  simpa using (List.mem_filter.mp hu).2

theorem phase2_fold (f : HFunc) (n : Nat) (hwf : HWF f n) :
    ∀ (rem : List IllLoad) (k : Nat) (insts : List HInst) (c : Nat),
    rem = (illLoadsOf f).drop k →
    n + 2 * (illLoadsOf f).length ≤ c →
    IdState (n + 2 * k) (n + 2 * (illLoadsOf f).length) c insts →
    (∀ j il, j < k → (illLoadsOf f).get? j = some il →
      Repaired f il (n + 2 * j) (n + 2 * j + 1) n insts) →
    (∀ j il, k ≤ j → (illLoadsOf f).get? j = some il →
      Pending f il insts) →
    ∀ j il, (illLoadsOf f).get? j = some il →
      Repaired f il (n + 2 * j) (n + 2 * j + 1) n
        ((List.enumFrom k rem).foldl
          (fun acc p => fixIllLoad acc.1 acc.2 p.2 (n + 2 * p.1)
            (n + 2 * p.1 + 1)) (insts, c)).1 := by
  intro rem
  induction rem with
  | nil =>
    intro k insts c hdrop hc hidst hRep hPend j il hj
    have hlen : (illLoadsOf f).length ≤ k := by
      by_contra hlt
      push_neg at hlt
      have := List.drop_eq_nil_iff_le.mp hdrop.symm
      omega
    have hjlt : j < (illLoadsOf f).length := (List.get?_eq_some.mp hj).1
    exact hRep j il (by omega) hj
  | cons il0 rem' ih =>
    intro k insts c hdrop hc hidst hRep hPend j il hj
    have hk0 : (illLoadsOf f).get? k = some il0 := by
      have := List.get?_drop (illLoadsOf f) k 0
      rw [← hdrop] at this
      simpa using this.symm
    have hkK : k < (illLoadsOf f).length := (List.get?_eq_some.mp hk0).1
    have hil0 : il0 ∈ illLoadsOf f := List.get?_mem hk0
    have hdrop' : rem' = (illLoadsOf f).drop (k + 1) := by
      have h1 : (illLoadsOf f).drop (k + 1)
          = List.drop 1 ((illLoadsOf f).drop k) := by
        rw [List.drop_drop]
      rw [h1, ← hdrop]
      rfl
    have hfr : n ≤ c := by omega
    have hidst' := fixIllLoad_IdState n ((illLoadsOf f).length) k c il0
      insts hkK hc hidst
    have hc' : n + 2 * (illLoadsOf f).length
        ≤ (fixIllLoad insts c il0 (n + 2 * k) (n + 2 * k + 1)).2 := by
      rcases fixIllLoad_fresh insts c il0 (n + 2 * k) (n + 2 * k + 1)
        with h | h
      · omega
      · omega
    have hRep' : ∀ j2 il2, j2 < k + 1 → (illLoadsOf f).get? j2 = some il2 →
        Repaired f il2 (n + 2 * j2) (n + 2 * j2 + 1) n
          (fixIllLoad insts c il0 (n + 2 * k) (n + 2 * k + 1)).1 := by
      intro j2 il2 hj2 hg2
      by_cases hjk : j2 = k
      · subst hjk
        have : il2 = il0 := by
          rw [hg2] at hk0
          exact (Option.some.injEq _ _ ▸ hk0)
        subst this
        exact fixIllLoad_establishes_Repaired f n hwf il2 hil0
          (n + 2 * j2) (n + 2 * j2 + 1) (by omega) (by omega) insts c hfr
          hidst.1 (hPend j2 il2 (by omega) hg2)
      · have hne : il2 ≠ il0 :=
          illLoads_index_ne f n hwf j2 k hjk il2 il0 hg2 hk0
        exact fixIllLoad_preserves_Repaired f n hwf il2 il0
          (List.get?_mem hg2) hil0 hne (n + 2 * j2) (n + 2 * j2 + 1)
          (n + 2 * k) (n + 2 * k + 1) (by omega) (by omega) (by omega)
          (by omega) insts c hfr (hRep j2 il2 (by omega) hg2)
    have hPend' : ∀ j2 il2, k + 1 ≤ j2 →
        (illLoadsOf f).get? j2 = some il2 →
        Pending f il2
          (fixIllLoad insts c il0 (n + 2 * k) (n + 2 * k + 1)).1 := by
      intro j2 il2 hj2 hg2
      have hne : il2 ≠ il0 :=
        illLoads_index_ne f n hwf j2 k (by omega) il2 il0 hg2 hk0
      exact fixIllLoad_preserves_Pending f n hwf il2 il0
        (List.get?_mem hg2) hil0 hne (n + 2 * k) (n + 2 * k + 1)
        (by omega) (by omega) insts c hfr (hPend j2 il2 (by omega) hg2)
    exact ih (k + 1) (fixIllLoad insts c il0 (n + 2 * k) (n + 2 * k + 1)).1
      (fixIllLoad insts c il0 (n + 2 * k) (n + 2 * k + 1)).2
      hdrop' hc' hidst' hRep' hPend' j il hj

theorem phase3_fold (f : HFunc) (n : Nat) (hwf : HWF f n) (il : IllLoad)
    (hil : il ∈ illLoadsOf f) (g l : Nat) (hgn : n ≤ g) (hln : n ≤ l) :
    ∀ (sl : List IllStore) (insts : List HInst) (c : Nat),
    (∀ s ∈ sl, s ∈ illStoresOf f) → n ≤ c →
    Repaired f il g l n insts →
    Repaired f il g l n
      ((sl.foldl (fun acc s => fixIllStore acc.1 acc.2 s) (insts, c)).1) := by
  intro sl
  induction sl with
  | nil =>
    intro insts c _ _ hr
    exact hr
  | cons s sl' ih =>
    intro insts c hmem hc hr
    have hs : s ∈ illStoresOf f := hmem s (List.mem_cons_self _ _)
    have hb := illStore_ids_lt f n hwf s hs
    have hv := hwf.2.2.2 s hs il hil
    have hiln : il.id < n := illLoad_id_lt f n hwf il hil
    have hr' := fixIllStore_preserves_Repaired f n il g l s insts c
      hiln hgn hln hc hb.1 hb.2 hv.1 hv.2 hr
    have hc' : n ≤ (fixIllStore insts c s).2 := by
      show n ≤ c + 1
      omega
    exact ih (fixIllStore insts c s).1 (fixIllStore insts c s).2
      (fun s2 hs2 => hmem s2 (List.mem_cons_of_mem _ hs2)) hc' hr'

theorem phase2_counter (n : Nat) :
    ∀ (pairs : List (Nat × IllLoad)) (insts : List HInst) (c : Nat),
    c ≤ ((pairs.foldl
      (fun acc p => fixIllLoad acc.1 acc.2 p.2 (n + 2 * p.1)
        (n + 2 * p.1 + 1)) (insts, c)).2) := by
  intro pairs
  induction pairs with
  | nil =>
    intro insts c
    exact le_rfl
  | cons p ps ih =>
    intro insts c
    have h1 := ih (fixIllLoad insts c p.2 (n + 2 * p.1) (n + 2 * p.1 + 1)).1
      (fixIllLoad insts c p.2 (n + 2 * p.1) (n + 2 * p.1 + 1)).2
    have h2 : c ≤ (fixIllLoad insts c p.2 (n + 2 * p.1)
        (n + 2 * p.1 + 1)).2 := by
      rcases fixIllLoad_fresh insts c p.2 (n + 2 * p.1) (n + 2 * p.1 + 1)
        with h | h
      · omega
      · omega
    exact le_trans h2 h1

theorem scan_flag_aux (insts : List HInst)
    (acc : List IllLoad × List IllStore × Bool)
    (h : acc.2.2 = true ↔ acc.1 ≠ []) :
    ((insts.foldl scanStep acc).2.2 = true
      ↔ (insts.foldl scanStep acc).1 ≠ []) := by
  induction insts generalizing acc with
  | nil => exact h
  | cons i rest ih =>
    refine ih (scanStep acc i) ?_
    cases i with
    | load id lt p pt =>
      simp only [scanStep]
      by_cases hc : pt.isMMSafePointerTy && !lt.isMMSafePointerTy
      · rw [if_pos hc]
        constructor
        · intro _ hcon
          exact absurd hcon (by simp)
        · intro _
          rfl
      · rw [if_neg hc]
        exact h
    | store id v vt p pt =>
      simp only [scanStep]
      by_cases hc : pt.isMMArrayPointerTy && !vt.isMMArrayPointerTy
      · rw [if_pos hc]
        exact h
      · rw [if_neg hc]
        exact h
    | gep00 id st p => exact h
    | extractValue id a k => exact h
    | insertValue id a e k => exact h
    | other id ops => exact h

/-- C5: for every load collected as ill-formed (safe-pointer-aggregate
pointee, non-safe-pointer value type), the Type-Harmonization pass's
per-function entry point leaves the function in the `Repaired` state for
that load: the original load is erased, the constant `{0,0}` GEP to the
raw-pointer field is immediately followed by a load of the raw-pointer
type, every `extractvalue`/`insertvalue` user consumes a newly inserted
load of the whole aggregate at the original pointer, and every other
user consumes the new raw-pointer load. -/
theorem claim_C5 (f : HFunc) (n : Nat) (hwf : HWF f n) (k : Nat)
    (il : IllLoad) (hk : (illLoadsOf f).get? k = some il) :
    Repaired f il (n + 2 * k) (n + 2 * k + 1) n
      (runOnFunction f n).1.insts := by
  have hil : il ∈ illLoadsOf f := List.get?_mem hk
  have hidst0 : IdState (n + 2 * 0) (n + 2 * (illLoadsOf f).length)
      (n + 2 * (illLoadsOf f).length) f.insts := by
    refine ⟨hwf.2.1, ?_⟩
    intro x hx
    have := (hwf.1 x hx).1
    exact Or.inl (by omega)
  have hph2 := phase2_fold f n hwf (illLoadsOf f) 0 f.insts
    (n + 2 * (illLoadsOf f).length) ((illLoadsOf f).drop_zero).symm
    le_rfl hidst0
    (fun j il0 hj _ => absurd hj (Nat.not_lt_zero j))
    (fun j il0 _ h => Pending_init f n hwf il0 (List.get?_mem h))
    k il hk
  have hcnt := phase2_counter n ((illLoadsOf f).enum) f.insts
    (n + 2 * (illLoadsOf f).length)
  exact phase3_fold f n hwf il hil (n + 2 * k) (n + 2 * k + 1)
    (by omega) (by omega) (illStoresOf f)
    (((illLoadsOf f).enum).foldl
      (fun acc p => fixIllLoad acc.1 acc.2 p.2 (n + 2 * p.1)
        (n + 2 * p.1 + 1)) (f.insts, n + 2 * (illLoadsOf f).length)).1
    (((illLoadsOf f).enum).foldl
      (fun acc p => fixIllLoad acc.1 acc.2 p.2 (n + 2 * p.1)
        (n + 2 * p.1 + 1)) (f.insts, n + 2 * (illLoadsOf f).length)).2
    (fun s hs => hs) (by omega) hph2

/-- Witness for C5 at the concrete function `exLoadFn` (one ill-formed
load with an `extractvalue` user, an `insertvalue` user and a plain
user), with the fresh-id supply starting at 10. -/
theorem claim_C5_witness :
    Repaired exLoadFn
      ⟨1, Ty.ptr (Ty.int 32), 0, Ty.mmArrayPtr (Ty.int 32)⟩
      (10 + 2 * 0) (10 + 2 * 0 + 1) 10
      (runOnFunction exLoadFn 10).1.insts :=
  claim_C5 exLoadFn 10 (by unfold HWF idsBound; decide) 0
    ⟨1, Ty.ptr (Ty.int 32), 0, Ty.mmArrayPtr (Ty.int 32)⟩ (by decide)

/-- C10: the per-function entry point of the Type-Harmonization pass
returns `true` exactly when the collection loop found at least one
ill-formed load; in particular the function `exStoreFn`, whose only
defect is an ill-formed store, is rewritten yet reported unmodified. -/
theorem claim_C10 :
    (∀ (f : HFunc) (n : Nat),
      ((runOnFunction f n).2 = true ↔ illLoadsOf f ≠ [])) ∧
    (runOnFunction exStoreFn 10).2 = false ∧
    (runOnFunction exStoreFn 10).1 ≠ exStoreFn := by
  refine ⟨?_, by decide, by decide⟩
  intro f n
  show (scan f).2.2 = true ↔ (scan f).1 ≠ []
  exact scan_flag_aux f.insts ([], [], false) (by simp)

end CheckedC.Harmonize

namespace CheckedC.KeyOpt

theorem dfLoop_diverges_from_exDF1 :
    ∀ fuel, dfLoop exKF1 exMayFree1 fuel exDF1 = none := by
  intro fuel
  induction fuel with
  | zero => rfl
  | succ k ih =>
    show dfLoop exKF1 exMayFree1 (k + 1) exDF1 = none
    have hB : iterOnce exKF1 exMayFree1 exDF1 = (exDF1, true) := by decide
    simp only [dfLoop, hB]
    exact ih

theorem dfLoop_diverges_from_exDF0 :
    ∀ fuel, dfLoop exKF1 exMayFree1 fuel exDF0 = none := by
  intro fuel
  cases fuel with
  | zero => rfl
  | succ k =>
    show dfLoop exKF1 exMayFree1 (k + 1) exDF0 = none
    have hA : iterOnce exKF1 exMayFree1 exDF0 = (exDF1, true) := by decide
    simp only [dfLoop, hA]
    exact dfLoop_diverges_from_exDF1 k

/-- C1 (code behavior): block 2 of `exKF1` has may-free predecessor 1,
yet the propagation loop never reaches a state with `BBIn[2] = ∅`:
after one pass `BBIn[2] = {7}`, and that state is revisited forever
with `changed = true` (clearing `BBIn` and re-adding the surviving
predecessor intersection reports growth each time), so the pass's
entry point fails to terminate for every iteration budget; moreover in
the recurring state the collection phase schedules the check in block 2
(id 101) for deletion instead of preserving it. -/
theorem claim_C1_code_eval :
    ((predsOf exKF1 2).contains 1 = true ∧ exMayFree1.contains 1 = true) ∧
    iterOnce exKF1 exMayFree1 exDF1 = (exDF1, true) ∧
    lookupSet exDF1.bbIn 2 = [7] ∧
    (collectPhase exKF1.blocks exDF1.bbIn []).2 = [101] ∧
    (∀ fuel, runOnModule [exKF1] exMayFree1 fuel 0 = none) := by
  refine ⟨by decide, by decide, by decide, by decide, ?_⟩
  intro fuel
  have hl : localPhase (([exKF1].map KFunc.blocks).join) [] []
      = ([(0, [7]), (2, [7])], []) := by decide
  show runOnModule [exKF1] exMayFree1 fuel 0 = none
  unfold runOnModule Opt
  rw [hl]
  simp only [List.foldl_cons, List.foldl_nil]
  rw [show ({ bbIn := [], bbOut := [(0, [7]), (2, [7])] } : DFState)
    = exDF0 from rfl]
  rw [dfLoop_diverges_from_exDF0 fuel]

end CheckedC.KeyOpt

namespace CheckedC.KeyOpt

theorem mem_setInsert (s : List Nat) (x y : Nat) :
    y ∈ setInsert s x ↔ y ∈ s ∨ y = x := by
  unfold setInsert
  by_cases h : s.contains x
  · rw [if_pos h]
    constructor
    · exact Or.inl
    · intro hc
      rcases hc with hc | rfl
      · exact hc
      · simpa using h
  · rw [if_neg h]
    simp

theorem setInsert_nodup (s : List Nat) (x : Nat) (h : s.Nodup) :
    (setInsert s x).Nodup := by
  unfold setInsert
  by_cases hc : s.contains x
  · rw [if_pos hc]
    exact h
  · rw [if_neg hc]
    refine List.Nodup.append h (List.nodup_singleton x) ?_
    intro a ha hmem
    rw [List.mem_singleton] at hmem
    subst hmem
    exact hc (by simpa using ha)

def getCheckId : KInst → Option Nat
  | KInst.check id _ => some id
  | _ => none

theorem localStep_fold (insts : List KInst) :
    ∀ st : List Nat × List Nat, st.2.Nodup →
      ((insts.foldl localStep st).2.Nodup ∧
       ∀ x ∈ (insts.foldl localStep st).2,
         x ∈ st.2 ∨ ∃ a, KInst.check x a ∈ insts) := by
  induction insts with
  | nil =>
    intro st h
    exact ⟨h, fun x hx => Or.inl hx⟩
  | cons i rest ih =>
    intro st h
    have hstep : (localStep st i).2.Nodup ∧
        ∀ x ∈ (localStep st i).2, x ∈ st.2 ∨ ∃ a, i = KInst.check x a := by
      cases i with
      | check id arg =>
        simp only [localStep]
        by_cases hc : st.1.contains arg
        · rw [if_pos hc]
          refine ⟨setInsert_nodup _ _ h, ?_⟩
          intro x hx
          rcases (mem_setInsert _ _ _).mp hx with hx | rfl
          · exact Or.inl hx
          · exact Or.inr ⟨arg, rfl⟩
        · rw [if_neg hc]
          exact ⟨h, fun x hx => Or.inl hx⟩
      | store p => exact ⟨h, fun x hx => Or.inl hx⟩
      | other => exact ⟨h, fun x hx => Or.inl hx⟩
    rw [List.foldl_cons]
    obtain ⟨h1, h2⟩ := ih (localStep st i) hstep.1
    refine ⟨h1, ?_⟩
    intro x hx
    rcases h2 x hx with hx2 | ⟨a, ha⟩
    · rcases hstep.2 x hx2 with hx3 | ⟨a, ha⟩
      · exact Or.inl hx3
      · exact Or.inr ⟨a, ha ▸ List.mem_cons_self _ _⟩
    · exact Or.inr ⟨a, List.mem_cons_of_mem _ ha⟩

theorem collectStep_fold (insts : List KInst) :
    ∀ st : List Nat × List Nat, st.2.Nodup →
      ((insts.foldl collectStep st).2.Nodup ∧
       ∀ x ∈ (insts.foldl collectStep st).2,
         x ∈ st.2 ∨ ∃ a, KInst.check x a ∈ insts) := by
  induction insts with
  | nil =>
    intro st h
    exact ⟨h, fun x hx => Or.inl hx⟩
  | cons i rest ih =>
    intro st h
    have hstep : (collectStep st i).2.Nodup ∧
        ∀ x ∈ (collectStep st i).2, x ∈ st.2 ∨ ∃ a, i = KInst.check x a := by
      cases i with
      | check id arg =>
        simp only [collectStep]
        by_cases hd : st.2.contains id
        · rw [if_pos hd]
          exact ⟨h, fun x hx => Or.inl hx⟩
        · rw [if_neg hd]
          by_cases hc : st.1.contains arg
          · rw [if_pos hc]
            refine ⟨setInsert_nodup _ _ h, ?_⟩
            intro x hx
            rcases (mem_setInsert _ _ _).mp hx with hx | rfl
            · exact Or.inl hx
            · exact Or.inr ⟨arg, rfl⟩
          · rw [if_neg hc]
            exact ⟨h, fun x hx => Or.inl hx⟩
      | store p => exact ⟨h, fun x hx => Or.inl hx⟩
      | other => exact ⟨h, fun x hx => Or.inl hx⟩
    rw [List.foldl_cons]
    obtain ⟨h1, h2⟩ := ih (collectStep st i) hstep.1
    refine ⟨h1, ?_⟩
    intro x hx
    rcases h2 x hx with hx2 | ⟨a, ha⟩
    · rcases hstep.2 x hx2 with hx3 | ⟨a, ha⟩
      · exact Or.inl hx3
      · exact Or.inr ⟨a, ha ▸ List.mem_cons_self _ _⟩
    · exact Or.inr ⟨a, List.mem_cons_of_mem _ ha⟩

theorem checkIds_cons (b : KBlock) (rest : List KBlock) :
    checkIds (b :: rest)
      = b.insts.filterMap (fun i =>
          match i with
          | KInst.check id _ => some id
          | _ => none) ++ checkIds rest := by
  simp [checkIds]

theorem mem_block_checkIds (b : KBlock) (x : Nat) :
    (x ∈ b.insts.filterMap (fun i =>
        match i with
        | KInst.check id _ => some id
        | _ => none)) ↔ ∃ a, KInst.check x a ∈ b.insts := by
  rw [List.mem_filterMap]
  constructor
  · rintro ⟨i, hi, hx⟩
    cases i with
    | check id arg =>
      simp only [Option.some.injEq] at hx
      exact ⟨arg, hx ▸ hi⟩
    | store p => cases hx
    | other => cases hx
  · rintro ⟨a, ha⟩
    exact ⟨KInst.check x a, ha, rfl⟩

theorem phase_fold_aux
    (step : (List Nat × List Nat) → KInst → (List Nat × List Nat))
    (hstep : ∀ (insts : List KInst) (st : List Nat × List Nat), st.2.Nodup →
      ((insts.foldl step st).2.Nodup ∧
       ∀ x ∈ (insts.foldl step st).2,
         x ∈ st.2 ∨ ∃ a, KInst.check x a ∈ insts)) :
    ∀ (blocks : List KBlock) (st : (List (Nat × List Nat)) × List Nat),
      st.2.Nodup →
      ((blocks.foldl (fun acc b =>
          if b.insts.any isCheck then
            (let r := b.insts.foldl step (lookupSet acc.1 b.id, acc.2);
             (updateSet acc.1 b.id r.1, r.2))
          else acc) st).2.Nodup ∧
       ∀ x ∈ (blocks.foldl (fun acc b =>
          if b.insts.any isCheck then
            (let r := b.insts.foldl step (lookupSet acc.1 b.id, acc.2);
             (updateSet acc.1 b.id r.1, r.2))
          else acc) st).2,
         x ∈ st.2 ∨ x ∈ checkIds blocks) := by
  intro blocks
  induction blocks with
  | nil =>
    intro st h
    exact ⟨h, fun x hx => Or.inl hx⟩
  | cons b rest ih =>
    intro st h
    rw [List.foldl_cons]
    show (List.foldl _ (if b.insts.any isCheck = true then
        (updateSet st.1 b.id
          (b.insts.foldl step (lookupSet st.1 b.id, st.2)).1,
         (b.insts.foldl step (lookupSet st.1 b.id, st.2)).2)
      else st) rest).2.Nodup ∧
      ∀ x ∈ (List.foldl _ (if b.insts.any isCheck = true then
        (updateSet st.1 b.id
          (b.insts.foldl step (lookupSet st.1 b.id, st.2)).1,
         (b.insts.foldl step (lookupSet st.1 b.id, st.2)).2)
      else st) rest).2, x ∈ st.2 ∨ x ∈ checkIds (b :: rest)
    by_cases hc : b.insts.any isCheck
    · rw [if_pos hc]
      have hloc := hstep b.insts (lookupSet st.1 b.id, st.2) h
      obtain ⟨h1, h2⟩ := ih
        (updateSet st.1 b.id (b.insts.foldl step (lookupSet st.1 b.id, st.2)).1,
         (b.insts.foldl step (lookupSet st.1 b.id, st.2)).2) hloc.1
      refine ⟨h1, ?_⟩
      intro x hx
      rcases h2 x hx with hx1 | hx1
      · rcases hloc.2 x hx1 with hx2 | ⟨a, ha⟩
        · exact Or.inl hx2
        · refine Or.inr ?_
          rw [checkIds_cons, List.mem_append]
          exact Or.inl ((mem_block_checkIds b x).mpr ⟨a, ha⟩)
      · refine Or.inr ?_
        rw [checkIds_cons, List.mem_append]
        exact Or.inr hx1
    · rw [if_neg hc]
      obtain ⟨h1, h2⟩ := ih st h
      refine ⟨h1, ?_⟩
      intro x hx
      rcases h2 x hx with hx1 | hx1
      · exact Or.inl hx1
      · refine Or.inr ?_
        rw [checkIds_cons, List.mem_append]
        exact Or.inr hx1

theorem localPhase_toDel (blocks : List KBlock)
    (bbOut : List (Nat × List Nat)) (toDel : List Nat) (h : toDel.Nodup) :
    ((localPhase blocks bbOut toDel).2.Nodup ∧
     ∀ x ∈ (localPhase blocks bbOut toDel).2,
       x ∈ toDel ∨ x ∈ checkIds blocks) :=
  phase_fold_aux localStep localStep_fold blocks (bbOut, toDel) h

theorem collectPhase_toDel (blocks : List KBlock)
    (bbIn : List (Nat × List Nat)) (toDel : List Nat) (h : toDel.Nodup) :
    ((collectPhase blocks bbIn toDel).2.Nodup ∧
     ∀ x ∈ (collectPhase blocks bbIn toDel).2,
       x ∈ toDel ∨ x ∈ checkIds blocks) :=
  phase_fold_aux collectStep collectStep_fold blocks (bbIn, toDel) h

end CheckedC.KeyOpt

namespace CheckedC.KeyOpt

theorem opt_fold_inv (mayFree : List Nat) (fuel : Nat) (allB : List KBlock) :
    ∀ (fns : List KFunc)
      (acc : Option ((List (Nat × List Nat)) × (List (Nat × List Nat))
        × List Nat)),
    (∀ kf ∈ fns, ∀ x, x ∈ checkIds kf.blocks → x ∈ checkIds allB) →
    (∀ t, acc = some t → t.2.2.Nodup ∧ ∀ x ∈ t.2.2, x ∈ checkIds allB) →
    ∀ t, (fns.foldl
      (fun (acc : Option ((List (Nat × List Nat)) × (List (Nat × List Nat))
          × List Nat)) kf =>
        match acc with
        | none => none
        | some (bbIn, bbOut, toDel) =>
          match dfLoop kf mayFree fuel { bbIn := bbIn, bbOut := bbOut } with
          | none => none
          | some s2 =>
            (let c := collectPhase kf.blocks s2.bbIn toDel;
             some (c.1, s2.bbOut, c.2))) acc) = some t →
      t.2.2.Nodup ∧ ∀ x ∈ t.2.2, x ∈ checkIds allB := by
  intro fns
  induction fns with
  | nil =>
    intro acc _ hacc t ht
    exact hacc t ht
  | cons kf rest ih =>
    intro acc hmem hacc t ht
    rw [List.foldl_cons] at ht
    refine ih _ (fun k hk => hmem k (List.mem_cons_of_mem _ hk)) ?_ t ht
    intro t2 ht2
    cases acc with
    | none =>
      have ht3 : (none : Option ((List (Nat × List Nat))
          × (List (Nat × List Nat)) × List Nat)) = some t2 := ht2
      cases ht3
    | some trip =>
      obtain ⟨bbIn, bbOut, toDel⟩ := trip
      have ht3 : (match dfLoop kf mayFree fuel
            { bbIn := bbIn, bbOut := bbOut } with
          | none => none
          | some s2 =>
            some ((collectPhase kf.blocks s2.bbIn toDel).1, s2.bbOut,
              (collectPhase kf.blocks s2.bbIn toDel).2)) = some t2 := ht2
      cases hdf : dfLoop kf mayFree fuel { bbIn := bbIn, bbOut := bbOut } with
      | none =>
        rw [hdf] at ht3
        cases ht3
      | some s2 =>
        rw [hdf] at ht3
        simp only [Option.some.injEq] at ht3
        obtain ⟨h1, h2⟩ := hacc (bbIn, bbOut, toDel) rfl
        have hc := collectPhase_toDel kf.blocks s2.bbIn toDel h1
        subst ht3
        refine ⟨hc.1, ?_⟩
        intro x hx
        rcases hc.2 x hx with hx1 | hx1
        · exact h2 x hx1
        · exact hmem kf (List.mem_cons_self _ _) x hx1

theorem checkIds_append (a b : List KBlock) :
    checkIds (a ++ b) = checkIds a ++ checkIds b := by
  simp [checkIds]

theorem filter_filterMap_check (toDel : List Nat) (insts : List KInst) :
    (insts.filter (fun i =>
        match i with
        | KInst.check id _ => !(toDel.contains id)
        | _ => true)).filterMap (fun i =>
        match i with
        | KInst.check id _ => some id
        | _ => none)
      = (insts.filterMap (fun i =>
          match i with
          | KInst.check id _ => some id
          | _ => none)).filter (fun x => !(toDel.contains x)) := by
  induction insts with
  | nil => rfl
  | cons i rest ih =>
    rw [show ∀ l : List KInst, l.filter (fun i =>
        match i with
        | KInst.check id _ => !(toDel.contains id)
        | _ => true) = l.filter (fun i =>
        match i with
        | KInst.check id _ => !(decide (id ∈ toDel))
        | _ => true) from fun l => by
      refine List.filter_congr ?_
      intro x _
      cases x <;> simp [List.elem_eq_mem]] at ih ⊢
    cases i with
    | check id arg =>
      by_cases hc : id ∈ toDel
      · simp [List.filter_cons, List.filterMap_cons, hc, ih]
      · simp [List.filter_cons, List.filterMap_cons, hc, ih]
    | store p =>
      simp [List.filter_cons, List.filterMap_cons, ih]
    | other =>
      simp [List.filter_cons, List.filterMap_cons, ih]

theorem checkIds_eraseChecks (toDel : List Nat) (blocks : List KBlock) :
    checkIds (eraseChecks toDel blocks)
      = (checkIds blocks).filter (fun x => !(toDel.contains x)) := by
  induction blocks with
  | nil => rfl
  | cons b rest ih =>
    show checkIds ({ b with insts := _ } :: eraseChecks toDel rest) = _
    rw [checkIds_cons, checkIds_cons, List.filter_append, ih]
    congr 1
    exact filter_filterMap_check toDel b.insts

theorem eraseChecks_append (toDel : List Nat) (a b : List KBlock) :
    eraseChecks toDel (a ++ b) = eraseChecks toDel a ++ eraseChecks toDel b := by
  simp [eraseChecks]

theorem erased_module_blocks (toDel : List Nat) (m : List KFunc) :
    (((m.map (fun kf =>
        { kf with blocks := (eraseChecks toDel kf.blocks) })).map
      KFunc.blocks).join)
      = eraseChecks toDel ((m.map KFunc.blocks).join) := by
  induction m with
  | nil => rfl
  | cons kf rest ih =>
    have hjoin : ∀ (x : List KBlock) (L : List (List KBlock)),
        (x :: L).join = x ++ L.join := fun x L => rfl
    simp only [List.map_cons, hjoin]
    rw [eraseChecks_append, ih]

theorem length_filter_not_contains (ids toDel : List Nat)
    (hnd : ids.Nodup) (htd : toDel.Nodup) (hsub : ∀ x ∈ toDel, x ∈ ids) :
    (ids.filter (fun x => !(toDel.contains x))).length
      = ids.length - toDel.length ∧ toDel.length ≤ ids.length := by
  have hperm : (ids.filter (fun x => toDel.contains x)).Perm toDel := by
    refine (List.perm_ext_iff_of_nodup (List.Nodup.filter _ hnd) htd).mpr ?_
    intro a
    rw [List.mem_filter]
    constructor
    · rintro ⟨_, h⟩
      simpa using h
    · intro h
      exact ⟨hsub a h, by simpa using h⟩
  have hlen := List.length_eq_length_filter_add
    (l := ids) (fun x => toDel.contains x)
  have hfl : (ids.filter (fun x => toDel.contains x)).length
      = toDel.length := hperm.length_eq
  constructor
  · omega
  · omega

end CheckedC.KeyOpt

namespace CheckedC.KeyOpt

theorem checkIds_mem_join (m : List KFunc) (kf : KFunc) (hkf : kf ∈ m) :
    ∀ x, x ∈ checkIds kf.blocks → x ∈ checkIds ((m.map KFunc.blocks).join) := by
  induction m with
  | nil => cases hkf
  | cons k rest ih =>
    intro x hx
    have hjoin : ∀ (a : List KBlock) (L : List (List KBlock)),
        (a :: L).join = a ++ L.join := fun a L => rfl
    simp only [List.map_cons, hjoin]
    rw [checkIds_append, List.mem_append]
    rcases List.mem_cons.mp hkf with rfl | hkf2
    · exact Or.inl hx
    · exact Or.inr (ih hkf2 x hx)

/-- C7 (counterexample): with a prior cumulative count of 1, a run on a
module with one non-redundant check removes nothing and leaves the
module unchanged, yet the reported count stays 1 (≠ 0 = checks before −
checks after) and the entry point returns `true` although no check was
removed in that run. -/
theorem claim_C7_counterexample :
    runOnModule [exF7] [] 9 1 = some ([exF7], 1, true) ∧
    countChecks [exF7] - countChecks [exF7] = 0 ∧ (1 : Nat) ≠ 0 := by
  refine ⟨by decide, by decide, by decide⟩

/-- C7 (amended): when every propagation loop exits within the fuel and
the check-call ids are distinct, the cumulative removed-check counter
grows by exactly the number of key-check calls erased in this run —
that is, the new counter is the prior counter plus (checks before −
checks after) — and the entry point returns `true` iff the cumulative
counter (including prior runs) is positive, not iff this run removed a
check. -/
theorem claim_C7_amended (m : List KFunc) (mayFree : List Nat)
    (fuel p : Nat) (m2 : List KFunc) (c : Nat) (b : Bool)
    (hids : (checkIds ((m.map KFunc.blocks).join)).Nodup)
    (h : runOnModule m mayFree fuel p = some (m2, c, b)) :
    p ≤ c ∧ countChecks m2 = countChecks m - (c - p) ∧
    c = p + (countChecks m - countChecks m2) ∧
    (b = true ↔ 0 < c) := by
  unfold runOnModule at h
  cases hOpt : Opt m mayFree fuel p with
  | none =>
    rw [hOpt] at h
    cases h
  | some pr =>
    obtain ⟨m2x, c2⟩ := pr
    rw [hOpt] at h
    simp only [Option.some.injEq, Prod.mk.injEq] at h
    obtain ⟨hm2, hcc, hb⟩ := h
    have hOpt2 : (match (m.foldl
        (fun (acc : Option ((List (Nat × List Nat)) × (List (Nat × List Nat))
            × List Nat)) kf =>
          match acc with
          | none => none
          | some (bbIn, bbOut, toDel) =>
            match dfLoop kf mayFree fuel { bbIn := bbIn, bbOut := bbOut } with
            | none => none
            | some s2 =>
              (let c := collectPhase kf.blocks s2.bbIn toDel;
               some (c.1, s2.bbOut, c.2)))
        (some ([], (localPhase ((m.map KFunc.blocks).join) [] []).1,
          (localPhase ((m.map KFunc.blocks).join) [] []).2))) with
      | none => none
      | some (_, _, toDel) =>
        some (m.map (fun kf =>
          { kf with blocks := (eraseChecks toDel kf.blocks) }),
          p + toDel.length)) = some (m2x, c2) := hOpt
    cases hfold : (m.foldl
        (fun (acc : Option ((List (Nat × List Nat)) × (List (Nat × List Nat))
            × List Nat)) kf =>
          match acc with
          | none => none
          | some (bbIn, bbOut, toDel) =>
            match dfLoop kf mayFree fuel { bbIn := bbIn, bbOut := bbOut } with
            | none => none
            | some s2 =>
              (let c := collectPhase kf.blocks s2.bbIn toDel;
               some (c.1, s2.bbOut, c.2)))
        (some ([], (localPhase ((m.map KFunc.blocks).join) [] []).1,
          (localPhase ((m.map KFunc.blocks).join) [] []).2))) with
    | none =>
      rw [hfold] at hOpt2
      cases hOpt2
    | some r =>
      obtain ⟨r1, r2, r3⟩ := r
      rw [hfold] at hOpt2
      simp only [Option.some.injEq, Prod.mk.injEq] at hOpt2
      obtain ⟨hm2x, hc2⟩ := hOpt2
      have hinit := localPhase_toDel ((m.map KFunc.blocks).join) [] []
        List.nodup_nil
      have hinv := opt_fold_inv mayFree fuel ((m.map KFunc.blocks).join) m
        (some ([], (localPhase ((m.map KFunc.blocks).join) [] []).1,
          (localPhase ((m.map KFunc.blocks).join) [] []).2))
        (fun kf hkf => checkIds_mem_join m kf hkf)
        (by
          intro t ht
          simp only [Option.some.injEq] at ht
          subst ht
          refine ⟨hinit.1, ?_⟩
          intro x hx
          rcases hinit.2 x hx with hx1 | hx1
          · cases hx1
          · exact hx1)
        (r1, r2, r3) hfold
      have hlen := length_filter_not_contains
        (checkIds ((m.map KFunc.blocks).join)) r3 hids hinv.1
        (fun x hx => hinv.2 x hx)
      have hcount2 : countChecks m2 = countChecks m - r3.length := by
        rw [← hm2, ← hm2x]
        unfold countChecks
        rw [erased_module_blocks, checkIds_eraseChecks]
        exact hlen.1
      have hcval : c = p + r3.length := by omega
      have hle : r3.length ≤ countChecks m := hlen.2
      refine ⟨by omega, by omega, by omega, ?_⟩
      rw [← hb, ← hcc]
      simp

end CheckedC.KeyOpt

namespace CheckedC.KeyOpt

/-- Witness for the amended C7 on a module with one redundant check:
the run removes it, the counter goes from 0 to 1, and the return value
is `true`. -/
theorem claim_C7_amended_witness :
    (checkIds (([exF7b].map KFunc.blocks).join)).Nodup ∧
    runOnModule [exF7b] [] 9 0 = some ([exF7b2], 1, true) ∧
    (0 ≤ 1 ∧ countChecks [exF7b2] = countChecks [exF7b] - (1 - 0) ∧
     1 = 0 + (countChecks [exF7b] - countChecks [exF7b2]) ∧
     (true = true ↔ 0 < 1)) :=
  ⟨by decide, by decide,
    claim_C7_amended [exF7b] [] 9 0 [exF7b2] 1 true (by decide) (by decide)⟩

end CheckedC.KeyOpt

namespace CheckedC.SplitBB

theorem join_singleton_id (L : List SBlock) (f : SBlock → List SBlock)
    (h : ∀ e ∈ L, f e = [e]) : (L.map f).join = L := by
  induction L with
  | nil => rfl
  | cons x rest ih =>
    have hjoin : ∀ (a : List SBlock) (M : List (List SBlock)),
        (a :: M).join = a ++ M.join := fun a M => rfl
    rw [List.map_cons, hjoin, h x (List.mem_cons_self _ _),
      ih (fun e he => h e (List.mem_cons_of_mem _ he))]
    rfl

theorem splitBlock_at_split (B1 B2 : List SBlock) (b : SBlock)
    (t fB fT : Nat)
    (hb1 : ∀ e ∈ B1, e.id ≠ b.id) (hb2 : ∀ e ∈ B2, e.id ≠ b.id) :
    splitBlock (B1 ++ b :: B2) b.id t fB fT
      = B1 ++ ⟨b.id, (b.insts.takeWhile (fun i => i.iid ≠ t))
            ++ [SInst.term fT]⟩
          :: ⟨fB, b.insts.dropWhile (fun i => i.iid ≠ t)⟩ :: B2 := by
  unfold splitBlock
  have hjoin : ∀ (a : List SBlock) (M : List (List SBlock)),
      (a :: M).join = a ++ M.join := fun a M => rfl
  have hja : ∀ (A B : List (List SBlock)),
      (A ++ B).join = A.join ++ B.join := by
    intro A B
    induction A with
    | nil => rfl
    | cons x rest ih =>
      rw [List.cons_append, hjoin, hjoin, ih, List.append_assoc]
  rw [List.map_append, List.map_cons, hja, hjoin]
  rw [join_singleton_id B1 _ (fun e he => by rw [if_neg (hb1 e he)])]
  rw [join_singleton_id B2 _ (fun e he => by rw [if_neg (hb2 e he)])]
  rw [if_pos rfl]
  rfl

theorem splitBlock_mem_other (blocks : List SBlock) (bid t fB fT : Nat)
    (b : SBlock) (hb : b ∈ blocks) (hne : b.id ≠ bid) :
    b ∈ splitBlock blocks bid t fB fT := by
  unfold splitBlock
  rw [List.mem_join]
  refine ⟨[b], ?_, List.mem_singleton_self _⟩
  refine List.mem_map.mpr ⟨b, hb, ?_⟩
  rw [if_neg hne]

theorem takeWhile_at (P S : List SInst) (x : SInst) (t : Nat)
    (hxt : x.iid = t) (hP : ∀ e ∈ P, e.iid ≠ t) :
    (P ++ x :: S).takeWhile (fun i => i.iid ≠ t) = P ∧
    (P ++ x :: S).dropWhile (fun i => i.iid ≠ t) = x :: S := by
  induction P with
  | nil =>
    simp only [List.nil_append, List.takeWhile_cons, List.dropWhile_cons]
    rw [hxt]
    simp
  | cons p rest ih =>
    have hp : p.iid ≠ t := hP p (List.mem_cons_self _ _)
    have ihr := ih (fun e he => hP e (List.mem_cons_of_mem _ he))
    simp only [List.cons_append, List.takeWhile_cons, List.dropWhile_cons]
    rw [decide_eq_true hp]
    simp only [if_true]
    exact ⟨by rw [ihr.1], by rw [ihr.2]⟩

theorem instIdsOf_cons (b : SBlock) (rest : List SBlock) :
    instIdsOf (b :: rest) = b.insts.map SInst.iid ++ instIdsOf rest := rfl

theorem instIdsOf_append (a b : List SBlock) :
    instIdsOf (a ++ b) = instIdsOf a ++ instIdsOf b := by
  simp [instIdsOf]

theorem mem_instIdsOf (blocks : List SBlock) (x : Nat) :
    x ∈ instIdsOf blocks ↔ ∃ b ∈ blocks, ∃ i ∈ b.insts, i.iid = x := by
  induction blocks with
  | nil => simp [instIdsOf]
  | cons b rest ih =>
    rw [instIdsOf_cons, List.mem_append, ih]
    constructor
    · intro h
      rcases h with h | ⟨b2, hb2, hi⟩
      · obtain ⟨i, hi, hx⟩ := List.mem_map.mp h
        exact ⟨b, List.mem_cons_self _ _, i, hi, hx⟩
      · exact ⟨b2, List.mem_cons_of_mem _ hb2, hi⟩
    · rintro ⟨b2, hb2, i, hi, hx⟩
      rcases List.mem_cons.mp hb2 with rfl | hb2
      · exact Or.inl (List.mem_map.mpr ⟨i, hi, hx⟩)
      · exact Or.inr ⟨b2, hb2, i, hi, hx⟩

theorem blockWF_split (b : SBlock) (h : blockWFb b = true) :
    ∃ body tid, b.insts = body ++ [SInst.term tid] ∧
      ∀ i ∈ body, isTerm i = false := by
  unfold blockWFb at h
  cases hl : b.insts.getLast? with
  | none => rw [hl] at h; cases h
  | some i =>
    rw [hl] at h
    simp only [Bool.and_eq_true, Bool.not_eq_true'] at h
    have hne : b.insts ≠ [] := by
      intro hc
      rw [hc] at hl
      cases hl
    have hsplit : b.insts.dropLast ++ [b.insts.getLast hne] = b.insts :=
      List.dropLast_append_getLast hne
    have hi : b.insts.getLast hne = i := by
      have := List.getLast?_eq_getLast b.insts hne
      rw [hl] at this
      exact (Option.some.injEq _ _ ▸ this).symm
    cases i with
    | term tid =>
      rw [hi] at hsplit
      refine ⟨b.insts.dropLast, tid, hsplit.symm, ?_⟩
      intro j hj
      have h2 := List.any_eq_false.mp h.2 j hj
      cases hj2 : isTerm j
      · rfl
      · exact absurd hj2 h2
    | call x => cases h.1
    | other x => cases h.1

end CheckedC.SplitBB

namespace CheckedC.SplitBB

theorem block_iids_nodup (blocks : List SBlock)
    (hnd : (instIdsOf blocks).Nodup) (b : SBlock) (hb : b ∈ blocks) :
    (b.insts.map SInst.iid).Nodup := by
  induction blocks with
  | nil => cases hb
  | cons x rest ih =>
    rw [instIdsOf_cons] at hnd
    rcases List.mem_cons.mp hb with rfl | hb2
    · exact (List.nodup_append.mp hnd).1
    · exact ih (List.nodup_append.mp hnd).2.1 hb2

theorem sblock_ids_ne (blocks B1 B2 : List SBlock) (b : SBlock)
    (hnd : (blocks.map SBlock.id).Nodup) (hsp : blocks = B1 ++ b :: B2) :
    (∀ e ∈ B1, e.id ≠ b.id) ∧ (∀ e ∈ B2, e.id ≠ b.id) := by
  subst hsp
  simp only [List.map_append, List.map_cons] at hnd
  have h1 := (List.nodup_append.mp hnd).2.2
  have h2 := (List.nodup_append.mp hnd).2.1
  constructor
  · intro e he hc
    refine h1 (List.mem_map_of_mem _ he) ?_
    rw [hc]
    exact List.mem_cons_self _ _
  · intro e he hc
    exact (List.nodup_cons.mp h2).1 (hc ▸ List.mem_map_of_mem _ he)

theorem iids_ne_of_split (l P S : List SInst) (x : SInst)
    (hnd : (l.map SInst.iid).Nodup) (hsp : l = P ++ x :: S) :
    (∀ e ∈ P, e.iid ≠ x.iid) ∧ (∀ e ∈ S, e.iid ≠ x.iid) := by
  subst hsp
  simp only [List.map_append, List.map_cons] at hnd
  have h1 := (List.nodup_append.mp hnd).2.2
  have h2 := (List.nodup_append.mp hnd).2.1
  constructor
  · intro e he hc
    refine h1 (List.mem_map_of_mem _ he) ?_
    rw [hc]
    exact List.mem_cons_self _ _
  · intro e he hc
    exact (List.nodup_cons.mp h2).1 (hc ▸ List.mem_map_of_mem _ he)

theorem parentOf_eq (blocks : List SBlock)
    (hnd : (instIdsOf blocks).Nodup) (b : SBlock) (hb : b ∈ blocks)
    (c : Nat) (hc : ∃ i ∈ b.insts, i.iid = c) :
    parentOf blocks c = some b := by
  induction blocks with
  | nil => cases hb
  | cons x rest ih =>
    rw [instIdsOf_cons] at hnd
    unfold parentOf
    rw [List.find?_cons]
    by_cases hx : x.insts.any (fun i => i.iid = c)
    · rw [hx]
      rcases List.mem_cons.mp hb with rfl | hb2
      · rfl
      · exfalso
        obtain ⟨j, hj, hjc⟩ := List.any_eq_true.mp hx
        have hcx : c ∈ x.insts.map SInst.iid := by
          refine List.mem_map.mpr ⟨j, hj, ?_⟩
          simpa using hjc
        obtain ⟨i, hi, hic⟩ := hc
        have hcr : c ∈ instIdsOf rest := by
          rw [mem_instIdsOf]
          exact ⟨b, hb2, i, hi, hic⟩
        exact (List.nodup_append.mp hnd).2.2 hcx hcr
    · rw [Bool.eq_false_iff.mpr hx]
      rcases List.mem_cons.mp hb with rfl | hb2
      · exfalso
        exact hx (List.any_eq_true.mpr
          ⟨hc.choose, hc.choose_spec.1, by simpa using hc.choose_spec.2⟩)
      · exact ih (List.nodup_append.mp hnd).2.1 hb2

theorem iid_unique (blocks : List SBlock)
    (hnd : (instIdsOf blocks).Nodup) (b1 b2 : SBlock)
    (hb1 : b1 ∈ blocks) (hb2 : b2 ∈ blocks) (i1 i2 : SInst)
    (hi1 : i1 ∈ b1.insts) (hi2 : i2 ∈ b2.insts)
    (heq : i1.iid = i2.iid) : b1 = b2 ∧ i1 = i2 := by
  induction blocks with
  | nil => cases hb1
  | cons x rest ih =>
    rw [instIdsOf_cons] at hnd
    rcases List.mem_cons.mp hb1 with rfl | hm1
    · rcases List.mem_cons.mp hb2 with rfl | hm2
      · refine ⟨rfl, ?_⟩
        exact List.inj_on_of_nodup_map (List.nodup_append.mp hnd).1
          hi1 hi2 heq
      · exfalso
        refine (List.nodup_append.mp hnd).2.2
          (List.mem_map_of_mem SInst.iid hi1) ?_
        rw [heq]
        exact (mem_instIdsOf rest i2.iid).mpr ⟨b2, hm2, i2, hi2, rfl⟩
    · rcases List.mem_cons.mp hb2 with rfl | hm2
      · exfalso
        refine (List.nodup_append.mp hnd).2.2
          (List.mem_map_of_mem SInst.iid hi2) ?_
        rw [← heq]
        exact (mem_instIdsOf rest i1.iid).mpr ⟨b1, hm1, i1, hi1, rfl⟩
      · exact ih (List.nodup_append.mp hnd).2.1 hm1 hm2

end CheckedC.SplitBB

namespace CheckedC.SplitBB

theorem blockWF_mk (bid : Nat) (body : List SInst) (tid : Nat)
    (h : ∀ e ∈ body, isTerm e = false) :
    blockWFb ⟨bid, body ++ [SInst.term tid]⟩ = true := by
  unfold blockWFb
  show (match (body ++ [SInst.term tid]).getLast? with
    | some i => isTerm i && !((body ++ [SInst.term tid]).dropLast.any isTerm)
    | none => false) = true
  rw [List.getLast?_concat, List.dropLast_concat]
  simp only [isTerm, Bool.true_and, Bool.not_eq_true']
  exact List.any_eq_false.mpr (fun e he => by rw [h e he]; exact fun hc => by cases hc)

theorem splitBlock_SWF (blocks B1 B2 : List SBlock) (b : SBlock)
    (P S : List SInst) (x : SInst) (t fB fT cnt cnt2 : Nat)
    (hsp : blocks = B1 ++ b :: B2) (hwf : SWF blocks cnt)
    (hbsp : b.insts = P ++ x :: S) (hx : x.iid = t)
    (hP : ∀ e ∈ P, e.iid ≠ t) (hPnt : ∀ e ∈ P, isTerm e = false)
    (hdrop : blockWFb ⟨fB, x :: S⟩ = true)
    (hfB : cnt ≤ fB) (hfT : cnt ≤ fT) (hne : fB ≠ fT)
    (hc2 : fB < cnt2 ∧ fT < cnt2 ∧ cnt ≤ cnt2) :
    SWF (splitBlock blocks b.id t fB fT) cnt2 ∧
    splitBlock blocks b.id t fB fT
      = B1 ++ ⟨b.id, P ++ [SInst.term fT]⟩ :: ⟨fB, x :: S⟩ :: B2 := by
  obtain ⟨hnid, hbid, hbwf, hibd, hbbd⟩ := hwf
  have hids := sblock_ids_ne blocks B1 B2 b hbid hsp
  have htake := takeWhile_at P S x t hx hP
  have heq : splitBlock blocks b.id t fB fT
      = B1 ++ ⟨b.id, P ++ [SInst.term fT]⟩ :: ⟨fB, x :: S⟩ :: B2 := by
    rw [hsp, splitBlock_at_split B1 B2 b t fB fT hids.1 hids.2]
    rw [hbsp, htake.1, htake.2]
  refine ⟨?_, heq⟩
  rw [heq]
  have holdids : instIdsOf blocks
      = instIdsOf B1 ++ (P.map SInst.iid ++ (x :: S).map SInst.iid)
        ++ instIdsOf B2 := by
    rw [hsp, instIdsOf_append, instIdsOf_cons, hbsp, List.map_append]
    simp [List.append_assoc]
  have hnewids : instIdsOf (B1 ++ ⟨b.id, P ++ [SInst.term fT]⟩
        :: ⟨fB, x :: S⟩ :: B2)
      = (instIdsOf B1 ++ P.map SInst.iid)
        ++ fT :: ((x :: S).map SInst.iid ++ instIdsOf B2) := by
    rw [instIdsOf_append, instIdsOf_cons, instIdsOf_cons]
    show instIdsOf B1 ++ ((P ++ [SInst.term fT]).map SInst.iid
      ++ ((x :: S).map SInst.iid ++ instIdsOf B2)) = _
    rw [List.map_append]
    simp [List.append_assoc, SInst.iid]
  have hperm : (instIdsOf (B1 ++ ⟨b.id, P ++ [SInst.term fT]⟩
        :: ⟨fB, x :: S⟩ :: B2)).Perm (fT :: instIdsOf blocks) := by
    rw [hnewids, holdids]
    refine List.perm_middle.trans ?_
    refine List.Perm.cons fT ?_
    simp [List.append_assoc]
  have hidsnotin : ∀ y ∈ instIdsOf blocks, y < cnt := hibd
  have hnodupnew : (instIdsOf (B1 ++ ⟨b.id, P ++ [SInst.term fT]⟩
      :: ⟨fB, x :: S⟩ :: B2)).Nodup := by
    refine hperm.nodup_iff.mpr ?_
    refine List.nodup_cons.mpr ⟨?_, hnid⟩
    intro hmem
    have := hidsnotin fT hmem
    omega
  have holdb : blocks.map SBlock.id
      = B1.map SBlock.id ++ b.id :: B2.map SBlock.id := by
    rw [hsp]
    simp
  have hnewb : (B1 ++ ⟨b.id, P ++ [SInst.term fT]⟩
        :: ⟨fB, x :: S⟩ :: B2).map SBlock.id
      = B1.map SBlock.id ++ b.id :: fB :: B2.map SBlock.id := by
    simp
  have hbperm : ((B1 ++ ⟨b.id, P ++ [SInst.term fT]⟩
        :: ⟨fB, x :: S⟩ :: B2).map SBlock.id).Perm
      (fB :: blocks.map SBlock.id) := by
    rw [hnewb, holdb]
    refine List.Perm.trans (List.Perm.append_left (B1.map SBlock.id)
      (List.Perm.swap fB b.id (B2.map SBlock.id))) ?_
    exact List.perm_middle
  have hbnodup : ((B1 ++ ⟨b.id, P ++ [SInst.term fT]⟩
      :: ⟨fB, x :: S⟩ :: B2).map SBlock.id).Nodup := by
    refine hbperm.nodup_iff.mpr ?_
    refine List.nodup_cons.mpr ⟨?_, hbid⟩
    intro hmem
    obtain ⟨bb, hbb, hbbid⟩ := List.mem_map.mp hmem
    have := hbbd bb hbb
    omega
  refine ⟨hnodupnew, hbnodup, ?_, ?_, ?_⟩
  · intro blk hblk
    rcases List.mem_append.mp hblk with h1 | h1
    · exact hbwf blk (hsp ▸ List.mem_append.mpr (Or.inl h1))
    · rcases List.mem_cons.mp h1 with rfl | h1
      · exact blockWF_mk b.id P fT hPnt
      · rcases List.mem_cons.mp h1 with rfl | h1
        · exact hdrop
        · exact hbwf blk (hsp ▸ List.mem_append.mpr
            (Or.inr (List.mem_cons_of_mem _ h1)))
  · intro y hy
    have := hperm.mem_iff.mp hy
    rcases List.mem_cons.mp this with rfl | hm
    · omega
    · have := hidsnotin y hm
      omega
  · intro blk hblk
    have hmem : blk.id ∈ (B1 ++ ⟨b.id, P ++ [SInst.term fT]⟩
        :: ⟨fB, x :: S⟩ :: B2).map SBlock.id := List.mem_map_of_mem _ hblk
    have := hbperm.mem_iff.mp hmem
    rcases List.mem_cons.mp this with heq2 | hm
    · omega
    · obtain ⟨bb, hbb, hbbid⟩ := List.mem_map.mp hm
      have := hbbd bb hbb
      omega

end CheckedC.SplitBB

namespace CheckedC.SplitBB

theorem splitBlock_mem_inst (blocks : List SBlock) (bid t fB fT : Nat)
    (b : SBlock) (hb : b ∈ blocks) (i : SInst) (hi : i ∈ b.insts) :
    ∃ b2 ∈ splitBlock blocks bid t fB fT, i ∈ b2.insts := by
  by_cases hbe : b.id = bid
  · have hpart := List.takeWhile_append_dropWhile
      (p := fun j => decide (j.iid ≠ t)) (l := b.insts)
    unfold splitBlock
    have hmem2 : [⟨b.id, (b.insts.takeWhile (fun j => j.iid ≠ t))
          ++ [SInst.term fT]⟩,
        (⟨fB, b.insts.dropWhile (fun j => j.iid ≠ t)⟩ : SBlock)]
        ∈ blocks.map (fun bb =>
          if bb.id = bid then
            [⟨bb.id, (bb.insts.takeWhile (fun j => j.iid ≠ t))
                ++ [SInst.term fT]⟩,
             ⟨fB, bb.insts.dropWhile (fun j => j.iid ≠ t)⟩]
          else [bb]) := by
      refine List.mem_map.mpr ⟨b, hb, ?_⟩
      rw [if_pos hbe]
    rw [← hpart] at hi
    rcases List.mem_append.mp hi with h1 | h1
    · refine ⟨⟨b.id, (b.insts.takeWhile (fun j => j.iid ≠ t))
          ++ [SInst.term fT]⟩, ?_, ?_⟩
      · rw [List.mem_join]
        exact ⟨_, hmem2, List.mem_cons_self _ _⟩
      · exact List.mem_append.mpr (Or.inl h1)
    · refine ⟨⟨fB, b.insts.dropWhile (fun j => j.iid ≠ t)⟩, ?_, h1⟩
      rw [List.mem_join]
      exact ⟨_, hmem2, List.mem_cons_of_mem _ (List.mem_cons_self _ _)⟩
  · exact ⟨b, splitBlock_mem_other blocks bid t fB fT b hb hbe, hi⟩

theorem processCall_step (blocks : List SBlock) (mf : List Nat)
    (cnt c : Nat) (hwf : SWF blocks cnt)
    (hc : ∃ b ∈ blocks, SInst.call c ∈ b.insts) :
    SWF (processCall (blocks, mf, cnt) c).1
      (processCall (blocks, mf, cnt) c).2.2 ∧
    cnt ≤ (processCall (blocks, mf, cnt) c).2.2 ∧
    (∃ b2 ∈ (processCall (blocks, mf, cnt) c).1,
      (∃ tid, b2.insts = [SInst.call c, SInst.term tid]) ∧
      b2.id ∈ (processCall (blocks, mf, cnt) c).2.1) ∧
    (∀ y ∈ mf, y ∈ (processCall (blocks, mf, cnt) c).2.1) ∧
    (∀ i : SInst, (∃ b ∈ blocks, i ∈ b.insts) →
      ∃ b2 ∈ (processCall (blocks, mf, cnt) c).1, i ∈ b2.insts) ∧
    (∀ b ∈ blocks, (∀ j ∈ b.insts, j.iid ≠ c) →
      b ∈ (processCall (blocks, mf, cnt) c).1) := by
  obtain ⟨bP, hbP, hcall⟩ := hc
  have hpar : parentOf blocks c = some bP :=
    parentOf_eq blocks hwf.1 bP hbP c ⟨SInst.call c, hcall, rfl⟩
  obtain ⟨body, tid, hbody, hnt⟩ := blockWF_split bP (hwf.2.2.1 bP hbP)
  have hcb : SInst.call c ∈ body := by
    rw [hbody] at hcall
    rcases List.mem_append.mp hcall with h | h
    · exact h
    · rw [List.mem_singleton] at h
      cases h
  obtain ⟨P0, S0, hbsp0⟩ := List.append_of_mem hcb
  have hsplit : bP.insts = P0 ++ SInst.call c :: (S0 ++ [SInst.term tid]) := by
    rw [hbody, hbsp0]
    simp
  have biidnd := block_iids_nodup blocks hwf.1 bP hbP
  have hP0ne : ∀ e ∈ P0, e.iid ≠ c :=
    (iids_ne_of_split bP.insts P0 (S0 ++ [SInst.term tid])
      (SInst.call c) biidnd hsplit).1
  have hP0nt : ∀ e ∈ P0, isTerm e = false := by
    intro e he
    refine hnt e ?_
    rw [hbsp0]
    exact List.mem_append.mpr (Or.inl he)
  have hS0nt : ∀ e ∈ S0, isTerm e = false := by
    intro e he
    refine hnt e ?_
    rw [hbsp0]
    exact List.mem_append.mpr (Or.inr (List.mem_cons_of_mem _ he))
  obtain ⟨b1, b2blocks, hbsp⟩ := List.append_of_mem hbP
  have hids := sblock_ids_ne blocks b1 b2blocks bP hwf.2.1 hbsp
  cases hS : S0 ++ [SInst.term tid] with
  | nil =>
    exfalso
    cases S0 with
    | nil => cases hS
    | cons a l => cases hS
  | cons s0 S2 =>
    have hnext : nextInst bP c = some s0 := by
      unfold nextInst
      rw [hsplit, (takeWhile_at P0 _ (SInst.call c) c rfl hP0ne).2, hS]
      rfl
    have hdropWF : blockWFb ⟨cnt, s0 :: S2⟩ = true := by
      rw [← hS]
      exact blockWF_mk cnt S0 tid hS0nt
    have hdropWF2 : ∀ k, blockWFb ⟨k, s0 :: S2⟩ = true := by
      intro k
      rw [← hS]
      exact blockWF_mk k S0 tid hS0nt
    have hIdNe : ∀ b ∈ blocks, (∀ j ∈ b.insts, j.iid ≠ c) → b.id ≠ bP.id := by
      intro b hb hnoc hcon
      have : b = bP := List.inj_on_of_nodup_map hwf.2.1 hb hbP hcon
      subst this
      exact hnoc (SInst.call c) hcall rfl
    cases hP0 : P0 with
    | nil =>
      have hbsp2 : bP.insts = [SInst.call c] ++ s0 :: S2 := by
        rw [hsplit, hP0, hS]
        rfl
      have hfirst : isFirstInst bP c = true := by
        unfold isFirstInst
        rw [hbsp2]
        simp [SInst.iid]
      have key : processCall (blocks, mf, cnt) c
          = (splitBlock blocks bP.id s0.iid cnt (cnt + 1),
             CheckedC.KeyOpt.setInsert mf bP.id, cnt + 2) := by
        simp only [processCall, hpar, hnext, hfirst, if_true]
      have hres := splitBlock_SWF blocks b1 b2blocks bP
        [SInst.call c] S2 s0 s0.iid cnt (cnt + 1) cnt (cnt + 2)
        hbsp hwf hbsp2 rfl
        ((iids_ne_of_split bP.insts [SInst.call c] S2 s0 biidnd hbsp2).1)
        (by
          intro e he
          rw [List.mem_singleton] at he
          subst he
          rfl)
        (hdropWF2 cnt) le_rfl (by omega) (by omega)
        ⟨by omega, by omega, by omega⟩
      rw [key]
      refine ⟨hres.1, by show cnt ≤ cnt + 2; omega, ?_, ?_, ?_, ?_⟩
      · refine ⟨⟨bP.id, [SInst.call c, SInst.term (cnt + 1)]⟩, ?_, ?_, ?_⟩
        · rw [hres.2]
          exact List.mem_append.mpr (Or.inr (List.mem_cons_self _ _))
        · exact ⟨cnt + 1, rfl⟩
        · exact (CheckedC.KeyOpt.mem_setInsert mf bP.id bP.id).mpr
            (Or.inr rfl)
      · intro y hy
        exact (CheckedC.KeyOpt.mem_setInsert mf bP.id y).mpr (Or.inl hy)
      · intro i hi
        obtain ⟨b, hb, hib⟩ := hi
        exact splitBlock_mem_inst blocks bP.id s0.iid cnt (cnt + 1) b hb i hib
      · intro b hb hnoc
        exact splitBlock_mem_other blocks bP.id s0.iid cnt (cnt + 1) b hb
          (hIdNe b hb hnoc)
    | cons p00 P0r =>
      have hbsp2 : bP.insts = P0 ++ SInst.call c :: (s0 :: S2) := by
        rw [hsplit, hS]
      have hfirst : isFirstInst bP c = false := by
        unfold isFirstInst
        rw [hbsp2, hP0]
        have := hP0ne p00 (by rw [hP0]; exact List.mem_cons_self _ _)
        simp [this]
      have key : processCall (blocks, mf, cnt) c
          = (splitBlock (splitBlock blocks bP.id c cnt (cnt + 1)) cnt
              s0.iid (cnt + 2) (cnt + 3),
             CheckedC.KeyOpt.setInsert mf cnt, cnt + 4) := by
        simp only [processCall, hpar, hnext, hfirst, Bool.false_eq_true,
          if_false]
      have hdrop1 : blockWFb ⟨cnt, SInst.call c :: s0 :: S2⟩ = true := by
        have h0 := blockWF_mk cnt (SInst.call c :: S0) tid (by
          intro e he
          rcases List.mem_cons.mp he with rfl | he2
          · rfl
          · exact hS0nt e he2)
        rw [List.cons_append, hS] at h0
        exact h0
      have hres1 := splitBlock_SWF blocks b1 b2blocks bP
        P0 (s0 :: S2) (SInst.call c) c cnt (cnt + 1) cnt (cnt + 2)
        hbsp hwf hbsp2 rfl hP0ne hP0nt hdrop1 le_rfl (by omega)
        (by omega) ⟨by omega, by omega, by omega⟩
      have hsp1 : splitBlock blocks bP.id c cnt (cnt + 1)
          = (b1 ++ [⟨bP.id, P0 ++ [SInst.term (cnt + 1)]⟩])
            ++ (⟨cnt, SInst.call c :: s0 :: S2⟩ : SBlock) :: b2blocks := by
        rw [hres1.2]
        simp
      have hmemN : (⟨cnt, SInst.call c :: s0 :: S2⟩ : SBlock)
          ∈ splitBlock blocks bP.id c cnt (cnt + 1) := by
        rw [hsp1]
        exact List.mem_append.mpr (Or.inr (List.mem_cons_self _ _))
      have biidnd2 : (((⟨cnt, SInst.call c :: s0 :: S2⟩ : SBlock)).insts.map
          SInst.iid).Nodup :=
        block_iids_nodup _ hres1.1.1 _ hmemN
      have hres2 := splitBlock_SWF (splitBlock blocks bP.id c cnt (cnt + 1))
        (b1 ++ [⟨bP.id, P0 ++ [SInst.term (cnt + 1)]⟩]) b2blocks
        (⟨cnt, SInst.call c :: s0 :: S2⟩ : SBlock)
        [SInst.call c] S2 s0 s0.iid (cnt + 2) (cnt + 3) (cnt + 2) (cnt + 4)
        hsp1 hres1.1 rfl rfl
        ((iids_ne_of_split _ [SInst.call c] S2 s0 biidnd2 rfl).1)
        (by
          intro e he
          rw [List.mem_singleton] at he
          subst he
          rfl)
        (hdropWF2 (cnt + 2)) le_rfl (by omega) (by omega)
        ⟨by omega, by omega, by omega⟩
      rw [key]
      refine ⟨hres2.1, by show cnt ≤ cnt + 4; omega, ?_, ?_, ?_, ?_⟩
      · refine ⟨⟨cnt, [SInst.call c, SInst.term (cnt + 3)]⟩, ?_, ?_, ?_⟩
        · rw [hres2.2]
          exact List.mem_append.mpr (Or.inr (List.mem_cons_self _ _))
        · exact ⟨cnt + 3, rfl⟩
        · exact (CheckedC.KeyOpt.mem_setInsert mf cnt cnt).mpr (Or.inr rfl)
      · intro y hy
        exact (CheckedC.KeyOpt.mem_setInsert mf cnt y).mpr (Or.inl hy)
      · intro i hi
        obtain ⟨b, hb, hib⟩ := hi
        obtain ⟨b2, hb2, hib2⟩ :=
          splitBlock_mem_inst blocks bP.id c cnt (cnt + 1) b hb i hib
        exact splitBlock_mem_inst _ cnt s0.iid (cnt + 2) (cnt + 3) b2 hb2 i hib2
      · intro b hb hnoc
        have h1 : b ∈ splitBlock blocks bP.id c cnt (cnt + 1) :=
          splitBlock_mem_other blocks bP.id c cnt (cnt + 1) b hb
            (hIdNe b hb hnoc)
        refine splitBlock_mem_other _ cnt s0.iid (cnt + 2) (cnt + 3) b h1 ?_
        have := hwf.2.2.2.2 b hb
        omega

end CheckedC.SplitBB

namespace CheckedC.SplitBB

theorem splitBB_fold (todo : List Nat) :
    ∀ (blocks : List SBlock) (mf : List Nat) (cnt : Nat) (done : List Nat),
    todo.Nodup →
    SWF blocks cnt →
    (∀ c ∈ todo, ∃ b ∈ blocks, SInst.call c ∈ b.insts) →
    (∀ c ∈ done, c ∉ todo) →
    (∀ c ∈ done, ∃ b ∈ blocks,
      (∃ tid, b.insts = [SInst.call c, SInst.term tid]) ∧ b.id ∈ mf) →
    SWF (todo.foldl processCall (blocks, mf, cnt)).1
      (todo.foldl processCall (blocks, mf, cnt)).2.2 ∧
    (∀ c ∈ done ++ todo, ∃ b ∈ (todo.foldl processCall (blocks, mf, cnt)).1,
      (∃ tid, b.insts = [SInst.call c, SInst.term tid]) ∧
      b.id ∈ (todo.foldl processCall (blocks, mf, cnt)).2.1) := by
  induction todo with
  | nil =>
    intro blocks mf cnt done _ hwf _ _ hdone
    refine ⟨hwf, ?_⟩
    intro c hc
    rw [List.append_nil] at hc
    exact hdone c hc
  | cons c rest ih =>
    intro blocks mf cnt done hnd hwf hin hdisj hdone
    have hstep := processCall_step blocks mf cnt c hwf
      (hin c (List.mem_cons_self _ _))
    obtain ⟨hwf2, hcnt2, hiso2, hmf2, hcons2, hkeep2⟩ := hstep
    have hin2 : ∀ c2 ∈ rest,
        ∃ b ∈ (processCall (blocks, mf, cnt) c).1,
          SInst.call c2 ∈ b.insts := by
      intro c2 hc2
      exact hcons2 (SInst.call c2) (hin c2 (List.mem_cons_of_mem _ hc2))
    have hdisj2 : ∀ x ∈ done ++ [c], x ∉ rest := by
      intro x hx
      rcases List.mem_append.mp hx with hx | hx
      · intro hc2
        exact hdisj x hx (List.mem_cons_of_mem _ hc2)
      · rw [List.mem_singleton] at hx
        subst hx
        exact (List.nodup_cons.mp hnd).1
    have hdone2 : ∀ x ∈ done ++ [c],
        ∃ b ∈ (processCall (blocks, mf, cnt) c).1,
          (∃ tid, b.insts = [SInst.call x, SInst.term tid]) ∧
          b.id ∈ (processCall (blocks, mf, cnt) c).2.1 := by
      intro x hx
      rcases List.mem_append.mp hx with hx | hx
      · obtain ⟨b, hb, ⟨tid, hiso⟩, hrec⟩ := hdone x hx
        have hnoc : ∀ j ∈ b.insts, j.iid ≠ c := by
          intro j hj
          rw [hiso] at hj
          rcases List.mem_cons.mp hj with rfl | hj
          · show x ≠ c
            intro hxc
            exact hdisj x hx (hxc ▸ List.mem_cons_self _ _)
          · rw [List.mem_singleton] at hj
            subst hj
            show tid ≠ c
            intro htc
            obtain ⟨bc, hbc, hbcall⟩ := hin c (List.mem_cons_self _ _)
            have hmemt : SInst.term tid ∈ b.insts := by
              rw [hiso]
              exact List.mem_cons_of_mem _ (List.mem_cons_self _ _)
            have := iid_unique blocks hwf.1 b bc hb hbc
              (SInst.term tid) (SInst.call c) hmemt hbcall
              (by simpa using htc)
            cases this.2
        exact ⟨b, hkeep2 b hb hnoc, ⟨tid, hiso⟩, hmf2 b.id hrec⟩
      · rw [List.mem_singleton] at hx
        subst hx
        obtain ⟨b2, hb2, hiso, hrec⟩ := hiso2
        exact ⟨b2, hb2, hiso, hrec⟩
    have := ih (processCall (blocks, mf, cnt) c).1
      (processCall (blocks, mf, cnt) c).2.1
      (processCall (blocks, mf, cnt) c).2.2 (done ++ [c])
      (List.nodup_cons.mp hnd).2 hwf2 hin2 hdisj2 hdone2
    rw [List.foldl_cons]
    refine ⟨this.1, ?_⟩
    intro c2 hc2
    refine this.2 c2 ?_
    rcases List.mem_append.mp hc2 with hx | hx
    · exact List.mem_append.mpr (Or.inl (List.mem_append.mpr (Or.inl hx)))
    · rcases List.mem_cons.mp hx with rfl | hx
      · exact List.mem_append.mpr
          (Or.inl (List.mem_append.mpr (Or.inr (List.mem_singleton_self _))))
      · exact List.mem_append.mpr (Or.inr hx)

/-- C3: after the Block-Splitter pass runs, every basic block of the
result that contains a call from `MayFreeCalls` consists of exactly
that call followed by the block's terminator — so the call is the
penultimate instruction, followed only by the terminator, and the block
contains no other may-free call — and the block's id is recorded in
`MayFreeBBs`. -/
theorem claim_C3 (blocks : List SBlock) (mfc : List Nat) (cnt : Nat)
    (hwf : SWF blocks cnt) (hnd : mfc.Nodup)
    (hin : ∀ c ∈ mfc, ∃ b ∈ blocks, SInst.call c ∈ b.insts) :
    ∀ b2 ∈ (SplitBB blocks mfc cnt).1, ∀ c ∈ mfc,
      SInst.call c ∈ b2.insts →
      (∃ tid, b2.insts = [SInst.call c, SInst.term tid]) ∧
      b2.id ∈ (SplitBB blocks mfc cnt).2.1 := by
  have hf := splitBB_fold mfc blocks [] cnt [] hnd hwf hin
    (fun x hx => absurd hx (List.not_mem_nil x))
    (fun x hx => absurd hx (List.not_mem_nil x))
  intro b2 hb2 c hc hcall2
  obtain ⟨b, hb, ⟨tid, hiso⟩, hrec⟩ := hf.2 c (by simpa using hc)
  have heq := iid_unique (SplitBB blocks mfc cnt).1 hf.1.1 b2 b hb2 hb
    (SInst.call c) (SInst.call c) hcall2
    (by rw [hiso]; exact List.mem_cons_self _ _) rfl
  rw [heq.1]
  exact ⟨⟨tid, hiso⟩, hrec⟩

/-- Witness for C3 on `exS3` (two may-free calls in one block): after
splitting, the call with id 2 sits alone with a fresh terminator in the
recorded block 10. -/
theorem claim_C3_witness :
    (SWF exS3 10 ∧ ([2, 4] : List Nat).Nodup ∧
      (∀ c ∈ ([2, 4] : List Nat), ∃ b ∈ exS3, SInst.call c ∈ b.insts)) ∧
    ((∃ tid, (⟨10, [SInst.call 2, SInst.term 13]⟩ : SBlock).insts
        = [SInst.call 2, SInst.term tid]) ∧
     (⟨10, [SInst.call 2, SInst.term 13]⟩ : SBlock).id
        ∈ (SplitBB exS3 [2, 4] 10).2.1) :=
  ⟨⟨by unfold SWF; refine ⟨by decide, by decide, by decide, by decide,
      by decide⟩, by decide, by decide⟩,
   claim_C3 exS3 [2, 4] 10
     (by unfold SWF; exact ⟨by decide, by decide, by decide, by decide,
       by decide⟩)
     (by decide) (by decide)
     ⟨10, [SInst.call 2, SInst.term 13]⟩ (by decide) 2 (by decide)
     (by decide)⟩

end CheckedC.SplitBB

/-!
## Free-Finder lemmas (claim C2)

The incremental transitive-closure maintenance of `insertEdge` is
verified against `Relation.TransGen`, then lifted through the callee
loop (`visit_fold`), the worklist loop (`reachLoop_sound`) and the
three collection steps of `FindMayFreeCalls`.
-/

namespace CheckedC.FreeFinder

theorem contains_mem {α : Type} [BEq α] [LawfulBEq α] (l : List α)
    (a : α) : l.contains a = true ↔ a ∈ l := by
  constructor
  · intro h
    exact List.mem_of_elem_eq_true h
  · intro h
    exact List.elem_eq_true_of_mem h

theorem transGen_congr {α : Type} {R1 R2 : α → α → Prop}
    (h : ∀ u v, R1 u v ↔ R2 u v) (x y : α) :
    Relation.TransGen R1 x y ↔ Relation.TransGen R2 x y :=
  ⟨Relation.TransGen.mono (fun u v hr => (h u v).mp hr),
   Relation.TransGen.mono (fun u v hr => (h u v).mpr hr)⟩

theorem mem_pairInsert (P : List (String × String))
    (p q : String × String) :
    q ∈ pairInsert P p ↔ q ∈ P ∨ q = p := by
  unfold pairInsert
  by_cases h : P.contains p = true
  · rw [if_pos h]
    constructor
    · exact Or.inl
    · intro hq
      rcases hq with hq | hq
      · exact hq
      · subst hq
        exact List.mem_of_elem_eq_true h
  · rw [if_neg h]
    rw [List.mem_append, List.mem_singleton]

theorem foldl_pairInsert_inner (ys : List String) (x : String) :
    ∀ (acc : List (String × String)) (q : String × String),
    q ∈ ys.foldl (fun acc2 y => pairInsert acc2 (x, y)) acc ↔
      q ∈ acc ∨ (q.1 = x ∧ q.2 ∈ ys) := by
  induction ys with
  | nil =>
    intro acc q
    simp
  | cons y ys ih =>
    intro acc q
    rw [List.foldl_cons, ih, mem_pairInsert]
    constructor
    · rintro ((h | h) | ⟨h1, h2⟩)
      · exact Or.inl h
      · subst h
        exact Or.inr ⟨rfl, List.mem_cons_self _ _⟩
      · exact Or.inr ⟨h1, List.mem_cons_of_mem _ h2⟩
    · rintro (h | ⟨h1, h2⟩)
      · exact Or.inl (Or.inl h)
      · rcases List.mem_cons.mp h2 with h2 | h2
        · refine Or.inl (Or.inr ?_)
          cases q with
          | mk q1 q2 =>
            simp only at h1 h2
            rw [h1, h2]
        · exact Or.inr ⟨h1, h2⟩

theorem foldl_pairInsert_outer (ys : List String) :
    ∀ (xs : List String) (acc : List (String × String))
      (q : String × String),
    q ∈ xs.foldl
      (fun acc x => ys.foldl (fun acc2 y => pairInsert acc2 (x, y)) acc)
      acc ↔ q ∈ acc ∨ (q.1 ∈ xs ∧ q.2 ∈ ys) := by
  intro xs
  induction xs with
  | nil =>
    intro acc q
    simp
  | cons x xs ih =>
    intro acc q
    rw [List.foldl_cons, ih, foldl_pairInsert_inner]
    constructor
    · rintro ((h | ⟨h1, h2⟩) | ⟨h1, h2⟩)
      · exact Or.inl h
      · refine Or.inr ⟨?_, h2⟩
        rw [h1]
        exact List.mem_cons_self _ _
      · exact Or.inr ⟨List.mem_cons_of_mem _ h1, h2⟩
    · rintro (h | ⟨h1, h2⟩)
      · exact Or.inl (Or.inl h)
      · rcases List.mem_cons.mp h1 with h1 | h1
        · exact Or.inl (Or.inr ⟨h1, h2⟩)
        · exact Or.inr ⟨h1, h2⟩

theorem mem_reachedSet (P : List (String × String)) (f x : String) :
    x ∈ reachedSet P f ↔ (x, f) ∈ P := by
  unfold reachedSet
  rw [List.mem_map]
  constructor
  · rintro ⟨e, he, hex⟩
    have hf := (List.mem_filter.mp he).2
    have hf2 : e.2 = f := of_decide_eq_true hf
    have heq : e = (x, f) := by
      cases e with
      | mk e1 e2 =>
        simp only at hex hf2
        rw [hex, hf2]
    rw [← heq]
    exact (List.mem_filter.mp he).1
  · intro h
    exact ⟨(x, f), List.mem_filter.mpr ⟨h, by simp⟩, rfl⟩

theorem mem_reachingSet (P : List (String × String)) (f y : String) :
    y ∈ reachingSet P f ↔ (f, y) ∈ P := by
  unfold reachingSet
  rw [List.mem_map]
  constructor
  · rintro ⟨e, he, hey⟩
    have hf := (List.mem_filter.mp he).2
    have hf2 : e.1 = f := of_decide_eq_true hf
    have heq : e = (f, y) := by
      cases e with
      | mk e1 e2 =>
        simp only at hey hf2
        rw [hey, hf2]
    rw [← heq]
    exact (List.mem_filter.mp he).1
  · intro h
    exact ⟨(f, y), List.mem_filter.mpr ⟨h, by simp⟩, rfl⟩

theorem mem_insertEdge (P : List (String × String)) (F c a b : String) :
    (a, b) ∈ insertEdge P F c ↔
      (a, b) ∈ P ∨
        ((a = F ∨ (a, F) ∈ P) ∧ (b = c ∨ (c, b) ∈ P)) := by
  unfold insertEdge
  rw [foldl_pairInsert_outer]
  show (a, b) ∈ P ∨ (a ∈ F :: reachedSet P F ∧ b ∈ c :: reachingSet P c)
    ↔ _
  rw [List.mem_cons, List.mem_cons, mem_reachedSet, mem_reachingSet]

theorem insertEdge_trans (P : List (String × String)) (F c : String)
    (R : String → String → Prop)
    (hP : ∀ x y, (x, y) ∈ P ↔ Relation.TransGen R x y)
    (x y z : String)
    (h1 : (x, y) ∈ insertEdge P F c)
    (h2 : (y, z) ∈ insertEdge P F c) :
    (x, z) ∈ insertEdge P F c := by
  rw [mem_insertEdge] at h1 h2 ⊢
  rcases h1 with h1 | ⟨hxF, hyc⟩
  · rcases h2 with h2 | ⟨hyF, hzc⟩
    · exact Or.inl
        ((hP x z).mpr (((hP x y).mp h1).trans ((hP y z).mp h2)))
    · refine Or.inr ⟨?_, hzc⟩
      rcases hyF with hyF | hyF
      · subst hyF
        exact Or.inr h1
      · exact Or.inr
          ((hP x F).mpr (((hP x y).mp h1).trans ((hP y F).mp hyF)))
  · rcases h2 with h2 | ⟨hyF, hzc⟩
    · refine Or.inr ⟨hxF, ?_⟩
      rcases hyc with hyc | hyc
      · subst hyc
        exact Or.inr h2
      · exact Or.inr
          ((hP c z).mpr (((hP c y).mp hyc).trans ((hP y z).mp h2)))
    · exact Or.inr ⟨hxF, hzc⟩

theorem insertEdge_closure (P : List (String × String)) (F c : String)
    (R : String → String → Prop)
    (hP : ∀ x y, (x, y) ∈ P ↔ Relation.TransGen R x y) (x y : String) :
    (x, y) ∈ insertEdge P F c ↔
      Relation.TransGen (fun u v => R u v ∨ (u = F ∧ v = c)) x y := by
  constructor
  · intro h
    rw [mem_insertEdge] at h
    rcases h with h | ⟨hxF, hyc⟩
    · exact Relation.TransGen.mono (fun u v hr => Or.inl hr)
        ((hP x y).mp h)
    · have hmid :
          Relation.TransGen (fun u v => R u v ∨ (u = F ∧ v = c)) F c :=
        Relation.TransGen.single (Or.inr ⟨rfl, rfl⟩)
      have hleft :
          Relation.TransGen (fun u v => R u v ∨ (u = F ∧ v = c)) x c := by
        rcases hxF with hxF | hxF
        · subst hxF
          exact hmid
        · exact Relation.TransGen.trans
            (Relation.TransGen.mono (fun u v hr => Or.inl hr)
              ((hP x F).mp hxF)) hmid
      rcases hyc with hyc | hyc
      · subst hyc
        exact hleft
      · exact Relation.TransGen.trans hleft
          (Relation.TransGen.mono (fun u v hr => Or.inl hr)
            ((hP c y).mp hyc))
  · intro h
    induction h with
    | single hr =>
      rw [mem_insertEdge]
      rcases hr with hr | ⟨h1, h2⟩
      · exact Or.inl ((hP _ _).mpr (Relation.TransGen.single hr))
      · exact Or.inr ⟨Or.inl h1, Or.inl h2⟩
    | tail hxb hr ih =>
      refine insertEdge_trans P F c R hP _ _ _ ih ?_
      rw [mem_insertEdge]
      rcases hr with hr | ⟨h1, h2⟩
      · exact Or.inl ((hP _ _).mpr (Relation.TransGen.single hr))
      · exact Or.inr ⟨Or.inl h1, Or.inl h2⟩

end CheckedC.FreeFinder

namespace CheckedC.FreeFinder

theorem visitFn_eq (m : List FFunc) (f : FFunc)
    (P : List (String × String)) (work : List String) :
    visitFn m f P work =
      (f.calls.foldl (visitStep m f.name) ([], P, work)).2 := rfl

theorem visitStep_seen (m : List FFunc) (fname : String)
    (acc : List (Option String) × List (String × String) × List String)
    (call : FCall) (h : acc.1.contains call.callee = true) :
    visitStep m fname acc call = acc := by
  unfold visitStep
  rw [if_pos h]

theorem visitStep_none (m : List FFunc) (fname : String)
    (acc : List (Option String) × List (String × String) × List String)
    (call : FCall) (h : acc.1.contains call.callee = false)
    (hcc : call.callee = none) :
    visitStep m fname acc call = (none :: acc.1, acc.2.1, acc.2.2) := by
  unfold visitStep
  rw [if_neg (by rw [h]; exact Bool.false_ne_true), hcc]

theorem visitStep_some_ok (m : List FFunc) (fname : String)
    (acc : List (Option String) × List (String × String) × List String)
    (call : FCall) (cname : String)
    (h : acc.1.contains call.callee = false)
    (hcc : call.callee = some cname) (hok : targetOK m cname = true) :
    visitStep m fname acc call =
      (some cname :: acc.1, insertEdge acc.2.1 fname cname,
       cname :: acc.2.2) := by
  unfold visitStep
  rw [if_neg (by rw [h]; exact Bool.false_ne_true), hcc]
  show (some cname :: acc.1,
      if targetOK m cname = true
      then (insertEdge acc.2.1 fname cname, cname :: acc.2.2)
      else (acc.2.1, acc.2.2)) = _
  rw [if_pos hok]

theorem visitStep_some_bad (m : List FFunc) (fname : String)
    (acc : List (Option String) × List (String × String) × List String)
    (call : FCall) (cname : String)
    (h : acc.1.contains call.callee = false)
    (hcc : call.callee = some cname) (hok : targetOK m cname = false) :
    visitStep m fname acc call = (some cname :: acc.1, acc.2.1, acc.2.2) := by
  unfold visitStep
  rw [if_neg (by rw [h]; exact Bool.false_ne_true), hcc]
  show (some cname :: acc.1,
      if targetOK m cname = true
      then (insertEdge acc.2.1 fname cname, cname :: acc.2.2)
      else (acc.2.1, acc.2.2)) = _
  rw [if_neg (by rw [hok]; exact Bool.false_ne_true)]

theorem exists_mem_snoc {α : Type} (l : List α) (a : α) (p : α → Prop) :
    (∃ x ∈ l ++ [a], p x) ↔ (∃ x ∈ l, p x) ∨ p a := by
  constructor
  · rintro ⟨x, hx, hp⟩
    rcases List.mem_append.mp hx with h | h
    · exact Or.inl ⟨x, h, hp⟩
    · rw [List.mem_singleton] at h
      subst h
      exact Or.inr hp
  · rintro (⟨x, hx, hp⟩ | hp)
    · exact ⟨x, List.mem_append_left _ hx, hp⟩
    · exact ⟨a, List.mem_append_right _ (List.mem_singleton_self _), hp⟩

theorem edgesOf_snoc (m : List FFunc) (fname : String)
    (done : List FCall) (call : FCall) (u v : String) :
    edgesOf m fname (done ++ [call]) u v ↔
      edgesOf m fname done u v ∨
        (u = fname ∧ call.callee = some v ∧ targetOK m v = true) := by
  unfold edgesOf
  constructor
  · rintro ⟨hu, c0, hc0, hcal, hok⟩
    rcases List.mem_append.mp hc0 with hmem | hmem
    · exact Or.inl ⟨hu, c0, hmem, hcal, hok⟩
    · rw [List.mem_singleton] at hmem
      subst hmem
      exact Or.inr ⟨hu, hcal, hok⟩
  · rintro (⟨hu, c0, hc0, hcal, hok⟩ | ⟨hu, hcal, hok⟩)
    · exact ⟨hu, c0, List.mem_append_left _ hc0, hcal, hok⟩
    · exact ⟨hu, call,
        List.mem_append_right _ (List.mem_singleton_self _), hcal, hok⟩

theorem visit_fold (m : List FFunc) (fname : String)
    (R : String → String → Prop) (W0 : List String) :
    ∀ (l done : List FCall) (seen : List (Option String))
      (P : List (String × String)) (W : List String),
    (∀ oc, oc ∈ seen ↔ oc ∈ done.map FCall.callee) →
    (∀ x y, (x, y) ∈ P ↔
      Relation.TransGen
        (fun u v => R u v ∨ edgesOf m fname done u v) x y) →
    (∀ w, w ∈ W ↔ w ∈ W0 ∨
      ∃ c0 ∈ done, c0.callee = some w ∧ targetOK m w = true) →
    (∀ x y, (x, y) ∈ (l.foldl (visitStep m fname) (seen, P, W)).2.1 ↔
      Relation.TransGen
        (fun u v => R u v ∨ edgesOf m fname (done ++ l) u v) x y)
    ∧ (∀ w, w ∈ (l.foldl (visitStep m fname) (seen, P, W)).2.2 ↔
      w ∈ W0 ∨
      ∃ c0 ∈ done ++ l, c0.callee = some w ∧ targetOK m w = true) := by
  intro l
  induction l with
  | nil =>
    intro done seen P W hseen hP hW
    constructor
    · intro x y
      simp only [List.foldl_nil, List.append_nil]
      exact hP x y
    · intro w
      simp only [List.foldl_nil, List.append_nil]
      exact hW w
  | cons call l ih =>
    intro done seen P W hseen hP hW
    have happ : done ++ call :: l = (done ++ [call]) ++ l := by
      rw [List.append_assoc]
      rfl
    simp only [List.foldl_cons]
    by_cases hsc : seen.contains call.callee = true
    · have hccd : call.callee ∈ done.map FCall.callee :=
        (hseen call.callee).mp ((contains_mem seen call.callee).mp hsc)
      have hcong : ∀ u v, edgesOf m fname (done ++ [call]) u v ↔
          edgesOf m fname done u v := by
        intro u v
        rw [edgesOf_snoc]
        constructor
        · rintro (hh | ⟨hu, hcal, hok⟩)
          · exact hh
          · rcases List.mem_map.mp hccd with ⟨c0, hc0, hc0e⟩
            exact ⟨hu, c0, hc0, by rw [hc0e, hcal], hok⟩
        · exact Or.inl
      have hseen2 : ∀ oc, oc ∈ seen ↔
          oc ∈ (done ++ [call]).map FCall.callee := by
        intro oc
        rw [List.map_append, List.mem_append]
        constructor
        · intro hh
          exact Or.inl ((hseen oc).mp hh)
        · rintro (hh | hh)
          · exact (hseen oc).mpr hh
          · rw [List.map_cons, List.map_nil, List.mem_singleton] at hh
            subst hh
            exact (contains_mem seen call.callee).mp hsc
      have hP2 : ∀ x y, (x, y) ∈ P ↔
          Relation.TransGen
            (fun u v => R u v ∨ edgesOf m fname (done ++ [call]) u v)
            x y :=
        fun x y => (hP x y).trans
          (transGen_congr (fun u v => or_congr Iff.rfl (hcong u v).symm)
            x y)
      have hW2 : ∀ w, w ∈ W ↔ w ∈ W0 ∨
          ∃ c0 ∈ done ++ [call],
            c0.callee = some w ∧ targetOK m w = true := by
        intro w
        rw [hW w, exists_mem_snoc]
        constructor
        · rintro (hh | hh)
          · exact Or.inl hh
          · exact Or.inr (Or.inl hh)
        · rintro (hh | (hh | ⟨hcal, hok⟩))
          · exact Or.inl hh
          · exact Or.inr hh
          · rcases List.mem_map.mp hccd with ⟨c0, hc0, hc0e⟩
            exact Or.inr ⟨c0, hc0, by rw [hc0e, hcal], hok⟩
      rw [visitStep_seen m fname (seen, P, W) call hsc, happ]
      exact ih (done ++ [call]) seen P W hseen2 hP2 hW2
    · have hscf : seen.contains call.callee = false :=
        Bool.eq_false_iff.mpr hsc
      rcases hcc : call.callee with _ | cname
      · have hcong : ∀ u v, edgesOf m fname (done ++ [call]) u v ↔
            edgesOf m fname done u v := by
          intro u v
          rw [edgesOf_snoc]
          constructor
          · rintro (hh | ⟨hu, hcal, hok⟩)
            · exact hh
            · rw [hcc] at hcal
              exact absurd hcal (by intro hx; cases hx)
          · exact Or.inl
        have hseen2 : ∀ oc, oc ∈ (none : Option String) :: seen ↔
            oc ∈ (done ++ [call]).map FCall.callee := by
          intro oc
          rw [List.map_append, List.mem_append, List.mem_cons]
          constructor
          · rintro (hh | hh)
            · subst hh
              refine Or.inr ?_
              rw [List.map_cons, List.map_nil, List.mem_singleton, hcc]
            · exact Or.inl ((hseen oc).mp hh)
          · rintro (hh | hh)
            · exact Or.inr ((hseen oc).mpr hh)
            · rw [List.map_cons, List.map_nil, List.mem_singleton,
                hcc] at hh
              exact Or.inl hh
        have hP2 : ∀ x y, (x, y) ∈ P ↔
            Relation.TransGen
              (fun u v => R u v ∨ edgesOf m fname (done ++ [call]) u v)
              x y :=
          fun x y => (hP x y).trans
            (transGen_congr
              (fun u v => or_congr Iff.rfl (hcong u v).symm) x y)
        have hW2 : ∀ w, w ∈ W ↔ w ∈ W0 ∨
            ∃ c0 ∈ done ++ [call],
              c0.callee = some w ∧ targetOK m w = true := by
          intro w
          rw [hW w, exists_mem_snoc]
          constructor
          · rintro (hh | hh)
            · exact Or.inl hh
            · exact Or.inr (Or.inl hh)
          · rintro (hh | (hh | ⟨hcal, hok⟩))
            · exact Or.inl hh
            · exact Or.inr hh
            · rw [hcc] at hcal
              exact absurd hcal (by intro hx; cases hx)
        rw [visitStep_none m fname (seen, P, W) call hscf hcc, happ]
        exact ih (done ++ [call]) (none :: seen) P W hseen2 hP2 hW2
      · by_cases hok : targetOK m cname = true
        · have hseen2 : ∀ oc, oc ∈ (some cname) :: seen ↔
              oc ∈ (done ++ [call]).map FCall.callee := by
            intro oc
            rw [List.map_append, List.mem_append, List.mem_cons]
            constructor
            · rintro (hh | hh)
              · subst hh
                refine Or.inr ?_
                rw [List.map_cons, List.map_nil, List.mem_singleton,
                  hcc]
              · exact Or.inl ((hseen oc).mp hh)
            · rintro (hh | hh)
              · exact Or.inr ((hseen oc).mpr hh)
              · rw [List.map_cons, List.map_nil, List.mem_singleton,
                  hcc] at hh
                exact Or.inl hh
          have hP2 : ∀ x y, (x, y) ∈ insertEdge P fname cname ↔
              Relation.TransGen
                (fun u v =>
                  R u v ∨ edgesOf m fname (done ++ [call]) u v) x y := by
            intro x y
            rw [insertEdge_closure P fname cname
              (fun u v => R u v ∨ edgesOf m fname done u v) hP x y]
            apply transGen_congr
            intro u v
            rw [edgesOf_snoc]
            constructor
            · rintro ((hh | hh) | ⟨hu, hv⟩)
              · exact Or.inl hh
              · exact Or.inr (Or.inl hh)
              · refine Or.inr (Or.inr ⟨hu, ?_, ?_⟩)
                · rw [hcc, hv]
                · rw [hv]
                  exact hok
            · rintro (hh | (hh | ⟨hu, hcal, hokv⟩))
              · exact Or.inl (Or.inl hh)
              · exact Or.inl (Or.inr hh)
              · rw [hcc] at hcal
                exact Or.inr ⟨hu, (Option.some.inj hcal).symm⟩
          have hW2 : ∀ w, w ∈ cname :: W ↔ w ∈ W0 ∨
              ∃ c0 ∈ done ++ [call],
                c0.callee = some w ∧ targetOK m w = true := by
            intro w
            rw [List.mem_cons, hW w, exists_mem_snoc]
            constructor
            · rintro (hh | (hh | hh))
              · subst hh
                exact Or.inr (Or.inr ⟨by rw [hcc], hok⟩)
              · exact Or.inl hh
              · exact Or.inr (Or.inl hh)
            · rintro (hh | (hh | ⟨hcal, hokw⟩))
              · exact Or.inr (Or.inl hh)
              · exact Or.inr (Or.inr hh)
              · rw [hcc] at hcal
                exact Or.inl (Option.some.inj hcal).symm
          rw [visitStep_some_ok m fname (seen, P, W) call cname hscf
            hcc hok, happ]
          exact ih (done ++ [call]) (some cname :: seen)
            (insertEdge P fname cname) (cname :: W) hseen2 hP2 hW2
        · have hokf : targetOK m cname = false :=
            Bool.eq_false_iff.mpr hok
          have hcong : ∀ u v, edgesOf m fname (done ++ [call]) u v ↔
              edgesOf m fname done u v := by
            intro u v
            rw [edgesOf_snoc]
            constructor
            · rintro (hh | ⟨hu, hcal, hokv⟩)
              · exact hh
              · rw [hcc] at hcal
                rw [(Option.some.inj hcal).symm] at hokv
                rw [hokf] at hokv
                exact absurd hokv (by intro hx; cases hx)
            · exact Or.inl
          have hseen2 : ∀ oc, oc ∈ (some cname) :: seen ↔
              oc ∈ (done ++ [call]).map FCall.callee := by
            intro oc
            rw [List.map_append, List.mem_append, List.mem_cons]
            constructor
            · rintro (hh | hh)
              · subst hh
                refine Or.inr ?_
                rw [List.map_cons, List.map_nil, List.mem_singleton,
                  hcc]
              · exact Or.inl ((hseen oc).mp hh)
            · rintro (hh | hh)
              · exact Or.inr ((hseen oc).mpr hh)
              · rw [List.map_cons, List.map_nil, List.mem_singleton,
                  hcc] at hh
                exact Or.inl hh
          have hP2 : ∀ x y, (x, y) ∈ P ↔
              Relation.TransGen
                (fun u v =>
                  R u v ∨ edgesOf m fname (done ++ [call]) u v) x y :=
            fun x y => (hP x y).trans
              (transGen_congr
                (fun u v => or_congr Iff.rfl (hcong u v).symm) x y)
          have hW2 : ∀ w, w ∈ W ↔ w ∈ W0 ∨
              ∃ c0 ∈ done ++ [call],
                c0.callee = some w ∧ targetOK m w = true := by
            intro w
            rw [hW w, exists_mem_snoc]
            constructor
            · rintro (hh | hh)
              · exact Or.inl hh
              · exact Or.inr (Or.inl hh)
            · rintro (hh | (hh | ⟨hcal, hokw⟩))
              · exact Or.inl hh
              · exact Or.inr hh
              · rw [hcc] at hcal
                rw [(Option.some.inj hcal).symm] at hokw
                rw [hokf] at hokw
                exact absurd hokw (by intro hx; cases hx)
          rw [visitStep_some_bad m fname (seen, P, W) call cname hscf
            hcc hokf, happ]
          exact ih (done ++ [call]) (some cname :: seen) P W
            hseen2 hP2 hW2

end CheckedC.FreeFinder

namespace CheckedC.FreeFinder

theorem edgesOf_nil (m : List FFunc) (fname u v : String) :
    ¬ edgesOf m fname ([] : List FCall) u v := by
  unfold edgesOf
  rintro ⟨_, c0, hc0, _⟩
  exact absurd hc0 (List.not_mem_nil c0)

theorem takeWhile_pred {α : Type} (p : α → Bool) :
    ∀ (l : List α) (x : α), x ∈ l.takeWhile p → p x = true := by
  intro l
  induction l with
  | nil =>
    intro x hx
    rw [List.takeWhile_nil] at hx
    exact absurd hx (List.not_mem_nil x)
  | cons a l ih =>
    intro x hx
    rw [List.takeWhile_cons] at hx
    by_cases hpa : p a = true
    · rw [if_pos hpa] at hx
      rcases List.mem_cons.mp hx with h | h
      · subst h
        exact hpa
      · exact ih x h
    · rw [if_neg hpa] at hx
      exact absurd hx (List.not_mem_nil x)

theorem dropWhile_subset {α : Type} (p : α → Bool) :
    ∀ (l : List α) (x : α), x ∈ l.dropWhile p → x ∈ l := by
  intro l
  induction l with
  | nil =>
    intro x hx
    rw [List.dropWhile_nil] at hx
    exact absurd hx (List.not_mem_nil x)
  | cons a l ih =>
    intro x hx
    rw [List.dropWhile_cons] at hx
    by_cases hpa : p a = true
    · rw [if_pos hpa] at hx
      exact List.mem_cons_of_mem a (ih x hx)
    · rw [if_neg hpa] at hx
      exact hx

theorem dropWhile_nil_forall {α : Type} (p : α → Bool) :
    ∀ (l : List α), l.dropWhile p = [] → ∀ x ∈ l, p x = true := by
  intro l
  induction l with
  | nil =>
    intro _ x hx
    exact absurd hx (List.not_mem_nil x)
  | cons a l ih =>
    intro h x hx
    rw [List.dropWhile_cons] at h
    by_cases hpa : p a = true
    · rw [if_pos hpa] at h
      rcases List.mem_cons.mp hx with hxx | hxx
      · subst hxx
        exact hpa
      · exact ih h x hxx
    · rw [if_neg hpa] at h
      exact absurd h (by intro hx2; cases hx2)

theorem edge_src_ok (m : List FFunc) (u v : String)
    (h : edgeB m u v = true) : targetOK m u = true := by
  unfold edgeB at h
  cases hlf : lookupFn m u with
  | none =>
    rw [hlf] at h
    have h2 : (false : Bool) = true := h
    cases h2
  | some f =>
    rw [hlf] at h
    have h2 : (!f.isDecl && !(containsPKC u)
        && f.calls.any (fun call => call.callee == some v)
        && targetOK m v) = true := h
    have hd : isDeclOf m u = f.isDecl := by
      unfold isDeclOf
      rw [hlf]
    unfold targetOK
    rw [hd]
    simp only [Bool.and_eq_true] at h2
    rw [Bool.and_eq_true]
    exact ⟨h2.1.1.1, h2.1.1.2⟩

theorem edgeV_cons_iff (m : List FFunc) (f : FFunc) (F : String)
    (visited : List String) (hlf : lookupFn m F = some f)
    (hokF : targetOK m F = true) (u v : String) :
    edgeV m (F :: visited) u v ↔
      edgeV m visited u v ∨ edgesOf m F f.calls u v := by
  have hdf : isDeclOf m F = f.isDecl := by
    unfold isDeclOf
    rw [hlf]
  have hokF2 : (!f.isDecl) = true ∧ (!(containsPKC F)) = true := by
    unfold targetOK at hokF
    rw [hdf, Bool.and_eq_true] at hokF
    exact hokF
  unfold edgeV edgesOf
  constructor
  · rintro ⟨he, hmem⟩
    rcases List.mem_cons.mp hmem with hu | hu
    · subst hu
      refine Or.inr ⟨rfl, ?_⟩
      unfold edgeB at he
      rw [hlf] at he
      have he2 : (!f.isDecl && !(containsPKC u)
          && f.calls.any (fun call => call.callee == some v)
          && targetOK m v) = true := he
      simp only [Bool.and_eq_true] at he2
      obtain ⟨⟨⟨_, _⟩, hany⟩, hokv⟩ := he2
      rw [List.any_eq_true] at hany
      obtain ⟨call, hcall, hbeq⟩ := hany
      exact ⟨call, hcall, eq_of_beq hbeq, hokv⟩
    · exact Or.inl ⟨he, hu⟩
  · rintro (⟨he, hmem⟩ | ⟨hu, call, hcall, hcal, hokv⟩)
    · exact ⟨he, List.mem_cons_of_mem F hmem⟩
    · subst hu
      refine ⟨?_, List.mem_cons_self u visited⟩
      unfold edgeB
      rw [hlf]
      show (!f.isDecl && !(containsPKC u)
        && f.calls.any (fun c0 => c0.callee == some v)
        && targetOK m v) = true
      rw [Bool.and_eq_true, Bool.and_eq_true, Bool.and_eq_true]
      refine ⟨⟨⟨hokF2.1, hokF2.2⟩, ?_⟩, hokv⟩
      rw [List.any_eq_true]
      refine ⟨call, hcall, ?_⟩
      rw [hcal]
      exact beq_self_eq_true _

theorem lookupFn_of_mem (g : FFunc) :
    ∀ (m : List FFunc), (m.map FFunc.name).Nodup → g ∈ m →
      lookupFn m g.name = some g := by
  intro m
  induction m with
  | nil =>
    intro _ hg
    exact absurd hg (List.not_mem_nil g)
  | cons f rest ih =>
    intro hnames hg
    rw [List.map_cons, List.nodup_cons] at hnames
    rcases List.mem_cons.mp hg with hgf | hgr
    · subst hgf
      unfold lookupFn
      rw [List.find?_cons]
      simp
    · have hne : f.name ≠ g.name := by
        intro he
        apply hnames.1
        rw [he]
        exact List.mem_map_of_mem FFunc.name hgr
      unfold lookupFn
      rw [List.find?_cons]
      have hx : decide (f.name = g.name) = false := by
        simp only [decide_eq_false_iff_not]
        exact hne
      rw [hx]
      exact ih hnames.2 hgr

theorem exit_congr (m : List FFunc) (visited : List String)
    (hsrc : ∀ u v, edgeB m u v = true → u ∈ visited) (x y : String) :
    Relation.TransGen (edgeV m visited) x y ↔
      Relation.TransGen (fun u v => edgeB m u v = true) x y := by
  apply transGen_congr
  intro u v
  constructor
  · intro h
    exact h.1
  · intro h
    exact ⟨h, hsrc u v h⟩

theorem reachLoop_sound (m : List FFunc) :
    ∀ (fuel : Nat) (visited work : List String)
      (P P2 : List (String × String)),
    (∀ x y, (x, y) ∈ P ↔ Relation.TransGen (edgeV m visited) x y) →
    (∀ w ∈ work, targetOK m w = true) →
    (∀ u, targetOK m u = true → u ∈ visited ∨ u ∈ work) →
    reachLoop m fuel visited work P = some P2 →
    ∀ x y, (x, y) ∈ P2 ↔
      Relation.TransGen (fun u v => edgeB m u v = true) x y := by
  intro fuel
  induction fuel with
  | zero =>
    intro visited work P P2 _ _ _ h
    have h0 : (none : Option (List (String × String))) = some P2 := h
    exact Option.noConfusion h0
  | succ fuel ih =>
    intro visited work P P2 hP hI2 hI3 h
    cases work with
    | nil =>
      have h0 : some P = some P2 := h
      have hP2 : P2 = P := (Option.some.inj h0).symm
      subst hP2
      intro x y
      rw [hP x y]
      apply exit_congr
      intro u v he
      rcases hI3 u (edge_src_ok m u v he) with hu | hu
      · exact hu
      · exact absurd hu (List.not_mem_nil u)
    | cons w0 wrest =>
      have h1 : (match (w0 :: wrest).dropWhile
            (fun n => visited.contains n) with
          | [] => some P
          | F :: rest =>
            match lookupFn m F with
            | none => reachLoop m fuel (F :: visited) rest P
            | some f =>
              reachLoop m fuel (F :: visited) (visitFn m f P rest).2
                (visitFn m f P rest).1) = some P2 := h
      cases hdw : (w0 :: wrest).dropWhile (fun n => visited.contains n) with
      | nil =>
        rw [hdw] at h1
        have h2 : some P = some P2 := h1
        have hP2 : P2 = P := (Option.some.inj h2).symm
        subst hP2
        intro x y
        rw [hP x y]
        apply exit_congr
        intro u v he
        rcases hI3 u (edge_src_ok m u v he) with hu | hu
        · exact hu
        · have hall := dropWhile_nil_forall (fun n => visited.contains n)
            (w0 :: wrest) hdw u hu
          exact (contains_mem visited u).mp hall
      | cons F rest =>
        rw [hdw] at h1
        have hFdw : F ∈ (w0 :: wrest).dropWhile
            (fun n => visited.contains n) := by
          rw [hdw]
          exact List.mem_cons_self F rest
        have hFw : F ∈ w0 :: wrest :=
          dropWhile_subset (fun n => visited.contains n) (w0 :: wrest)
            F hFdw
        have hokF : targetOK m F = true := hI2 F hFw
        have hrsub : ∀ r ∈ rest, r ∈ w0 :: wrest := by
          intro r hr
          refine dropWhile_subset (fun n => visited.contains n)
            (w0 :: wrest) r ?_
          rw [hdw]
          exact List.mem_cons_of_mem F hr
        have h1b : (match lookupFn m F with
            | none => reachLoop m fuel (F :: visited) rest P
            | some f =>
              reachLoop m fuel (F :: visited) (visitFn m f P rest).2
                (visitFn m f P rest).1) = some P2 := h1
        cases hlf : lookupFn m F with
        | none =>
          have hdecl : isDeclOf m F = true := by
            unfold isDeclOf
            rw [hlf]
          unfold targetOK at hokF
          rw [Bool.and_eq_true] at hokF
          rw [hdecl] at hokF
          have hx : (!true) = true := hokF.1
          cases hx
        | some f =>
          rw [hlf] at h1b
          have h2 : reachLoop m fuel (F :: visited)
              (visitFn m f P rest).2 (visitFn m f P rest).1
              = some P2 := h1b
          have hlf2 : List.find? (fun f0 => decide (f0.name = F)) m
              = some f := hlf
          have hpf := List.find?_some hlf2
          have hfn : f.name = F := of_decide_eq_true hpf
          subst hfn
          have hseen0 : ∀ oc : Option String,
              oc ∈ ([] : List (Option String)) ↔
                oc ∈ ([] : List FCall).map FCall.callee := by
            intro oc
            constructor
            · intro hx
              exact absurd hx (List.not_mem_nil oc)
            · intro hx
              rw [List.map_nil] at hx
              exact absurd hx (List.not_mem_nil oc)
          have hP0 : ∀ x y, (x, y) ∈ P ↔
              Relation.TransGen
                (fun u v => edgeV m visited u v ∨
                  edgesOf m f.name ([] : List FCall) u v) x y := by
            intro x y
            rw [hP x y]
            apply transGen_congr
            intro u v
            constructor
            · exact Or.inl
            · rintro (hh | hh)
              · exact hh
              · exact absurd hh (edgesOf_nil m f.name u v)
          have hW0 : ∀ w, w ∈ rest ↔ w ∈ rest ∨
              ∃ c0 ∈ ([] : List FCall),
                c0.callee = some w ∧ targetOK m w = true := by
            intro w
            constructor
            · exact Or.inl
            · rintro (hh | ⟨c0, hc0, _⟩)
              · exact hh
              · exact absurd hc0 (List.not_mem_nil c0)
          obtain ⟨hVP, hVW⟩ := visit_fold m f.name (edgeV m visited)
            rest f.calls [] [] P rest hseen0 hP0 hW0
          have hP1 : ∀ x y, (x, y) ∈ (visitFn m f P rest).1 ↔
              Relation.TransGen (edgeV m (f.name :: visited)) x y := by
            intro x y
            rw [visitFn_eq]
            rw [hVP x y]
            apply transGen_congr
            intro u v
            rw [edgeV_cons_iff m f f.name visited hlf hokF u v]
            rw [List.nil_append]
          have hI2n : ∀ w ∈ (visitFn m f P rest).2,
              targetOK m w = true := by
            intro w hw
            rw [visitFn_eq] at hw
            rcases (hVW w).mp hw with hh | ⟨c0, hc0, hcal, hok2⟩
            · exact hI2 w (hrsub w hh)
            · exact hok2
          have hI3n : ∀ u, targetOK m u = true →
              u ∈ f.name :: visited ∨ u ∈ (visitFn m f P rest).2 := by
            intro u hok2
            rcases hI3 u hok2 with hu | hu
            · exact Or.inl (List.mem_cons_of_mem _ hu)
            · have hsplit : (w0 :: wrest).takeWhile
                  (fun n => visited.contains n)
                  ++ (w0 :: wrest).dropWhile
                  (fun n => visited.contains n) = w0 :: wrest :=
                List.takeWhile_append_dropWhile
                  (fun n => visited.contains n) (w0 :: wrest)
              rw [← hsplit] at hu
              rcases List.mem_append.mp hu with hu2 | hu2
              · have hcu := takeWhile_pred (fun n => visited.contains n)
                  (w0 :: wrest) u hu2
                exact Or.inl (List.mem_cons_of_mem _
                  ((contains_mem visited u).mp hcu))
              · rw [hdw] at hu2
                rcases List.mem_cons.mp hu2 with hu3 | hu3
                · refine Or.inl ?_
                  rw [hu3]
                  exact List.mem_cons_self _ _
                · refine Or.inr ?_
                  rw [visitFn_eq]
                  exact (hVW u).mpr (Or.inl hu3)
          exact ih (f.name :: visited) (visitFn m f P rest).2
            (visitFn m f P rest).1 P2 hP1 hI2n hI3n h2

theorem FnReachAnalysis_correct (m : List FFunc)
    (hnames : (m.map FFunc.name).Nodup) (fuel : Nat)
    (P : List (String × String))
    (h : FnReachAnalysis m fuel = some P) :
    ∀ x y, (x, y) ∈ P ↔
      Relation.TransGen (fun u v => edgeB m u v = true) x y := by
  have h1 : reachLoop m fuel []
      (((m.filter (fun f => !f.isDecl && !(containsPKC f.name))).map
        (fun f => f.name)).reverse) [] = some P := h
  refine reachLoop_sound m fuel []
    (((m.filter (fun f => !f.isDecl && !(containsPKC f.name))).map
      (fun f => f.name)).reverse) [] P ?_ ?_ ?_ h1
  · intro x y
    constructor
    · intro hx
      exact absurd hx (List.not_mem_nil _)
    · intro hx
      exfalso
      cases hx with
      | single hr => exact absurd hr.2 (List.not_mem_nil x)
      | tail hpre hr => exact absurd hr.2 (List.not_mem_nil _)
  · intro w hw
    rw [List.mem_reverse] at hw
    rcases List.mem_map.mp hw with ⟨g, hgf, hgn⟩
    have hgn2 : g.name = w := hgn
    have hgm := (List.mem_filter.mp hgf).1
    have hgp := (List.mem_filter.mp hgf).2
    rw [Bool.and_eq_true] at hgp
    have hlg : lookupFn m g.name = some g :=
      lookupFn_of_mem g m hnames hgm
    have hdg : isDeclOf m g.name = g.isDecl := by
      unfold isDeclOf
      rw [hlg]
    rw [← hgn2]
    unfold targetOK
    rw [hdg, Bool.and_eq_true]
    exact ⟨hgp.1, hgp.2⟩
  · intro u hok
    refine Or.inr ?_
    rw [List.mem_reverse]
    unfold targetOK at hok
    rw [Bool.and_eq_true] at hok
    obtain ⟨hd, hp⟩ := hok
    cases hlf : lookupFn m u with
    | none =>
      unfold isDeclOf at hd
      rw [hlf] at hd
      have hd2 : (!true) = true := hd
      cases hd2
    | some f =>
      unfold isDeclOf at hd
      rw [hlf] at hd
      have hd2 : (!f.isDecl) = true := hd
      have hlf2 : List.find? (fun f0 => decide (f0.name = u)) m
          = some f := hlf
      have hfm : f ∈ m := List.mem_of_find?_eq_some hlf2
      have hpf := List.find?_some hlf2
      have hfn : f.name = u := of_decide_eq_true hpf
      rw [List.mem_map]
      refine ⟨f, ?_, hfn⟩
      rw [List.mem_filter]
      refine ⟨hfm, ?_⟩
      rw [Bool.and_eq_true]
      refine ⟨hd2, ?_⟩
      rw [hfn]
      exact hp

end CheckedC.FreeFinder

namespace CheckedC.FreeFinder

theorem bnot_true_iff (b : Bool) : (!b) = true ↔ b = false := by
  cases b
  · constructor
    · intro _
      rfl
    · intro _
      rfl
  · constructor
    · intro h
      cases h
    · intro h
      cases h

theorem mem_strInsert (s : List String) (x a : String) :
    a ∈ strInsert s x ↔ a ∈ s ∨ a = x := by
  unfold strInsert
  by_cases h : s.contains x = true
  · rw [if_pos h]
    constructor
    · exact Or.inl
    · rintro (hq | hq)
      · exact hq
      · subst hq
        exact List.mem_of_elem_eq_true h
  · rw [if_neg h]
    rw [List.mem_append, List.mem_singleton]

theorem foldl_strInsert_mem :
    ∀ (l s : List String) (a : String),
    a ∈ l.foldl strInsert s ↔ a ∈ s ∨ a ∈ l := by
  intro l
  induction l with
  | nil =>
    intro s a
    simp
  | cons x l ih =>
    intro s a
    rw [List.foldl_cons, ih, mem_strInsert]
    constructor
    · rintro ((h | h) | h)
      · exact Or.inl h
      · subst h
        exact Or.inr (List.mem_cons_self _ _)
      · exact Or.inr (List.mem_cons_of_mem _ h)
    · rintro (h | h)
      · exact Or.inl (Or.inl h)
      · rcases List.mem_cons.mp h with h | h
        · exact Or.inl (Or.inr h)
        · exact Or.inr h

theorem foldl_setInsert_mem :
    ∀ (l s : List Nat) (a : Nat),
    a ∈ l.foldl CheckedC.KeyOpt.setInsert s ↔ a ∈ s ∨ a ∈ l := by
  intro l
  induction l with
  | nil =>
    intro s a
    simp
  | cons x l ih =>
    intro s a
    rw [List.foldl_cons, ih, CheckedC.KeyOpt.mem_setInsert]
    constructor
    · rintro ((h | h) | h)
      · exact Or.inl h
      · subst h
        exact Or.inr (List.mem_cons_self _ _)
      · exact Or.inr (List.mem_cons_of_mem _ h)
    · rintro (h | h)
      · exact Or.inl (Or.inl h)
      · rcases List.mem_cons.mp h with h | h
        · exact Or.inl (Or.inr h)
        · exact Or.inr h

theorem fold_reached_mem (P : List (String × String)) :
    ∀ (L : List String) (acc : List String) (x : String),
    x ∈ L.foldl (fun acc f => (reachedSet P f).foldl strInsert acc)
      acc ↔ x ∈ acc ∨ ∃ f ∈ L, x ∈ reachedSet P f := by
  intro L
  induction L with
  | nil =>
    intro acc x
    simp
  | cons f L ih =>
    intro acc x
    rw [List.foldl_cons, ih, foldl_strInsert_mem]
    constructor
    · rintro ((h | h) | ⟨f0, hf0, hx⟩)
      · exact Or.inl h
      · exact Or.inr ⟨f, List.mem_cons_self _ _, h⟩
      · exact Or.inr ⟨f0, List.mem_cons_of_mem _ hf0, hx⟩
    · rintro (h | ⟨f0, hf0, hx⟩)
      · exact Or.inl (Or.inl h)
      · rcases List.mem_cons.mp hf0 with hf1 | hf1
        · subst hf1
          exact Or.inl (Or.inr hx)
        · exact Or.inr ⟨f0, hf1, hx⟩

theorem fold_users_mem (m : List FFunc) :
    ∀ (L : List String) (acc : List Nat) (y : Nat),
    y ∈ L.foldl
      (fun acc f => (usersCalls m f).foldl CheckedC.KeyOpt.setInsert acc)
      acc ↔ y ∈ acc ∨ ∃ F ∈ L, y ∈ usersCalls m F := by
  intro L
  induction L with
  | nil =>
    intro acc y
    simp
  | cons f L ih =>
    intro acc y
    rw [List.foldl_cons, ih, foldl_setInsert_mem]
    constructor
    · rintro ((h | h) | ⟨f0, hf0, hy⟩)
      · exact Or.inl h
      · exact Or.inr ⟨f, List.mem_cons_self _ _, h⟩
      · exact Or.inr ⟨f0, List.mem_cons_of_mem _ hf0, hy⟩
    · rintro (h | ⟨f0, hf0, hy⟩)
      · exact Or.inl (Or.inl h)
      · rcases List.mem_cons.mp hf0 with hf1 | hf1
        · subst hf1
          exact Or.inl (Or.inr hy)
        · exact Or.inr ⟨f0, hf1, hy⟩

theorem step1_inner (m : List FFunc) (wl : List String) (cname : String) :
    ∀ (calls : List FCall) (acc : List String × List Nat),
    (∀ x, x ∈ (calls.foldl
        (fun (acc2 : List String × List Nat) call =>
          if directMayFree m wl call then
            (strInsert acc2.1 cname,
             CheckedC.KeyOpt.setInsert acc2.2 call.id)
          else acc2) acc).1 ↔
      x ∈ acc.1 ∨ (x = cname ∧
        ∃ call ∈ calls, directMayFree m wl call = true))
    ∧ (∀ y, y ∈ (calls.foldl
        (fun (acc2 : List String × List Nat) call =>
          if directMayFree m wl call then
            (strInsert acc2.1 cname,
             CheckedC.KeyOpt.setInsert acc2.2 call.id)
          else acc2) acc).2 ↔
      y ∈ acc.2 ∨
        ∃ call ∈ calls, call.id = y ∧
          directMayFree m wl call = true) := by
  intro calls
  induction calls with
  | nil =>
    intro acc
    constructor
    · intro x
      simp
    · intro y
      simp
  | cons c calls ih =>
    intro acc
    simp only [List.foldl_cons]
    by_cases hd : directMayFree m wl c = true
    · rw [if_pos hd]
      obtain ⟨ih1, ih2⟩ := ih (strInsert acc.1 cname,
        CheckedC.KeyOpt.setInsert acc.2 c.id)
      constructor
      · intro x
        constructor
        · intro hx
          rcases (ih1 x).mp hx with hx2 | ⟨hxc, c0, hc0, hdm⟩
          · rcases (mem_strInsert acc.1 cname x).mp hx2 with hx3 | hx3
            · exact Or.inl hx3
            · exact Or.inr ⟨hx3, c, List.mem_cons_self _ _, hd⟩
          · exact Or.inr ⟨hxc, c0, List.mem_cons_of_mem _ hc0, hdm⟩
        · intro hx
          apply (ih1 x).mpr
          rcases hx with hx | ⟨hxc, c0, hc0, hdm⟩
          · exact Or.inl ((mem_strInsert acc.1 cname x).mpr (Or.inl hx))
          · exact Or.inl ((mem_strInsert acc.1 cname x).mpr (Or.inr hxc))
      · intro y
        constructor
        · intro hy
          rcases (ih2 y).mp hy with hy2 | ⟨c0, hc0, hcid, hdm⟩
          · rcases (CheckedC.KeyOpt.mem_setInsert acc.2 c.id y).mp hy2
              with hy3 | hy3
            · exact Or.inl hy3
            · exact Or.inr ⟨c, List.mem_cons_self _ _, hy3.symm, hd⟩
          · exact Or.inr ⟨c0, List.mem_cons_of_mem _ hc0, hcid, hdm⟩
        · intro hy
          apply (ih2 y).mpr
          rcases hy with hy | ⟨c0, hc0, hcid, hdm⟩
          · exact Or.inl
              ((CheckedC.KeyOpt.mem_setInsert acc.2 c.id y).mpr
                (Or.inl hy))
          · rcases List.mem_cons.mp hc0 with hcc | hcc
            · subst hcc
              exact Or.inl
                ((CheckedC.KeyOpt.mem_setInsert acc.2 c0.id y).mpr
                  (Or.inr hcid.symm))
            · exact Or.inr ⟨c0, hcc, hcid, hdm⟩
    · have hdf : directMayFree m wl c = false := Bool.eq_false_iff.mpr hd
      rw [if_neg hd]
      obtain ⟨ih1, ih2⟩ := ih acc
      constructor
      · intro x
        rw [ih1 x]
        constructor
        · rintro (hx | ⟨hxc, c0, hc0, hdm⟩)
          · exact Or.inl hx
          · exact Or.inr ⟨hxc, c0, List.mem_cons_of_mem _ hc0, hdm⟩
        · rintro (hx | ⟨hxc, c0, hc0, hdm⟩)
          · exact Or.inl hx
          · rcases List.mem_cons.mp hc0 with hcc | hcc
            · subst hcc
              rw [hdf] at hdm
              cases hdm
            · exact Or.inr ⟨hxc, c0, hcc, hdm⟩
      · intro y
        rw [ih2 y]
        constructor
        · rintro (hy | ⟨c0, hc0, hcid, hdm⟩)
          · exact Or.inl hy
          · exact Or.inr ⟨c0, List.mem_cons_of_mem _ hc0, hcid, hdm⟩
        · rintro (hy | ⟨c0, hc0, hcid, hdm⟩)
          · exact Or.inl hy
          · rcases List.mem_cons.mp hc0 with hcc | hcc
            · subst hcc
              rw [hdf] at hdm
              cases hdm
            · exact Or.inr ⟨c0, hcc, hcid, hdm⟩

end CheckedC.FreeFinder

namespace CheckedC.FreeFinder

theorem step1_outer (m : List FFunc) (wl : List String) :
    ∀ (ms : List FFunc) (acc : List String × List Nat),
    (∀ x, x ∈ (ms.foldl
        (fun (acc : List String × List Nat) caller =>
          if caller.isDecl || containsPKC caller.name then acc
          else
            caller.calls.foldl
              (fun (acc2 : List String × List Nat) call =>
                if directMayFree m wl call then
                  (strInsert acc2.1 caller.name,
                   CheckedC.KeyOpt.setInsert acc2.2 call.id)
                else acc2)
              acc) acc).1 ↔
      x ∈ acc.1 ∨ ∃ caller ∈ ms, caller.name = x ∧
        (caller.isDecl || containsPKC caller.name) = false ∧
        ∃ call ∈ caller.calls, directMayFree m wl call = true)
    ∧ (∀ y, y ∈ (ms.foldl
        (fun (acc : List String × List Nat) caller =>
          if caller.isDecl || containsPKC caller.name then acc
          else
            caller.calls.foldl
              (fun (acc2 : List String × List Nat) call =>
                if directMayFree m wl call then
                  (strInsert acc2.1 caller.name,
                   CheckedC.KeyOpt.setInsert acc2.2 call.id)
                else acc2)
              acc) acc).2 ↔
      y ∈ acc.2 ∨ ∃ caller ∈ ms,
        (caller.isDecl || containsPKC caller.name) = false ∧
        ∃ call ∈ caller.calls, call.id = y ∧
          directMayFree m wl call = true) := by
  intro ms
  induction ms with
  | nil =>
    intro acc
    constructor
    · intro x
      simp
    · intro y
      simp
  | cons caller ms ih =>
    intro acc
    simp only [List.foldl_cons]
    by_cases hsk : (caller.isDecl || containsPKC caller.name) = true
    · rw [if_pos hsk]
      obtain ⟨ih1, ih2⟩ := ih acc
      constructor
      · intro x
        rw [ih1 x]
        constructor
        · rintro (hx | ⟨c0, hc0, hn, hfalse, hex⟩)
          · exact Or.inl hx
          · exact Or.inr ⟨c0, List.mem_cons_of_mem _ hc0, hn, hfalse, hex⟩
        · rintro (hx | ⟨c0, hc0, hn, hfalse, hex⟩)
          · exact Or.inl hx
          · rcases List.mem_cons.mp hc0 with hcc | hcc
            · subst hcc
              rw [hsk] at hfalse
              cases hfalse
            · exact Or.inr ⟨c0, hcc, hn, hfalse, hex⟩
      · intro y
        rw [ih2 y]
        constructor
        · rintro (hy | ⟨c0, hc0, hfalse, hex⟩)
          · exact Or.inl hy
          · exact Or.inr ⟨c0, List.mem_cons_of_mem _ hc0, hfalse, hex⟩
        · rintro (hy | ⟨c0, hc0, hfalse, hex⟩)
          · exact Or.inl hy
          · rcases List.mem_cons.mp hc0 with hcc | hcc
            · subst hcc
              rw [hsk] at hfalse
              cases hfalse
            · exact Or.inr ⟨c0, hcc, hfalse, hex⟩
    · have hskf : (caller.isDecl || containsPKC caller.name) = false :=
        Bool.eq_false_iff.mpr hsk
      rw [if_neg hsk]
      obtain ⟨ih1, ih2⟩ := ih (caller.calls.foldl
        (fun (acc2 : List String × List Nat) call =>
          if directMayFree m wl call then
            (strInsert acc2.1 caller.name,
             CheckedC.KeyOpt.setInsert acc2.2 call.id)
          else acc2) acc)
      obtain ⟨in1, in2⟩ := step1_inner m wl caller.name caller.calls acc
      constructor
      · intro x
        rw [ih1 x]
        constructor
        · rintro (hx | ⟨c0, hc0, hn, hfalse, hex⟩)
          · rcases (in1 x).mp hx with hx2 | ⟨hxc, hex2⟩
            · exact Or.inl hx2
            · exact Or.inr ⟨caller, List.mem_cons_self _ _, hxc.symm,
                hskf, hex2⟩
          · exact Or.inr ⟨c0, List.mem_cons_of_mem _ hc0, hn, hfalse, hex⟩
        · rintro (hx | ⟨c0, hc0, hn, hfalse, hex⟩)
          · exact Or.inl ((in1 x).mpr (Or.inl hx))
          · rcases List.mem_cons.mp hc0 with hcc | hcc
            · subst hcc
              exact Or.inl ((in1 x).mpr (Or.inr ⟨hn.symm, hex⟩))
            · exact Or.inr ⟨c0, hcc, hn, hfalse, hex⟩
      · intro y
        rw [ih2 y]
        constructor
        · rintro (hy | ⟨c0, hc0, hfalse, hex⟩)
          · rcases (in2 y).mp hy with hy2 | hex2
            · exact Or.inl hy2
            · exact Or.inr ⟨caller, List.mem_cons_self _ _, hskf, hex2⟩
          · exact Or.inr ⟨c0, List.mem_cons_of_mem _ hc0, hfalse, hex⟩
        · rintro (hy | ⟨c0, hc0, hfalse, hex⟩)
          · exact Or.inl ((in2 y).mpr (Or.inl hy))
          · rcases List.mem_cons.mp hc0 with hcc | hcc
            · subst hcc
              exact Or.inl ((in2 y).mpr (Or.inr hex))
            · exact Or.inr ⟨c0, hcc, hfalse, hex⟩

theorem directFnB_iff (m : List FFunc) (mn : String) (x : String) :
    directFnB m mn x = true ↔
      ∃ caller ∈ m, caller.name = x ∧
        (caller.isDecl || containsPKC caller.name) = false ∧
        ∃ call ∈ caller.calls, directMayFree m (mkWL mn) call = true := by
  unfold directFnB
  rw [List.any_eq_true]
  constructor
  · rintro ⟨caller, hc, hb⟩
    simp only [Bool.and_eq_true] at hb
    obtain ⟨⟨hn, hnd⟩, hany⟩ := hb
    rw [List.any_eq_true] at hany
    obtain ⟨call, hcall, hdm⟩ := hany
    exact ⟨caller, hc, of_decide_eq_true hn,
      (bnot_true_iff _).mp hnd, call, hcall, hdm⟩
  · rintro ⟨caller, hc, hn, hfalse, call, hcall, hdm⟩
    refine ⟨caller, hc, ?_⟩
    simp only [Bool.and_eq_true]
    refine ⟨⟨decide_eq_true hn, ?_⟩, ?_⟩
    · rw [hfalse]
      rfl
    · rw [List.any_eq_true]
      exact ⟨call, hcall, hdm⟩

theorem directCallB_iff (m : List FFunc) (mn : String) (y : Nat) :
    directCallB m mn y = true ↔
      ∃ caller ∈ m,
        (caller.isDecl || containsPKC caller.name) = false ∧
        ∃ call ∈ caller.calls, call.id = y ∧
          directMayFree m (mkWL mn) call = true := by
  unfold directCallB
  rw [List.any_eq_true]
  constructor
  · rintro ⟨caller, hc, hb⟩
    rw [Bool.and_eq_true] at hb
    obtain ⟨hnd, hany⟩ := hb
    rw [List.any_eq_true] at hany
    obtain ⟨call, hcall, hb2⟩ := hany
    rw [Bool.and_eq_true] at hb2
    exact ⟨caller, hc, (bnot_true_iff _).mp hnd, call, hcall,
      of_decide_eq_true hb2.1, hb2.2⟩
  · rintro ⟨caller, hc, hfalse, call, hcall, hid, hdm⟩
    refine ⟨caller, hc, ?_⟩
    rw [Bool.and_eq_true]
    refine ⟨?_, ?_⟩
    · rw [hfalse]
      rfl
    · rw [List.any_eq_true]
      refine ⟨call, hcall, ?_⟩
      rw [Bool.and_eq_true]
      exact ⟨decide_eq_true hid, hdm⟩

theorem FindMayFreeCalls_eq (m : List FFunc) (mn : String)
    (P : List (String × String)) :
    FindMayFreeCalls m mn P =
      ((step1Fold m (mkWL mn)).1.foldl
        (fun acc f => (reachedSet P f).foldl strInsert acc)
        (step1Fold m (mkWL mn)).1,
       ((step1Fold m (mkWL mn)).1.foldl
        (fun acc f => (reachedSet P f).foldl strInsert acc)
        (step1Fold m (mkWL mn)).1).foldl
        (fun acc f =>
          (usersCalls m f).foldl CheckedC.KeyOpt.setInsert acc)
        (step1Fold m (mkWL mn)).2) := rfl

theorem mem_step1_fns (m : List FFunc) (mn : String) (z : String) :
    z ∈ (step1Fold m (mkWL mn)).1 ↔ directFnB m mn z = true := by
  rw [directFnB_iff]
  have h0 := (step1_outer m (mkWL mn) m ([], [])).1 z
  constructor
  · intro hz
    rcases h0.mp hz with hz2 | hz2
    · exact absurd hz2 (List.not_mem_nil z)
    · exact hz2
  · intro hz
    exact h0.mpr (Or.inr hz)

theorem mem_step1_calls (m : List FFunc) (mn : String) (z : Nat) :
    z ∈ (step1Fold m (mkWL mn)).2 ↔ directCallB m mn z = true := by
  rw [directCallB_iff]
  have h0 := (step1_outer m (mkWL mn) m ([], [])).2 z
  constructor
  · intro hz
    rcases h0.mp hz with hz2 | hz2
    · exact absurd hz2 (List.not_mem_nil z)
    · exact hz2
  · intro hz
    exact h0.mpr (Or.inr hz)

theorem mem_MayFreeFns (m : List FFunc) (mn : String)
    (P : List (String × String)) (x : String) :
    x ∈ (FindMayFreeCalls m mn P).1 ↔
      directFnB m mn x = true ∨
        ∃ f0, directFnB m mn f0 = true ∧ (x, f0) ∈ P := by
  rw [FindMayFreeCalls_eq]
  show x ∈ (step1Fold m (mkWL mn)).1.foldl
      (fun acc f => (reachedSet P f).foldl strInsert acc)
      (step1Fold m (mkWL mn)).1 ↔ _
  rw [fold_reached_mem]
  constructor
  · rintro (hx | ⟨f0, hf0, hxr⟩)
    · exact Or.inl ((mem_step1_fns m mn x).mp hx)
    · exact Or.inr ⟨f0, (mem_step1_fns m mn f0).mp hf0,
        (mem_reachedSet P f0 x).mp hxr⟩
  · rintro (hx | ⟨f0, hf0, hxp⟩)
    · exact Or.inl ((mem_step1_fns m mn x).mpr hx)
    · exact Or.inr ⟨f0, (mem_step1_fns m mn f0).mpr hf0,
        (mem_reachedSet P f0 x).mpr hxp⟩

theorem mem_MayFreeCalls (m : List FFunc) (mn : String)
    (P : List (String × String)) (y : Nat) :
    y ∈ (FindMayFreeCalls m mn P).2 ↔
      directCallB m mn y = true ∨
        ∃ F ∈ (FindMayFreeCalls m mn P).1, y ∈ usersCalls m F := by
  rw [FindMayFreeCalls_eq]
  show y ∈ ((step1Fold m (mkWL mn)).1.foldl
      (fun acc f => (reachedSet P f).foldl strInsert acc)
      (step1Fold m (mkWL mn)).1).foldl
      (fun acc f =>
        (usersCalls m f).foldl CheckedC.KeyOpt.setInsert acc)
      (step1Fold m (mkWL mn)).2 ↔
    directCallB m mn y = true ∨
      ∃ F ∈ (step1Fold m (mkWL mn)).1.foldl
        (fun acc f => (reachedSet P f).foldl strInsert acc)
        (step1Fold m (mkWL mn)).1, y ∈ usersCalls m F
  rw [fold_users_mem]
  exact or_congr (mem_step1_calls m mn y) Iff.rfl

end CheckedC.FreeFinder

namespace CheckedC.FreeFinder

/-- C2 is refuted on the module `exM2`: the reach analysis returns the
single pair (g, h), step 1 classifies only the indirect call 1 inside
`f` as directly-may-free, so MayFreeFns is exactly the singleton f;
yet MayFreeCalls ends up containing call 2 as well, although call 2 is
not directly-may-free and no call with id 2 has its callee in
MayFreeFns: call 2 merely passes `f` as a function argument, i.e. it
is a user of `f` but not a direct call site of any may-free
function. -/
theorem claim_C2_counterexample :
    FnReachAnalysis exM2 9 = some [("g", "h")]
    ∧ FindMayFreeCalls exM2 "m" [("g", "h")] = (["f"], [1, 2])
    ∧ (2 : Nat) ∈ (FindMayFreeCalls exM2 "m" [("g", "h")]).2
    ∧ directCallB exM2 "m" 2 = false
    ∧ (∀ f ∈ exM2, ∀ call ∈ f.calls, call.id = 2 →
        ¬ ∃ F ∈ (FindMayFreeCalls exM2 "m" [("g", "h")]).1,
          call.callee = some F) := by
  decide

/-- C2 (amended): if the function names of the module are distinct and
the reach-analysis worklist terminates with pair database `P`, then
(1) `P` records exactly the transitive closure of the call-graph edge
relation over defined non-key-check functions; (2) `MayFreeFns` holds
exactly the defined non-key-check functions containing a
directly-may-free call together with every function recorded in `P`
as reaching such a function; and (3) `MayFreeCalls` holds exactly the
directly-may-free call sites together with every call-instruction
user of a function in `MayFreeFns` — where a user is any call that
references the function as its callee or as a function-valued
argument, not only its direct call sites. -/
theorem claim_C2_amended (m : List FFunc) (mn : String) (fuel : Nat)
    (P : List (String × String))
    (hnames : (m.map FFunc.name).Nodup)
    (h : FnReachAnalysis m fuel = some P) :
    (∀ a b, (a, b) ∈ P ↔
      Relation.TransGen (fun u v => edgeB m u v = true) a b)
    ∧ (∀ x, x ∈ (FindMayFreeCalls m mn P).1 ↔
        (directFnB m mn x = true ∨
          ∃ f0, directFnB m mn f0 = true ∧ (x, f0) ∈ P))
    ∧ (∀ y, y ∈ (FindMayFreeCalls m mn P).2 ↔
        (directCallB m mn y = true ∨
          ∃ F ∈ (FindMayFreeCalls m mn P).1, y ∈ usersCalls m F)) :=
  ⟨FnReachAnalysis_correct m hnames fuel P h,
   fun x => mem_MayFreeFns m mn P x,
   fun y => mem_MayFreeCalls m mn P y⟩

/-- Witness for the amended C2 on `exM2b` (a has an indirect call, b
calls a, d calls b): the database certifies that d transitively
reaches a, the closure pulls d into MayFreeFns, and the call to b
(id 3) lands in MayFreeCalls as a user of the may-free function b. -/
theorem claim_C2_amended_witness :
    Relation.TransGen (fun u v => edgeB exM2b u v = true) "d" "a"
    ∧ "d" ∈ (FindMayFreeCalls exM2b "m"
        [("d", "b"), ("b", "a"), ("d", "a")]).1
    ∧ (3 : Nat) ∈ (FindMayFreeCalls exM2b "m"
        [("d", "b"), ("b", "a"), ("d", "a")]).2 := by
  have H := claim_C2_amended exM2b "m" 9
    [("d", "b"), ("b", "a"), ("d", "a")] (by decide) (by decide)
  refine ⟨(H.1 "d" "a").mp (by decide), ?_, ?_⟩
  · exact (H.2.1 "d").mpr (Or.inr ⟨"a", by decide, by decide⟩)
  · exact (H.2.2 3).mpr (Or.inr ⟨"b", by decide, by decide⟩)

end CheckedC.FreeFinder
